import Mathlib

/-
  Verification development for the `mst` Go package (Kruskal, Prim,
  union-find, DFS connectivity over a weighted graph).

  Shallow embedding conventions:
  * Go `int` is modelled as `Int` (no claim in scope exercises 64-bit wraparound:
    the only arithmetic is weight addition, rank increment and counters, and every
    equality/inequality proved here is preserved by reduction mod 2^64).
  * A Go `map[int]V` is modelled as `GoMap V`: a finite domain of keys plus a
    valuation function.  Reading an absent key yields the zero value (`default`),
    exactly as in Go; writing inserts the key.  Go map iteration order is
    unspecified, so every place the source ranges over a map is parameterised by
    an enumeration of the keys (see `Graph.KruskalWith`, `Graph.IsConnectedFrom`).
  * An `*Edge` stored in the graph is reduced to the fields the algorithms read:
    endpoint identities, weight and payload.  The Go code only ever dereferences
    `edge.From.ID`, `edge.To.ID`, `edge.Weight`, `edge.Data` on stored edges.
  * The opaque `any` payload is a type parameter `α`; `[Inhabited α]` mirrors the
    fact that `any` has the zero value `nil`.
  * Functions that can recurse unboundedly in Go (union-find `Find` on a cyclic
    parent map, the Prim loop, the recursive DFS) are written with explicit fuel;
    exhausting the fuel is reported as `Res.diverge` / `Option.none` and is proved
    unreachable for the states the algorithms actually build.
  * A Go `panic` is modelled as `Res.panic msg`: the function does not return a
    value to the caller.  A normal return is `Res.ok`.
-/

namespace MST

universe u

/-- Outcome of a Go function call: a normal return, a runtime `panic`
(the host aborts; no value is returned to the caller), or divergence
(modelled via fuel exhaustion; proved unreachable where used). -/
inductive Res (β : Type u) where
  | ok : β → Res β
  | panic : String → Res β
  | diverge : Res β
deriving DecidableEq

/-- Model of a Go `map[int]V`: a finite set of present keys and a valuation.
Reads of absent keys produce the zero value, as in Go. -/
structure GoMap (β : Type u) where
  dom : Finset Int
  fn : Int → β

namespace GoMap

def empty [Inhabited β] : GoMap β := ⟨∅, fun _ => default⟩

/-- `v, ok := m[k]` returning `some` iff the key is present. -/
def lookup (m : GoMap β) (x : Int) : Option β :=
  if x ∈ m.dom then some (m.fn x) else none

/-- `m[k]` in r-value position: zero value when the key is absent. -/
def get [Inhabited β] (m : GoMap β) (x : Int) : β :=
  if x ∈ m.dom then m.fn x else default

/-- `m[k] = v`: insert-or-update. -/
def set (m : GoMap β) (x : Int) (b : β) : GoMap β :=
  ⟨insert x m.dom, fun z => if z = x then b else m.fn z⟩

/-- `len(m)`. -/
def card (m : GoMap β) : Nat := m.dom.card

theorem lookup_set (m : GoMap β) (x : Int) (b : β) (z : Int) :
    (m.set x b).lookup z = if z = x then some b else m.lookup z := by
  unfold lookup set
  by_cases h : z = x
  · simp [h]
  · simp [h, Finset.mem_insert]

theorem get_set [Inhabited β] (m : GoMap β) (x : Int) (b : β) (z : Int) :
    (m.set x b).get z = if z = x then b else m.get z := by
  unfold get set
  by_cases h : z = x
  · simp [h]
  · simp [h, Finset.mem_insert]

theorem dom_set (m : GoMap β) (x : Int) (b : β) :
    (m.set x b).dom = insert x m.dom := rfl

theorem lookup_eq_some_get [Inhabited β] {m : GoMap β} {x : Int} (h : x ∈ m.dom) :
    m.lookup x = some (m.get x) := by
  unfold lookup get; simp [h]

theorem get_of_lookup [Inhabited β] {m : GoMap β} {x : Int} {b : β}
    (h : m.lookup x = some b) : m.get x = b := by
  unfold lookup at h
  unfold get
  by_cases hx : x ∈ m.dom
  · simp [hx] at h ⊢; exact h
  · simp [hx] at h

theorem mem_dom_of_lookup {m : GoMap β} {x : Int} {b : β}
    (h : m.lookup x = some b) : x ∈ m.dom := by
  unfold lookup at h
  by_cases hx : x ∈ m.dom
  · exact hx
  · simp [hx] at h

theorem lookup_none {m : GoMap β} {x : Int} (h : x ∉ m.dom) :
    m.lookup x = none := by unfold lookup; simp [h]

end GoMap

/-- A stored `*Edge`, reduced to the fields the algorithms read from it:
the endpoint identities, the weight and the payload. -/
structure Edge (α : Type u) where
  From : Int
  To : Int
  Weight : Int
  Data : α
deriving DecidableEq

/-- Go `type Vertex struct { ID int; Name string; Data any; Edges []*Edge }`.
Adjacency entries are stored edge values (see `Edge`). -/
structure Vertex (α : Type u) where
  ID : Int
  Name : String
  Data : α
  Edges : List (Edge α)
deriving DecidableEq

instance {α : Type u} [Inhabited α] : Inhabited (Vertex α) :=
  ⟨{ ID := 0, Name := "", Data := default, Edges := [] }⟩

instance {α : Type u} [Inhabited α] : Inhabited (Edge α) :=
  ⟨{ From := 0, To := 0, Weight := 0, Data := default }⟩

/-- `func (e *Edge) Reverse() *Edge`: swapped endpoints, same weight and payload. -/
def Edge.Reverse {α : Type u} (e : Edge α) : Edge α :=
  { From := e.To, To := e.From, Weight := e.Weight, Data := e.Data }

/-- Go `type Graph struct { Vertices map[int]Vertex; Edges []*Edge; Directed bool }`. -/
structure Graph (α : Type u) where
  Vertices : GoMap (Vertex α)
  Edges : List (Edge α)
  Directed : Bool

/-- `func NewGraph(directed bool) Graph`. -/
def NewGraph {α : Type u} [Inhabited α] (directed : Bool) : Graph α :=
  { Vertices := GoMap.empty, Edges := [], Directed := directed }

variable {α : Type u}

/-- `func (g *Graph) GetVertex(id int) (*Vertex, bool)`: the boolean is the
presence flag; the returned pointer addresses a copy of the stored record
(the zero record when absent, never dereferenced by callers in that case). -/
def Graph.GetVertex (g : Graph α) (id : Int) : Option (Vertex α) :=
  g.Vertices.lookup id

/-- `func (g *Graph) AddVertex(vertex Vertex) *Vertex`: first-writer-wins
insertion by identity; returns the canonical stored record. -/
def Graph.AddVertex (g : Graph α) (vertex : Vertex α) : Graph α × Vertex α :=
  match g.GetVertex vertex.ID with
  | some v => (g, v)
  | none => ({ g with Vertices := g.Vertices.set vertex.ID vertex }, vertex)

/-- The caller-built `Edge` argument of `AddEdge` (Go passes an `Edge` whose
`From`/`To` are caller-owned `*Vertex` records). -/
structure EdgeArg (α : Type u) where
  From : Vertex α
  To : Vertex α
  Weight : Int
  Data : α

/-- Lines 104-112 of `Graph.AddEdge`: look up both endpoints in the original
graph, then auto-create whichever was missing (in order `From`, then `To`;
`AddVertex` itself re-checks presence, which matters for self-loops on a
fresh identity). Returns the updated graph and the canonical endpoint records. -/
def Graph.addEndpoints (g : Graph α) (edge : EdgeArg α) :
    Graph α × Vertex α × Vertex α :=
  let fromLook := g.GetVertex edge.From.ID
  let toLook := g.GetVertex edge.To.ID
  let fromStep : Graph α × Vertex α :=
    match fromLook with
    | some v => (g, v)
    | none => g.AddVertex edge.From
  let toStep : Graph α × Vertex α :=
    match toLook with
    | some v => (fromStep.1, v)
    | none => fromStep.1.AddVertex edge.To
  (toStep.1, fromStep.2, toStep.2)

/-- `func (g *Graph) AddEdge(edge Edge) *Edge`: auto-create endpoints, append
the canonical forward edge to the global edge sequence and to the source
vertex's adjacency, and (undirected graphs only) append the reverse edge to
the target vertex's adjacency.  Returns the canonical forward edge. -/
def Graph.AddEdge [Inhabited α] (g : Graph α) (edge : EdgeArg α) :
    Graph α × Edge α :=
  let ep := g.addEndpoints edge
  let g2 := ep.1
  let fromV := ep.2.1
  let toV := ep.2.2
  let newEdge : Edge α :=
    { From := fromV.ID, To := toV.ID, Weight := edge.Weight, Data := edge.Data }
  let g3 : Graph α := { g2 with Edges := g2.Edges ++ [newEdge] }
  let fromVertex := g3.Vertices.get fromV.ID
  let fromVertex' : Vertex α := { fromVertex with Edges := fromVertex.Edges ++ [newEdge] }
  let g4 : Graph α := { g3 with Vertices := g3.Vertices.set fromV.ID fromVertex' }
  if g.Directed then (g4, newEdge)
  else
    let reverseEdge := newEdge.Reverse
    let toVertex := g4.Vertices.get toV.ID
    let toVertex' : Vertex α := { toVertex with Edges := toVertex.Edges ++ [reverseEdge] }
    let g5 : Graph α := { g4 with Vertices := g4.Vertices.set toV.ID toVertex' }
    (g5, newEdge)

/-- `func (g *Graph) VertexCount() int`. -/
def Graph.VertexCount (g : Graph α) : Nat := g.Vertices.card

/-- `func (g *Graph) EdgeCount() int`. -/
def Graph.EdgeCount (g : Graph α) : Nat := g.Edges.length

/-- Adjacency slice of the vertex stored under a key (`g.Vertices[id].Edges`;
the zero vertex has a nil adjacency, hence `[]` when the key is absent). -/
def Graph.adjOf (g : Graph α) (id : Int) : List (Edge α) :=
  match g.Vertices.lookup id with
  | some v => v.Edges
  | none => []

/-- Go `type UnionFind struct { parent map[int]int; rank map[int]int }`. -/
structure UnionFind where
  parent : GoMap Int
  rank : GoMap Int

/-- `func NewUnionFind() *UnionFind`. -/
def NewUnionFind : UnionFind := ⟨GoMap.empty, GoMap.empty⟩

/-- `func (uf *UnionFind) MakeSet(x int)`. -/
def UnionFind.MakeSet (uf : UnionFind) (x : Int) : UnionFind :=
  if x ∈ uf.parent.dom then uf
  else ⟨uf.parent.set x x, uf.rank.set x 0⟩

/-- Body of `func (uf *UnionFind) Find(x int) int` with explicit fuel.
The Go function reads `uf.parent[x]` (zero value `0` when absent), stops when
it equals `x`, and otherwise recurses on it and path-compresses by writing the
discovered root back to `parent[x]`.  On a cyclic parent map the Go recursion
never terminates; that is the `none` case. -/
def findAux : Nat → GoMap Int → Int → Option (GoMap Int × Int)
  | 0, _, _ => none
  | n + 1, p, x =>
    let px := p.get x
    if px = x then some (p, x)
    else
      match findAux n p px with
      | none => none
      | some (p', r) => some (p'.set x r, r)

/-- Fuel budget for `Find`: in every rooted, closed parent map the parent
chain of any element visits at most `card + 2` distinct nodes. -/
def UnionFind.findFuel (uf : UnionFind) : Nat := uf.parent.card + 4

/-- `func (uf *UnionFind) Find(x int) int`, together with the path-compressed
state. -/
def UnionFind.Find (uf : UnionFind) (x : Int) : Option (UnionFind × Int) :=
  match findAux uf.findFuel uf.parent x with
  | none => none
  | some (p', r) => some ({ uf with parent := p' }, r)

/-- `func (uf *UnionFind) Union(x, y int) bool`: find both roots (with path
compression); equal roots return `false`; otherwise merge by rank (lower-rank
root attached under the higher; on a tie the second root attaches under the
first, whose rank increments) and return `true`. -/
def UnionFind.Union (uf : UnionFind) (x y : Int) : Option (UnionFind × Bool) :=
  match uf.Find x with
  | none => none
  | some (uf1, rootX) =>
    match uf1.Find y with
    | none => none
    | some (uf2, rootY) =>
      if rootX = rootY then some (uf2, false)
      else
        let rx := uf2.rank.get rootX
        let ry := uf2.rank.get rootY
        if rx < ry then
          some ({ uf2 with parent := uf2.parent.set rootX rootY }, true)
        else if ry < rx then
          some ({ uf2 with parent := uf2.parent.set rootY rootX }, true)
        else
          some (⟨uf2.parent.set rootY rootX, uf2.rank.set rootX (rx + 1)⟩, true)

/-- Insertion of an edge into a weight-ascending list (`e` goes before the
first strictly heavier element). -/
def insertByWeight (e : Edge α) : List (Edge α) → List (Edge α)
  | [] => [e]
  | f :: t => if e.Weight ≤ f.Weight then e :: f :: t else f :: insertByWeight e t

/-- Stand-in for `sort.Slice(edges, func(i, j) { weight less })` on the copied
edge slice.  Go's `sort.Slice` is documented as not stable and its exact
permutation on equal weights depends on the (unpinned) standard library
version; an insertion sort is one weight-ascending permutation.  Every theorem
below whose truth could depend on the sort is therefore quantified over an
arbitrary permutation of the edge sequence instead of this function. -/
def sortEdges : List (Edge α) → List (Edge α)
  | [] => []
  | e :: t => insertByWeight e (sortEdges t)

/-- The edge-scanning loop of `Graph.Kruskal` (lines 259-270): for each edge in
order attempt `union(From, To)`; on success append the edge and its weight and
stop as soon as `len(mst) == VertexCount-1` (Go `int` arithmetic, hence the
comparison over `Int`). -/
def Graph.kruskalLoop (g : Graph α) :
    List (Edge α) → UnionFind → List (Edge α) → Int → Res (List (Edge α) × Int)
  | [], _, mst, totalWeight => Res.ok (mst, totalWeight)
  | e :: rest, uf, mst, totalWeight =>
    match uf.Union e.From e.To with
    | none => Res.diverge
    | some (uf', true) =>
      let mst' := mst ++ [e]
      let totalWeight' := totalWeight + e.Weight
      if (mst'.length : Int) = (g.VertexCount : Int) - 1 then Res.ok (mst', totalWeight')
      else g.kruskalLoop rest uf' mst' totalWeight'
    | some (uf', false) => g.kruskalLoop rest uf' mst totalWeight

/-- `func (g *Graph) Kruskal() ([]*Edge, int)`, parameterised by the order in
which `for id := range g.Vertices` enumerates the keys (Go map iteration order
is unspecified) and by the weight-sorted copy `edges` of the edge slice
(`sort.Slice` fixes only weight-ascending order, not the tie order). -/
def Graph.KruskalWith (g : Graph α) (enum : List Int) (edges : List (Edge α)) :
    Res (List (Edge α) × Int) :=
  if g.Directed then Res.panic ("Kruskal algorithm only works for undirected graphs")
  else
    let uf := enum.foldl UnionFind.MakeSet NewUnionFind
    g.kruskalLoop edges uf [] 0

/-- `Graph.Kruskal` with a canonical key enumeration and the insertion sort
standing in for `sort.Slice`. -/
def Graph.Kruskal (g : Graph α) : Res (List (Edge α) × Int) :=
  g.KruskalWith (g.Vertices.dom.sort (· ≤ ·)) (sortEdges g.Edges)

/-! Binary min-heap over edge weights: `container/heap` instantiated at
`PriorityQueue` (`Less` compares weights, `Push` appends, `Pop` removes the
last element after the `Swap`/`down` dance in `heap.Pop`). -/

/-- `h.Less(i, j)` guarded by bounds (all uses are in bounds). -/
def lessAt (l : List (Edge α)) (i j : Nat) : Bool :=
  match l.get? i, l.get? j with
  | some a, some b => a.Weight < b.Weight
  | _, _ => false

/-- `h.Swap(i, j)` (identity when out of bounds; all uses are in bounds). -/
def swapAt (l : List (Edge α)) (i j : Nat) : List (Edge α) :=
  match l.get? i, l.get? j with
  | some a, some b => (l.set i b).set j a
  | _, _ => l

/-- `func down(h Interface, i0, n int) bool` from `container/heap` (the boolean
result is unused by `Init`/`Pop`).  The loop index strictly increases, so
`n + 1` fuel suffices. -/
def downAux : Nat → List (Edge α) → Nat → Nat → List (Edge α)
  | 0, l, _, _ => l
  | fuel + 1, l, i, n =>
    let j1 := 2 * i + 1
    if j1 ≥ n then l
    else
      let j := if j1 + 1 < n ∧ lessAt l (j1 + 1) j1 then j1 + 1 else j1
      if ¬ lessAt l j i then l
      else downAux fuel (swapAt l i j) j n

def heapDown (l : List (Edge α)) (i n : Nat) : List (Edge α) :=
  downAux (n + 1) l i n

/-- `func up(h Interface, j int)` from `container/heap`; at `j = 0` Go computes
`i = (-1)/2 = 0 = j` and stops. -/
def upAux : Nat → List (Edge α) → Nat → List (Edge α)
  | 0, l, _ => l
  | fuel + 1, l, j =>
    if j = 0 then l
    else
      let i := (j - 1) / 2
      if ¬ lessAt l j i then l
      else upAux fuel (swapAt l i j) i

def heapUp (l : List (Edge α)) (j : Nat) : List (Edge α) :=
  upAux (j + 1) l j

/-- `heap.Push(pq, e)`: append, then sift up from the last index. -/
def heapPush (l : List (Edge α)) (e : Edge α) : List (Edge α) :=
  heapUp (l ++ [e]) l.length

/-- `heap.Pop(pq)`: swap the root to the end, sift down over the shortened
prefix, then remove and return the last element.  `none` on the empty queue
(Go would panic on the out-of-range `Swap`; Prim guards with `pq.Len() > 0`). -/
def heapPop (l : List (Edge α)) : Option (Edge α × List (Edge α)) :=
  if l.isEmpty then none
  else
    let n := l.length
    let l2 := heapDown (swapAt l 0 (n - 1)) 0 (n - 1)
    match l2.getLast? with
    | some e => some (e, l2.dropLast)
    | none => none

/-- `heap.Init(pq)`: sift down every internal node, last first.  (Prim calls
it on the empty queue, where it is a no-op.) -/
def heapInit (l : List (Edge α)) : List (Edge α) :=
  let n := l.length
  (List.range (n / 2)).reverse.foldl (fun acc i => heapDown acc i n) l

/-- Total adjacency length over all stored vertices, an upper bound on the
number of `heap.Push` calls Prim can ever perform. -/
def Graph.sumAdj (g : Graph α) : Nat :=
  g.Vertices.dom.sum (fun id => (g.Vertices.fn id).Edges.length)

/-- The set of adjacency targets stored anywhere in the vertex map — the only
node identities the DFS recursion can ever be called on besides its start. -/
def Graph.targets (g : Graph α) : Finset Int :=
  g.Vertices.dom.biUnion (fun id => ((g.Vertices.fn id).Edges.map Edge.To).toFinset)

/-- The main loop of `Graph.Prim` (lines 333-353): while the queue is
non-empty and fewer than `VertexCount-1` edges are accepted, pop the minimum
edge; skip it if its target is visited, otherwise accept it, mark the target
and push the target's adjacency edges whose own targets are unvisited. -/
def Graph.primLoop [Inhabited α] (g : Graph α) :
    Nat → List (Edge α) → Finset Int → List (Edge α) → Int →
    Option (List (Edge α) × Int)
  | 0, _, _, _, _ => none
  | fuel + 1, pq, visited, mst, totalWeight =>
    if 0 < pq.length ∧ (mst.length : Int) < (g.VertexCount : Int) - 1 then
      match heapPop pq with
      | none => none
      | some (edge, pq') =>
        if edge.To ∈ visited then g.primLoop fuel pq' visited mst totalWeight
        else
          let mst' := mst ++ [edge]
          let totalWeight' := totalWeight + edge.Weight
          let visited' := insert edge.To visited
          let pq'' := (g.adjOf edge.To).foldl
            (fun acc nextEdge => if nextEdge.To ∈ visited' then acc else heapPush acc nextEdge) pq'
          g.primLoop fuel pq'' visited' mst' totalWeight'
    else some (mst, totalWeight)

/-- Fuel for the Prim loop: every iteration pops one element, and at most
`sumAdj + |start.Edges| ≤ 2 * sumAdj` elements are ever pushed. -/
def Graph.primFuel (g : Graph α) : Nat := 2 * g.sumAdj + 2

/-- `func (g *Graph) Prim(startID int) ([]*Edge, int)`: panics on a directed
graph; returns `nil, 0` when the start identity is absent; otherwise marks the
stored start record's ID visited, pushes its adjacency and runs the loop. -/
def Graph.Prim [Inhabited α] (g : Graph α) (startID : Int) : Res (List (Edge α) × Int) :=
  if g.Directed then Res.panic ("Prim algorithm only works for undirected graphs")
  else
    match g.Vertices.lookup startID with
    | none => Res.ok ([], 0)
    | some start =>
      let pq0 : List (Edge α) := heapInit []
      let visited0 : Finset Int := {start.ID}
      let pq1 := start.Edges.foldl (fun acc e => heapPush acc e) pq0
      match g.primLoop g.primFuel pq1 visited0 [] 0 with
      | none => Res.diverge
      | some (mst, totalWeight) => Res.ok (mst, totalWeight)

mutual

/-- `func (g *Graph) dfs(nodeID int, visited map[int]bool)` with fuel: mark the
node, then for each adjacency edge whose target is unvisited recurse.  The
sibling recursions thread the visited set left to right, as the shared Go map
does. -/
def Graph.dfs (g : Graph α) : Nat → Int → Finset Int → Option (Finset Int)
  | 0, _, _ => none
  | fuel + 1, nodeID, visited => g.dfsEdges fuel (g.adjOf nodeID) (insert nodeID visited)

/-- The edge loop inside `dfs`, threading the visited set. -/
def Graph.dfsEdges (g : Graph α) : Nat → List (Edge α) → Finset Int → Option (Finset Int)
  | _, [], visited => some visited
  | fuel, e :: rest, visited =>
    if e.To ∈ visited then g.dfsEdges fuel rest visited
    else
      match g.dfs fuel e.To visited with
      | none => none
      | some visited' => g.dfsEdges fuel rest visited'

end

/-- Fuel for the DFS: every recursive call marks a previously unvisited node,
and at most `1 + sumAdj` nodes are ever markable. -/
def Graph.dfsFuel (g : Graph α) : Nat := g.sumAdj + 2

/-- `func (g *Graph) IsConnected() bool`, parameterised by the start key that
`for id := range g.Vertices` picks (Go map iteration order is unspecified):
DFS from it and compare the number of reached nodes with the vertex count. -/
def Graph.IsConnectedFrom (g : Graph α) (startID : Int) : Option Bool :=
  if g.VertexCount = 0 then some true
  else
    match g.dfs g.dfsFuel startID ∅ with
    | none => none
    | some visited => some (visited.card = g.VertexCount)

/-- `Graph.IsConnected` with a canonical choice of start key. -/
def Graph.IsConnected (g : Graph α) : Option Bool :=
  g.IsConnectedFrom ((g.Vertices.dom.sort (· ≤ ·)).headD 0)

/-- `func GetMSTWeight(mst []*Edge) int`. -/
def GetMSTWeight (mst : List (Edge α)) : Int :=
  mst.foldl (fun w e => w + e.Weight) 0

/-! ### State-passing forms of the read-only operations

The three algorithm entry points take the receiver `*Graph`; their bodies read
`g.Directed`, `g.Edges` (Kruskal copies this slice before sorting it),
`g.Vertices` and vertex adjacency, and contain no store through the receiver:
the union-find, the priority queue and the visited map are freshly allocated
locals.  The state-passing form returns the receiver state at method exit next
to the result. -/

def Graph.KruskalS (g : Graph α) (enum : List Int) (edges : List (Edge α)) :
    Graph α × Res (List (Edge α) × Int) :=
  (g, g.KruskalWith enum edges)

def Graph.PrimS [Inhabited α] (g : Graph α) (startID : Int) :
    Graph α × Res (List (Edge α) × Int) :=
  (g, g.Prim startID)

def Graph.IsConnectedS (g : Graph α) (startID : Int) :
    Graph α × Option Bool :=
  (g, g.IsConnectedFrom startID)

/-! ### Well-formedness of union-find states -/

/-- The root relation of a parent map: the value `Find` computes, ignoring
path compression.  `get` reads `0` for absent keys, as in Go. -/
inductive Rooted (p : GoMap Int) : Int → Int → Prop where
  | root (x : Int) : p.get x = x → Rooted p x x
  | step (x r : Int) : p.get x ≠ x → Rooted p (p.get x) r → Rooted p x r

/-- The parent chain from `x` to its root, with the visited nodes listed. -/
inductive RootChain (p : GoMap Int) : Int → Int → List Int → Prop where
  | root (x : Int) : p.get x = x → RootChain p x x [x]
  | step (x r : Int) (l : List Int) :
      p.get x ≠ x → RootChain p (p.get x) r l → RootChain p x r (x :: l)

/-- Well-formed union-find state: parent links stay inside the key set (plus
the Go zero value `0`), and the `Find` recursion terminates within the fuel
budget from every key (hence, by `ufok_find_total`, from every element).
Both conjuncts are decidable, so concrete states can be checked by `decide`. -/
def UFok (uf : UnionFind) : Prop :=
  (∀ x ∈ uf.parent.dom, uf.parent.get x ∈ insert 0 uf.parent.dom) ∧
  (∀ x ∈ insert 0 uf.parent.dom, (findAux uf.findFuel uf.parent x).isSome = true)

instance (uf : UnionFind) : Decidable (UFok uf) :=
  inferInstanceAs (Decidable (_ ∧ _))

/-- Propositional form of well-formedness of a parent map: links stay in the
key set (plus `0`), and every element reaches a root.  Equivalent to `UFok`
(see `pok_of_ufok` / `ufok_of_pok`). -/
def POk (p : GoMap Int) : Prop :=
  (∀ z ∈ p.dom, p.get z ∈ insert 0 p.dom) ∧ (∀ x, ∃ r, Rooted p x r)

/-- The root of `x` as a total function (meaningful on `UFok` states). -/
def rootD (p : GoMap Int) (x : Int) : Int :=
  match findAux (p.card + 4) p x with
  | some (_, r) => r
  | none => 0

/-! ### Graphs reachable through the public construction API -/

/-- A caller-built vertex record as the spec's `addVertex(id, name, payload)`
produces it: fresh, with no adjacency. -/
def freshVertex (id : Int) (name : String) (data : α) : Vertex α :=
  { ID := id, Name := name, Data := data, Edges := [] }

/-- Undirected graphs built by the public API: start from
`NewGraph(false)` and repeatedly insert fresh vertices and edges. -/
inductive Built [Inhabited α] : Graph α → Prop where
  | base : Built (NewGraph false)
  | addV (g : Graph α) (id : Int) (name : String) (data : α) :
      Built g → Built (g.AddVertex (freshVertex id name data)).1
  | addE (g : Graph α) (ef et : Vertex α) (w : Int) (d : α) :
      ef.Edges = [] → et.Edges = [] →
      Built g → Built (g.AddEdge ⟨ef, et, w, d⟩).1

/-- `y` is an adjacency target of `x`. -/
def Graph.adjacent (g : Graph α) (x y : Int) : Prop :=
  ∃ e ∈ g.adjOf x, e.To = y

/-- Connectivity: the reflexive-transitive closure of adjacency. -/
def Graph.Conn (g : Graph α) (x y : Int) : Prop :=
  Relation.ReflTransGen g.adjacent x y

/-- Structural invariants of API-built undirected graphs (established by
induction over `Built`). -/
structure GInv (g : Graph α) : Prop where
  undirected : g.Directed = false
  idKey : ∀ id ∈ g.Vertices.dom, (g.Vertices.fn id).ID = id
  adjFrom : ∀ id ∈ g.Vertices.dom, ∀ e ∈ (g.Vertices.fn id).Edges, e.From = id
  adjToDom : ∀ id ∈ g.Vertices.dom, ∀ e ∈ (g.Vertices.fn id).Edges, e.To ∈ g.Vertices.dom
  edgeFromDom : ∀ e ∈ g.Edges, e.From ∈ g.Vertices.dom
  edgeToDom : ∀ e ∈ g.Edges, e.To ∈ g.Vertices.dom
  adjRev : ∀ id ∈ g.Vertices.dom, ∀ e ∈ (g.Vertices.fn id).Edges,
      ∃ e' ∈ (g.Vertices.fn e.To).Edges, e'.To = id
  adjEdge : ∀ id ∈ g.Vertices.dom, ∀ e ∈ (g.Vertices.fn id).Edges,
      e ∈ g.Edges ∨ ∃ e0 ∈ g.Edges, e = e0.Reverse

/-! ### Concrete objects used by witnesses and counterexamples -/

/-- A fresh caller-side vertex with payload type `Int`. -/
def wV (id : Int) (name : String) : Vertex Int := freshVertex id name 0

/-- A caller-side `AddEdge` argument with payload type `Int`. -/
def wE (f t w : Int) : EdgeArg Int := ⟨wV f "", wV t "", w, 0⟩

/-- Fold a list of `(from, to, weight)` triples into an undirected graph. -/
def buildG (es : List (Int × Int × Int)) : Graph Int :=
  es.foldl (fun g e => (g.AddEdge (wE e.1 e.2.1 e.2.2)).1) (NewGraph false)

/-- Two components: 1-2 and 3-4. -/
def gDisc : Graph Int := buildG [(1, 2, 1), (3, 4, 1)]

/-- A single undirected edge 1-2. -/
def gP : Graph Int := buildG [(1, 2, 5)]

/-- Run one `Union` call, keeping the state on the (unreachable) fuel-out
branch. -/
def ufStep (uf : UnionFind) (xy : Int × Int) : UnionFind :=
  match uf.Union xy.1 xy.2 with
  | some (uf', _) => uf'
  | none => uf

/-- The union-find state after `MakeSet 1..4; Union(1,2); Union(3,4);
Union(2,4)`: parent is `{1 ↦ 1, 2 ↦ 1, 3 ↦ 1, 4 ↦ 3}`, rank of 1 is 2. -/
def ufEx : UnionFind :=
  [((1 : Int), (2 : Int)), (3, 4), (2, 4)].foldl ufStep
    ([(1 : Int), 2, 3, 4].foldl UnionFind.MakeSet NewUnionFind)

/-- A graph holding the single vertex `1` named `A`. -/
def gV : Graph Int := ((NewGraph false).AddVertex (wV 1 "A")).1

/-- Append one edge to a vertex record's adjacency (the slice-append step
inside `AddEdge`). -/
def pushEdge (v : Vertex α) (e : Edge α) : Vertex α :=
  { v with Edges := v.Edges ++ [e] }

/-! ### Heap order and edge-set connectivity (used by the MST weight
analysis) -/

/-- The binary min-heap order on the first `n` positions: every parent weighs
at most its children (`container/heap`'s invariant for `PriorityQueue`). -/
def IsHeapN (l : List (Edge α)) (n : Nat) : Prop :=
  ∀ i j : Nat, ∀ a b : Edge α, (j = 2 * i + 1 ∨ j = 2 * i + 2) → j < n →
    l.get? i = some a → l.get? j = some b → a.Weight ≤ b.Weight

/-- Heap order on the whole list. -/
def IsHeap (l : List (Edge α)) : Prop := IsHeapN l l.length

/-- Sift-up intermediate state: heap order except on the edge into the hole
`j`, whose children (if any) dominate both the hole's value and the hole's
parent's value. -/
def UpOk (l : List (Edge α)) (n j : Nat) : Prop :=
  (∀ i k : Nat, ∀ a b : Edge α, (k = 2 * i + 1 ∨ k = 2 * i + 2) → k < n →
    k ≠ j → l.get? i = some a → l.get? k = some b → a.Weight ≤ b.Weight)
  ∧ (∀ c : Nat, ∀ jv cv pa : Edge α, (c = 2 * j + 1 ∨ c = 2 * j + 2) → c < n →
      l.get? j = some jv → l.get? c = some cv →
      l.get? ((j - 1) / 2) = some pa →
      jv.Weight ≤ cv.Weight ∧ pa.Weight ≤ cv.Weight)

/-- Sift-down intermediate state: heap order except on the edges out of the
hole `i`, whose children (if any) dominate the hole's parent's value. -/
def DownOk (l : List (Edge α)) (n i : Nat) : Prop :=
  (∀ p k : Nat, ∀ a b : Edge α, (k = 2 * p + 1 ∨ k = 2 * p + 2) → k < n →
    p ≠ i → l.get? p = some a → l.get? k = some b → a.Weight ≤ b.Weight)
  ∧ (i ≠ 0 → ∀ c : Nat, ∀ cv pa : Edge α, (c = 2 * i + 1 ∨ c = 2 * i + 2) →
      c < n → l.get? c = some cv → l.get? ((i - 1) / 2) = some pa →
      pa.Weight ≤ cv.Weight)

/-- One undirected step through an explicit edge collection. -/
def EStep (T : Multiset (Edge α)) (x y : Int) : Prop :=
  ∃ e ∈ T, (e.From = x ∧ e.To = y) ∨ (e.From = y ∧ e.To = x)

/-- Reachability through an explicit edge collection (both directions of each
stored edge usable, as adjacency lists store both in the source). -/
def EConn (T : Multiset (Edge α)) (x y : Int) : Prop :=
  Relation.ReflTransGen (EStep T) x y

/-- An explicit walk through an edge collection, remembering the edges used. -/
inductive EPath (T : Multiset (Edge α)) : Int → Int → List (Edge α) → Prop where
  | nil (x : Int) : EPath T x x []
  | cons (x y z : Int) (e : Edge α) (p : List (Edge α)) :
      e ∈ T → (e.From = x ∧ e.To = y) ∨ (e.From = y ∧ e.To = x) →
      EPath T y z p → EPath T x z (e :: p)

/-- A spanning edge collection for a graph: every stored edge collection that
connects all vertex identities. -/
def Spans {α : Type u} (g : Graph α) (T : Multiset (Edge α)) : Prop :=
  ∀ x ∈ g.Vertices.dom, ∀ y ∈ g.Vertices.dom, EConn T x y

/-- Total weight of an edge collection. -/
def msWeight (T : Multiset (Edge α)) : Int := (T.map Edge.Weight).sum

/-- A spanning tree of `g`: a sub-collection of the stored edge sequence with
exactly `V-1` members connecting every pair of vertex identities. -/
def SpanningTree {α : Type u} (g : Graph α) (T : Multiset (Edge α)) : Prop :=
  T ≤ (g.Edges : Multiset (Edge α)) ∧ Multiset.card T + 1 = g.Vertices.dom.card
    ∧ Spans g T

/-- Paired adjacency storage: the stored record of every adjacency entry's
target holds the weight-and-payload-preserving reverse entry — the shape the
undirected `AddEdge` maintains. -/
def AdjPair {α : Type u} (g : Graph α) : Prop :=
  ∀ id ∈ g.Vertices.dom, ∀ a ∈ (g.Vertices.fn id).Edges,
    a.Reverse ∈ (g.Vertices.fn a.To).Edges

/-! ## Claim theorems -/

/-- C1 (counterexample): invoking Kruskal or Prim on a concrete directed
graph ends in a Go `panic` — the host-fatal abort the claim rules out.  The
functions' return type carries no error channel at all (`([]*Edge, int)` in
the source), so no `InvalidOperation` value is ever surfaced to the caller. -/
theorem directed_graph_panics_cex :
    (NewGraph true : Graph Int).Kruskal
      = Res.panic ("Kruskal algorithm only works for undirected graphs")
    ∧ (NewGraph true : Graph Int).Prim 0
      = Res.panic ("Prim algorithm only works for undirected graphs") := by
  constructor <;> rfl

/-- C1 (amended): on every directed graph, Kruskal (under any map-iteration
order and any sorted copy of the edges) and Prim (for any start identity)
panic immediately with the fixed message; no edges or weight are computed or
returned. -/
theorem directed_graph_panics {α : Type u} [Inhabited α] (g : Graph α)
    (enum : List Int) (edges : List (Edge α)) (startID : Int)
    (hd : g.Directed = true) :
    g.KruskalWith enum edges
      = Res.panic ("Kruskal algorithm only works for undirected graphs")
    ∧ g.Prim startID
      = Res.panic ("Prim algorithm only works for undirected graphs") := by
  constructor <;> simp [Graph.KruskalWith, Graph.Prim, hd]

/-- C1 (witness for the amended theorem). -/
theorem directed_graph_panics_witness :
    (NewGraph true : Graph Int).KruskalWith [] []
      = Res.panic ("Kruskal algorithm only works for undirected graphs")
    ∧ (NewGraph true : Graph Int).Prim 7
      = Res.panic ("Prim algorithm only works for undirected graphs") :=
  directed_graph_panics (NewGraph true) [] [] 7 rfl

/-- C2 (counterexample): Prim invoked on a concrete undirected graph with the
absent start identity `99` returns the normal result `(nil, 0)` — a silent
sentinel, not a `NotFound` typed failure surfaced to the caller (the Go
signature `([]*Edge, int)` has no error channel). -/
theorem prim_missing_start_cex :
    gP.Prim 99 = Res.ok ([], 0) := by
  decide

/-- C2 (amended): for every undirected graph and every start identity absent
from the vertex map, Prim returns immediately with the empty edge list and
weight `0` (the Go `nil, 0` sentinel); no typed failure is produced. -/
theorem prim_missing_start_sentinel {α : Type u} [Inhabited α]
    (g : Graph α) (startID : Int)
    (hd : g.Directed = false) (habs : g.Vertices.lookup startID = none) :
    g.Prim startID = Res.ok ([], 0) := by
  simp [Graph.Prim, hd, habs]

/-- C2 (witness for the amended theorem). -/
theorem prim_missing_start_sentinel_witness :
    gP.Prim 99 = Res.ok ([], 0) :=
  prim_missing_start_sentinel gP 99 (by decide) (by decide)

/-- C8: inserting a vertex whose identity is already present is a no-op
returning the already-stored record — the graph (hence the stored name and
payload) and the vertex count are unchanged. -/
theorem addVertex_first_writer_wins {α : Type u} (g : Graph α) (v v₀ : Vertex α)
    (h : g.Vertices.lookup v.ID = some v₀) :
    g.AddVertex v = (g, v₀)
    ∧ (g.AddVertex v).1.VertexCount = g.VertexCount := by
  have heq : g.AddVertex v = (g, v₀) := by
    unfold Graph.AddVertex Graph.GetVertex
    rw [h]
  exact ⟨heq, by rw [heq]⟩

/-- C8 (witness): re-inserting identity 1 with a different name and payload
returns the first insertion's record and leaves the graph unchanged. -/
theorem addVertex_first_writer_wins_witness :
    gV.AddVertex (freshVertex 1 "B" (7 : Int)) = (gV, wV 1 "A")
    ∧ (gV.AddVertex (freshVertex 1 "B" (7 : Int))).1.VertexCount = gV.VertexCount :=
  addVertex_first_writer_wins gV (freshVertex 1 "B" 7) (wV 1 "A") (by decide)

/-- C10: Kruskal (under any map-iteration order and any sorted edge copy),
Prim (from any start) and the connectivity check (from any start) return the
receiver graph unchanged — vertex map, global edge sequence and every
adjacency list included.  In the source the bodies only read the receiver:
Kruskal sorts a freshly copied slice, and the union-find, priority queue and
visited map are locals of the invocation. -/
theorem algorithms_leave_graph_unchanged {α : Type u} [Inhabited α] (g : Graph α)
    (enum : List Int) (edges : List (Edge α)) (startID dfsStart : Int) :
    (g.KruskalS enum edges).1 = g
    ∧ (g.PrimS startID).1 = g
    ∧ (g.IsConnectedS dfsStart).1 = g :=
  ⟨rfl, rfl, rfl⟩

theorem GoMap.ext' {β : Type u} {m m' : GoMap β}
    (hd : m.dom = m'.dom) (hf : m.fn = m'.fn) : m = m' := by
  cases m; cases m'; cases hd; cases hf; rfl

theorem GoMap.set_comm {β : Type u} (m : GoMap β) {a b : Int} (h : a ≠ b)
    (va vb : β) : (m.set a va).set b vb = (m.set b vb).set a va := by
  apply GoMap.ext'
  · simp [GoMap.set, Finset.Insert.comm]
  · funext z
    simp only [GoMap.set]
    by_cases hza : z = a
    · subst hza; simp [h, Ne.symm h]
    · by_cases hzb : z = b <;> simp [hza, hzb, Ne.symm h]

theorem makeSet_of_mem {uf : UnionFind} {x : Int} (h : x ∈ uf.parent.dom) :
    uf.MakeSet x = uf := by
  unfold UnionFind.MakeSet; simp [h]

theorem makeSet_of_not_mem {uf : UnionFind} {x : Int} (h : x ∉ uf.parent.dom) :
    uf.MakeSet x = ⟨uf.parent.set x x, uf.rank.set x 0⟩ := by
  unfold UnionFind.MakeSet; simp [h]

theorem dom_makeSet (uf : UnionFind) (x : Int) :
    (uf.MakeSet x).parent.dom = insert x uf.parent.dom := by
  unfold UnionFind.MakeSet
  split
  · exact (Finset.insert_eq_self.2 (by assumption)).symm
  · rfl

theorem makeSet_comm (uf : UnionFind) (x y : Int) :
    (uf.MakeSet x).MakeSet y = (uf.MakeSet y).MakeSet x := by
  by_cases hxy : x = y
  · subst hxy; rfl
  by_cases hx : x ∈ uf.parent.dom <;> by_cases hy : y ∈ uf.parent.dom
  · rw [makeSet_of_mem hx, makeSet_of_mem hy, makeSet_of_mem hx]
  · rw [makeSet_of_mem hx, makeSet_of_not_mem hy,
      makeSet_of_mem (show x ∈ _ by simp [GoMap.set, hx])]
  · rw [makeSet_of_mem hy, makeSet_of_not_mem hx,
      makeSet_of_mem (show y ∈ _ by simp [GoMap.set, hy])]
  · rw [makeSet_of_not_mem hx, makeSet_of_not_mem hy,
      makeSet_of_not_mem (show y ∉ _ by simp [GoMap.set, hy, Ne.symm hxy]),
      makeSet_of_not_mem (show x ∉ _ by simp [GoMap.set, hx, hxy])]
    simp only [UnionFind.mk.injEq]
    exact ⟨GoMap.set_comm _ hxy x y, GoMap.set_comm _ hxy 0 0⟩

/-- C9: determinism.  The only run-to-run varying input of `Kruskal` in the
source is the order in which `for id := range g.Vertices` enumerates the
(unordered) vertex map while seeding the union-find; the result is invariant
under every permutation of that enumeration.  `Prim` reads no map ordering at
all: on the same graph and start it is a fixed function of its inputs. -/
theorem deterministic_results {α : Type u} [Inhabited α] (g : Graph α)
    (enum1 enum2 : List Int) (edges : List (Edge α)) (startID : Int)
    (hperm : enum1.Perm enum2) :
    g.KruskalWith enum1 edges = g.KruskalWith enum2 edges
    ∧ g.Prim startID = g.Prim startID := by
  refine ⟨?_, rfl⟩
  unfold Graph.KruskalWith
  have hfold : enum1.foldl UnionFind.MakeSet NewUnionFind
      = enum2.foldl UnionFind.MakeSet NewUnionFind :=
    hperm.foldl_eq' (fun x _ y _ uf => makeSet_comm uf x y) NewUnionFind
  rw [hfold]

/-- C9 (witness): two map enumeration orders of the two-vertex graph `gP`
give identical Kruskal output. -/
theorem deterministic_results_witness :
    gP.KruskalWith [1, 2] (sortEdges gP.Edges)
      = gP.KruskalWith [2, 1] (sortEdges gP.Edges)
    ∧ gP.Prim 1 = gP.Prim 1 :=
  deterministic_results gP [1, 2] [2, 1] (sortEdges gP.Edges) 1 (by decide)

/-! ## Union-find theory

The root relation `Rooted` is deterministic, fixed on roots, and preserved
both by path compression (`rooted_set_to_root`) and characterised under a
root-to-root link (`rooted_set_link`). -/

theorem rooted_det {p : GoMap Int} {x r s : Int}
    (h1 : Rooted p x r) (h2 : Rooted p x s) : r = s := by
  induction h1 with
  | root x0 hx =>
    cases h2 with
    | root _ _ => rfl
    | step _ _ hne _ => exact absurd hx hne
  | step x0 r0 hne _ ih =>
    cases h2 with
    | root _ hx => exact absurd hx hne
    | step _ _ _ hs => exact ih hs

theorem rooted_fix {p : GoMap Int} {x r : Int} (h : Rooted p x r) :
    p.get r = r := by
  induction h with
  | root _ hx => exact hx
  | step _ _ _ _ ih => exact ih

theorem default_int : (default : Int) = 0 := rfl

theorem get_mem_of_closed {p : GoMap Int}
    (hcl : ∀ z ∈ p.dom, p.get z ∈ insert 0 p.dom) (x : Int) :
    p.get x ∈ insert 0 p.dom := by
  by_cases hx : x ∈ p.dom
  · exact hcl x hx
  · simp [GoMap.get, hx, default_int]

theorem rooted_mem_of_closed {p : GoMap Int}
    (hcl : ∀ z ∈ p.dom, p.get z ∈ insert 0 p.dom)
    {x r : Int} (hx : x ∈ insert 0 p.dom) (h : Rooted p x r) :
    r ∈ insert 0 p.dom := by
  induction h with
  | root _ _ => exact hx
  | step x0 r0 hne _ ih => exact ih (get_mem_of_closed hcl x0)

/-- Writing the root of `x` back to `x` (path compression) does not change
the root relation. -/
theorem rooted_set_to_root {p : GoMap Int} {x r : Int} (hr : Rooted p x r) :
    ∀ y s, Rooted (p.set x r) y s ↔ Rooted p y s := by
  have hroot_r : (p.set x r).get r = r := by
    rcases eq_or_ne r x with hrx | hrx
    · rw [GoMap.get_set, if_pos hrx, hrx]
    · rw [GoMap.get_set, if_neg hrx]
      exact rooted_fix hr
  intro y s
  constructor
  · intro h
    induction h with
    | root y0 hy =>
      rcases eq_or_ne y0 x with hyx | hyx
      · rw [GoMap.get_set, if_pos hyx] at hy
        have hr' : Rooted p y0 r := by rw [hyx]; exact hr
        rw [hy] at hr'
        exact hr'
      · rw [GoMap.get_set, if_neg hyx] at hy
        exact Rooted.root y0 hy
    | step y0 s0 hne hrec ih =>
      rcases eq_or_ne y0 x with hyx | hyx
      · rw [GoMap.get_set, if_pos hyx] at ih
        have hs0 : s0 = r := rooted_det ih (Rooted.root r (rooted_fix hr))
        rw [hyx, hs0]
        exact hr
      · rw [GoMap.get_set, if_neg hyx] at hne ih
        exact Rooted.step y0 s0 hne ih
  · intro h
    induction h with
    | root y0 hy =>
      rcases eq_or_ne y0 x with hyx | hyx
      · have hxx : Rooted p x x := by rw [← hyx]; exact Rooted.root y0 hy
        have hrx : r = x := rooted_det hr hxx
        refine Rooted.root y0 ?_
        rw [GoMap.get_set, if_pos hyx, hrx, hyx]
      · refine Rooted.root y0 ?_
        rw [GoMap.get_set, if_neg hyx]
        exact hy
    | step y0 s0 hne hrec ih =>
      rcases eq_or_ne y0 x with hyx | hyx
      · have hxS : Rooted p x s0 := by
          rw [← hyx]
          exact Rooted.step y0 s0 hne hrec
        have hs0 : s0 = r := rooted_det hxS hr
        rcases eq_or_ne r y0 with hry | hry
        · rw [hs0, hry]
          exact Rooted.root y0 (by rw [GoMap.get_set, if_pos hyx])
        · refine Rooted.step y0 s0 ?_ ?_
          · rw [GoMap.get_set, if_pos hyx]
            exact hry
          · rw [GoMap.get_set, if_pos hyx, hs0]
            exact Rooted.root r hroot_r
      · refine Rooted.step y0 s0 ?_ ?_
        · rw [GoMap.get_set, if_neg hyx]
          exact hne
        · rw [GoMap.get_set, if_neg hyx]
          exact ih

/-- Linking root `b` under root `a` maps every old root-`b` element to root
`a` and leaves other roots unchanged. -/
theorem rooted_set_link {p : GoMap Int} {a b : Int}
    (ha : p.get a = a) (hb : p.get b = b) (hab : a ≠ b) :
    ∀ y s, Rooted (p.set b a) y s ↔
      ((Rooted p y b ∧ s = a) ∨ (Rooted p y s ∧ s ≠ b)) := by
  have hget_b : (p.set b a).get b = a := by
    rw [GoMap.get_set, if_pos rfl]
  have hroot_a : Rooted (p.set b a) a a := by
    refine Rooted.root a ?_
    rw [GoMap.get_set, if_neg hab, ha]
  intro y s
  constructor
  · intro h
    induction h with
    | root y0 hy =>
      rcases eq_or_ne y0 b with hyb | hyb
      · rw [GoMap.get_set, if_pos hyb] at hy
        exact absurd (hy.trans hyb) hab
      · rw [GoMap.get_set, if_neg hyb] at hy
        exact Or.inr ⟨Rooted.root y0 hy, hyb⟩
    | step y0 s0 hne hrec ih =>
      rcases eq_or_ne y0 b with hyb | hyb
      · rw [GoMap.get_set, if_pos hyb] at ih
        rcases ih with ⟨hra, hs⟩ | ⟨hras, hsb⟩
        · have hba : b = a := rooted_det hra (Rooted.root a ha)
          exact absurd hba.symm hab
        · have hsa : s0 = a := rooted_det hras (Rooted.root a ha)
          refine Or.inl ⟨?_, hsa⟩
          rw [hyb]
          exact Rooted.root b hb
      · rw [GoMap.get_set, if_neg hyb] at hne ih
        rcases ih with ⟨hrb, hs⟩ | ⟨hrs, hsb⟩
        · exact Or.inl ⟨Rooted.step y0 b hne hrb, hs⟩
        · exact Or.inr ⟨Rooted.step y0 s0 hne hrs, hsb⟩
  · intro h
    have main1 : ∀ z w, Rooted p z w → w = b → Rooted (p.set b a) z a := by
      intro z w hz
      induction hz with
      | root z0 hz0 =>
        intro hzb
        refine Rooted.step z0 a ?_ ?_
        · rw [GoMap.get_set, if_pos hzb]
          rw [hzb]
          exact hab
        · rw [GoMap.get_set, if_pos hzb]
          exact hroot_a
      | step z0 w0 hne0 hrec0 ih0 =>
        intro hwb
        have hz0b : z0 ≠ b := by
          intro hz0b
          apply hne0
          rw [hz0b]
          exact hb
        refine Rooted.step z0 a ?_ ?_
        · rw [GoMap.get_set, if_neg hz0b]
          exact hne0
        · rw [GoMap.get_set, if_neg hz0b]
          exact ih0 hwb
    have main2 : ∀ z w, Rooted p z w → w ≠ b → Rooted (p.set b a) z w := by
      intro z w hz
      induction hz with
      | root z0 hz0 =>
        intro hzb
        refine Rooted.root z0 ?_
        rw [GoMap.get_set, if_neg hzb]
        exact hz0
      | step z0 w0 hne0 hrec0 ih0 =>
        intro hwb
        have hz0b : z0 ≠ b := by
          intro hz0b
          apply hne0
          rw [hz0b]
          exact hb
        refine Rooted.step z0 w0 ?_ ?_
        · rw [GoMap.get_set, if_neg hz0b]
          exact hne0
        · rw [GoMap.get_set, if_neg hz0b]
          exact ih0 hwb
    rcases h with ⟨hyb, hs⟩ | ⟨hys, hsb⟩
    · rw [hs]
      exact main1 y b hyb rfl
    · exact main2 y s hys hsb

/-- Every root lies in the key set extended with the zero value (an absent
root reads `0`, so it must be `0` itself). -/
theorem root_mem_insert {p : GoMap Int} {x r : Int} (h : Rooted p x r) :
    r ∈ insert 0 p.dom := by
  have hfix := rooted_fix h
  by_cases hr : r ∈ p.dom
  · exact Finset.mem_insert_of_mem hr
  · have hz : p.get r = 0 := by simp [GoMap.get, hr, default_int]
    rw [hz] at hfix
    rw [← hfix]
    exact Finset.mem_insert_self 0 p.dom

theorem findAux_succ (n : Nat) (p : GoMap Int) (x : Int) :
    findAux (n + 1) p x =
      if p.get x = x then some (p, x)
      else
        match findAux n p (p.get x) with
        | none => none
        | some (p', r) => some (p'.set x r, r) := rfl

theorem findAux_sound : ∀ {n : Nat} {p : GoMap Int} {x : Int} {p' : GoMap Int}
    {r : Int}, findAux n p x = some (p', r) → Rooted p x r := by
  intro n
  induction n with
  | zero => intro p x p' r h; exact absurd h (by simp [findAux])
  | succ k ih =>
    intro p x p' r h
    rw [findAux_succ] at h
    by_cases hx : p.get x = x
    · rw [if_pos hx] at h
      cases h
      exact Rooted.root x hx
    · rw [if_neg hx] at h
      cases hrec : findAux k p (p.get x) with
      | none => rw [hrec] at h; cases h
      | some pr =>
        rw [hrec] at h
        cases pr with
        | mk p2 r2 =>
          cases h
          exact Rooted.step x r hx (ih hrec)

theorem findAux_mono : ∀ {n m : Nat} {p : GoMap Int} {x : Int}
    {res : GoMap Int × Int},
    findAux n p x = some res → n ≤ m → findAux m p x = some res := by
  intro n
  induction n with
  | zero => intro m p x res h _; exact absurd h (by simp [findAux])
  | succ k ih =>
    intro m p x res h hle
    obtain ⟨m', rfl⟩ : ∃ m', m = m' + 1 := ⟨m - 1, by omega⟩
    rw [findAux_succ] at h ⊢
    by_cases hx : p.get x = x
    · rwa [if_pos hx] at h ⊢
    · rw [if_neg hx] at h ⊢
      cases hrec : findAux k p (p.get x) with
      | none => rw [hrec] at h; cases h
      | some pr =>
        rw [hrec] at h
        rw [ih hrec (by omega)]
        exact h

/-- Effect of a successful `findAux` run on a closed parent map: the root
relation is untouched, the key set can only grow by the argument itself, and
closedness is preserved. -/
theorem findAux_spec : ∀ {n : Nat} {p : GoMap Int} {x : Int} {p' : GoMap Int}
    {r : Int},
    (∀ z ∈ p.dom, p.get z ∈ insert 0 p.dom) →
    findAux n p x = some (p', r) →
    (∀ y s, Rooted p' y s ↔ Rooted p y s)
    ∧ p.dom ⊆ p'.dom
    ∧ (∀ z ∈ p'.dom, z ∈ insert 0 p.dom ∨ z = x)
    ∧ (∀ z ∈ p'.dom, p'.get z ∈ insert 0 p'.dom) := by
  intro n
  induction n with
  | zero => intro p x p' r hcl h; exact absurd h (by simp [findAux])
  | succ k ih =>
    intro p x p' r hcl h
    rw [findAux_succ] at h
    by_cases hx : p.get x = x
    · rw [if_pos hx] at h
      cases h
      exact ⟨fun y s => Iff.rfl, le_refl _, fun z hz => Or.inl (Finset.mem_insert_of_mem hz), hcl⟩
    · rw [if_neg hx] at h
      cases hrec : findAux k p (p.get x) with
      | none => rw [hrec] at h; cases h
      | some pr =>
        rw [hrec] at h
        cases pr with
        | mk p2 r2 =>
          cases h
          obtain ⟨hiff, hsub, hdom, hcl2⟩ := ih hcl hrec
          have hx_r : Rooted p x r := Rooted.step x r hx (findAux_sound hrec)
          have hx2_r : Rooted p2 x r := (hiff x r).2 hx_r
          have hlink := rooted_set_to_root hx2_r
          refine ⟨?_, ?_, ?_, ?_⟩
          · intro y s
            exact (hlink y s).trans (hiff y s)
          · intro z hz
            rw [GoMap.dom_set]
            exact Finset.mem_insert_of_mem (hsub hz)
          · intro z hz
            rw [GoMap.dom_set] at hz
            rcases Finset.mem_insert.1 hz with hzx | hz2
            · exact Or.inr hzx
            · rcases hdom z hz2 with hl | hr
              · exact Or.inl hl
              · rw [hr]
                exact Or.inl (get_mem_of_closed hcl x)
          · intro z hz
            rw [GoMap.dom_set] at hz
            have hsub' : insert 0 p2.dom ⊆ insert 0 (p2.set x r).dom := by
              rw [GoMap.dom_set]
              intro w hw
              rcases Finset.mem_insert.1 hw with h0 | hw2
              · rw [h0]; exact Finset.mem_insert_self _ _
              · exact Finset.mem_insert_of_mem (Finset.mem_insert_of_mem hw2)
            by_cases hzx : z = x
            · rw [GoMap.get_set, if_pos hzx]
              exact hsub' (root_mem_insert hx2_r)
            · rw [GoMap.get_set, if_neg hzx]
              rcases Finset.mem_insert.1 hz with h' | hz2
              · exact absurd h' hzx
              · exact hsub' (hcl2 z hz2)

/-- A well-formed (`UFok`) state is `POk`: every element of the key set (and
`0`) reaches a root by soundness of `findAux`, and an element outside the key
set reads parent `0` and hence shares `0`'s root. -/
theorem pok_of_ufok {uf : UnionFind} (h : UFok uf) : POk uf.parent := by
  obtain ⟨hcl, hfind⟩ := h
  refine ⟨hcl, ?_⟩
  have hmem : ∀ x ∈ insert 0 uf.parent.dom, ∃ r, Rooted uf.parent x r := by
    intro x hx
    have := hfind x hx
    cases hres : findAux uf.findFuel uf.parent x with
    | none => rw [hres] at this; simp at this
    | some pr => exact ⟨pr.2, findAux_sound (by rw [hres])⟩
  intro x
  by_cases hx : x ∈ insert 0 uf.parent.dom
  · exact hmem x hx
  · have hx0 : x ≠ 0 := by
      intro h0
      rw [h0] at hx
      exact hx (Finset.mem_insert_self _ _)
    have hxd : x ∉ uf.parent.dom := fun hd => hx (Finset.mem_insert_of_mem hd)
    have hget : uf.parent.get x = 0 := by simp [GoMap.get, hxd, default_int]
    obtain ⟨r, hr⟩ := hmem 0 (Finset.mem_insert_self _ _)
    refine ⟨r, Rooted.step x r ?_ ?_⟩
    · rw [hget]; exact fun h0 => hx0 h0.symm
    · rw [hget]; exact hr

theorem chain_head {p : GoMap Int} {x r : Int} {l : List Int}
    (h : RootChain p x r l) : ∃ t, l = x :: t := by
  cases h with
  | root _ _ => exact ⟨[], rfl⟩
  | step _ _ l' _ _ => exact ⟨l', rfl⟩

theorem chain_mem_suffix {p : GoMap Int} {x r : Int} {l : List Int}
    (h : RootChain p x r l) : ∀ z ∈ l, ∃ l', RootChain p z r l' ∧ l' <:+ l := by
  induction h with
  | root x0 hx =>
    intro z hz
    rw [List.mem_singleton] at hz
    rw [hz]
    exact ⟨[x0], RootChain.root x0 hx, List.suffix_refl _⟩
  | step x0 r0 l0 hne hc ih =>
    intro z hz
    rcases List.mem_cons.1 hz with hzx | hzl
    · rw [hzx]
      exact ⟨x0 :: l0, RootChain.step x0 r0 l0 hne hc, List.suffix_refl _⟩
    · obtain ⟨l', hc', hsuf⟩ := ih z hzl
      exact ⟨l', hc', hsuf.trans (List.suffix_cons x0 l0)⟩

theorem chain_nodup_of_rooted {p : GoMap Int} {x r : Int} (h : Rooted p x r) :
    ∃ l, RootChain p x r l ∧ l.Nodup := by
  induction h with
  | root x0 hx => exact ⟨[x0], RootChain.root x0 hx, List.nodup_singleton x0⟩
  | step x0 r0 hne hr ih =>
    obtain ⟨l', hc', hnd⟩ := ih
    by_cases hx : x0 ∈ l'
    · obtain ⟨l'', hc'', hsuf⟩ := chain_mem_suffix hc' x0 hx
      exact ⟨l'', hc'', hnd.sublist hsuf.sublist⟩
    · exact ⟨x0 :: l', RootChain.step x0 r0 l' hne hc', List.nodup_cons.2 ⟨hx, hnd⟩⟩

theorem chain_mem_dom {p : GoMap Int}
    (hcl : ∀ z ∈ p.dom, p.get z ∈ insert 0 p.dom) :
    ∀ {x r : Int} {l : List Int}, RootChain p x r l →
    ∀ z ∈ l, z = x ∨ z ∈ insert 0 p.dom := by
  intro x r l h
  induction h with
  | root x0 hx =>
    intro z hz
    rw [List.mem_singleton] at hz
    exact Or.inl hz
  | step x0 r0 l0 hne hc ih =>
    intro z hz
    rcases List.mem_cons.1 hz with hzx | hzl
    · exact Or.inl hzx
    · rcases ih z hzl with hzg | hzd
      · rw [hzg]
        exact Or.inr (get_mem_of_closed hcl x0)
      · exact Or.inr hzd

theorem chain_length_le {p : GoMap Int}
    (hcl : ∀ z ∈ p.dom, p.get z ∈ insert 0 p.dom) {x r : Int} {l : List Int}
    (h : RootChain p x r l) (hnd : l.Nodup) : l.length ≤ p.dom.card + 2 := by
  obtain ⟨t, rfl⟩ := chain_head h
  obtain ⟨hxt, hndt⟩ := List.nodup_cons.1 hnd
  have hsub : ∀ z ∈ t, z ∈ insert 0 p.dom := by
    intro z hz
    rcases chain_mem_dom hcl h z (List.mem_cons_of_mem x hz) with hzx | hzd
    · rw [hzx] at hz
      exact absurd hz hxt
    · exact hzd
  have hlen : t.length ≤ (insert 0 p.dom).card := by
    rw [← List.toFinset_card_of_nodup hndt]
    apply Finset.card_le_card
    intro w hw
    exact hsub w (List.mem_toFinset.1 hw)
  have hcard : (insert 0 p.dom).card ≤ p.dom.card + 1 := Finset.card_insert_le _ _
  simp only [List.length_cons]
  omega

theorem findAux_of_chain {p : GoMap Int} :
    ∀ {x r : Int} {l : List Int}, RootChain p x r l →
    ∀ {n : Nat}, l.length ≤ n → ∃ p', findAux n p x = some (p', r) := by
  intro x r l h
  induction h with
  | root x0 hx =>
    intro n hn
    have h1 : 1 ≤ n := by simpa using hn
    obtain ⟨k, rfl⟩ : ∃ k, n = k + 1 := ⟨n - 1, by omega⟩
    exact ⟨p, by rw [findAux_succ, if_pos hx]⟩
  | step x0 r0 l0 hne hc ih =>
    intro n hn
    have h1 : l0.length + 1 ≤ n := by simpa using hn
    obtain ⟨k, rfl⟩ : ∃ k, n = k + 1 := ⟨n - 1, by omega⟩
    obtain ⟨p'', hp''⟩ := ih (show l0.length ≤ k by omega)
    refine ⟨p''.set x0 r0, ?_⟩
    rw [findAux_succ, if_neg hne, hp'']

theorem find_adequate {p : GoMap Int} (hp : POk p) (x : Int) :
    ∃ p' r, findAux (p.dom.card + 4) p x = some (p', r) ∧ Rooted p x r := by
  obtain ⟨r, hr⟩ := hp.2 x
  obtain ⟨l, hc, hnd⟩ := chain_nodup_of_rooted hr
  have hlen := chain_length_le hp.1 hc hnd
  obtain ⟨p', hfind⟩ :=
    findAux_of_chain hc (show l.length ≤ p.dom.card + 4 by omega)
  exact ⟨p', r, hfind, hr⟩

theorem ufok_of_pok {uf : UnionFind} (h : POk uf.parent) : UFok uf := by
  refine ⟨h.1, ?_⟩
  intro x _
  obtain ⟨p', r, hfind, _⟩ := find_adequate h x
  simp only [UnionFind.findFuel, GoMap.card]
  rw [hfind]
  rfl

/-- Complete description of a `Find` call on a well-formed state: it succeeds,
returns the `Rooted`-root, keeps the state well formed, preserves the root
relation (path compression only rewires links inside classes), and does not
touch the ranks. -/
theorem find_spec {uf : UnionFind} (hp : POk uf.parent) (x : Int) :
    ∃ uf' r, uf.Find x = some (uf', r) ∧ Rooted uf.parent x r
    ∧ POk uf'.parent
    ∧ (∀ y s, Rooted uf'.parent y s ↔ Rooted uf.parent y s)
    ∧ uf'.rank = uf.rank
    ∧ uf.parent.dom ⊆ uf'.parent.dom := by
  obtain ⟨p', r, hfind, hr⟩ := find_adequate hp x
  obtain ⟨hiff, hsub, _, hcl'⟩ := findAux_spec hp.1 hfind
  refine ⟨{ uf with parent := p' }, r, ?_, hr, ?_, hiff, rfl, hsub⟩
  · unfold UnionFind.Find
    simp only [UnionFind.findFuel, GoMap.card]
    rw [hfind]
  · exact ⟨hcl', fun y => (hp.2 y).imp (fun s hs => (hiff y s).2 hs)⟩

/-- `Union` on endpoints that already share a root: returns `false`, ranks
and the partition are untouched (though path compression may have rewired
parent links inside classes). -/
theorem union_same_root {uf : UnionFind} {a b rt : Int} (hp : POk uf.parent)
    (hra : Rooted uf.parent a rt) (hrb : Rooted uf.parent b rt) :
    ∃ uf2, uf.Union a b = some (uf2, false)
    ∧ uf2.rank = uf.rank
    ∧ POk uf2.parent
    ∧ (∀ z s, Rooted uf2.parent z s ↔ Rooted uf.parent z s) := by
  obtain ⟨uf1, ra, hfa, hra1, hp1, hiff1, hrank1, _⟩ := find_spec hp a
  have hraeq : ra = rt := rooted_det hra1 hra
  obtain ⟨uf2, rb, hfb, hrb1, hp2, hiff2, hrank2, _⟩ := find_spec hp1 b
  have hrb0 : Rooted uf.parent b rb := (hiff1 b rb).1 hrb1
  have hrbeq : rb = rt := rooted_det hrb0 hrb
  refine ⟨uf2, ?_, by rw [hrank2, hrank1], hp2,
    fun z s => (hiff2 z s).trans (hiff1 z s)⟩
  simp [UnionFind.Union, hfa, hfb, hraeq, hrbeq]

/-- Linking one root under another keeps the state well formed. -/
theorem pok_link {p : GoMap Int} {w l : Int} (hp : POk p)
    (hw : p.get w = w) (hl : p.get l = l) (hwl : w ≠ l) : POk (p.set l w) := by
  have hiff := rooted_set_link hw hl hwl
  constructor
  · intro z hz
    rw [GoMap.dom_set] at hz
    have hwmem : w ∈ insert 0 (p.set l w).dom := by
      rw [GoMap.dom_set]
      have := root_mem_insert (Rooted.root w hw)
      rcases Finset.mem_insert.1 this with h0 | hd
      · rw [h0]; exact Finset.mem_insert_self _ _
      · exact Finset.mem_insert_of_mem (Finset.mem_insert_of_mem hd)
    by_cases hzl : z = l
    · rw [GoMap.get_set, if_pos hzl]
      exact hwmem
    · rw [GoMap.get_set, if_neg hzl]
      rcases Finset.mem_insert.1 hz with h' | hz2
      · exact absurd h' hzl
      · have := hp.1 z hz2
        rw [GoMap.dom_set]
        rcases Finset.mem_insert.1 this with h0 | hd
        · rw [h0]; exact Finset.mem_insert_self _ _
        · exact Finset.mem_insert_of_mem (Finset.mem_insert_of_mem hd)
  · intro z
    obtain ⟨s, hs⟩ := hp.2 z
    by_cases hsl : s = l
    · refine ⟨w, (hiff z w).2 (Or.inl ⟨?_, rfl⟩)⟩
      rw [← hsl]
      exact hs
    · exact ⟨s, (hiff z s).2 (Or.inr ⟨hs, hsl⟩)⟩

/-- C6 (amended): on every well-formed union-find state, `Union a b` first
runs both finds; it returns `false` exactly when the two roots agree, in
which case the ranks and the root partition are unchanged (though `Find`'s
path compression may rewrite parent links inside classes — the counterexample
shows the state is not always bit-identical).  With distinct roots it returns
`true` and merges by rank: the lower-rank root is physically attached under
the higher-rank root (on a tie the second root attaches under the first,
whose rank increments by one, all other ranks unchanged); afterwards `a` and
`b` share the surviving root, and an immediately repeated `Union a b` returns
`false` without changing ranks or the partition. -/
theorem union_by_rank_contract (uf : UnionFind) (a b : Int) (h : UFok uf) :
    ∃ ra rb,
      Rooted uf.parent a ra ∧ Rooted uf.parent b rb
      ∧ (ra = rb →
          ∃ ufF, uf.Union a b = some (ufF, false)
            ∧ ufF.rank = uf.rank
            ∧ (∀ z s, Rooted ufF.parent z s ↔ Rooted uf.parent z s))
      ∧ (ra ≠ rb →
          ∃ ufT, uf.Union a b = some (ufT, true)
            ∧ (∃ p2, (∀ z s, Rooted p2 z s ↔ Rooted uf.parent z s)
                ∧ ufT.parent
                    = p2.set (if uf.rank.get ra < uf.rank.get rb then ra else rb)
                        (if uf.rank.get ra < uf.rank.get rb then rb else ra))
            ∧ (∀ z s, Rooted ufT.parent z s ↔
                ((Rooted uf.parent z
                      (if uf.rank.get ra < uf.rank.get rb then ra else rb)
                    ∧ s = (if uf.rank.get ra < uf.rank.get rb then rb else ra))
                 ∨ (Rooted uf.parent z s
                    ∧ s ≠ (if uf.rank.get ra < uf.rank.get rb then ra else rb))))
            ∧ (uf.rank.get ra ≠ uf.rank.get rb → ufT.rank = uf.rank)
            ∧ (uf.rank.get ra = uf.rank.get rb →
                ufT.rank.get ra = uf.rank.get ra + 1
                ∧ (∀ z, z ≠ ra → ufT.rank.get z = uf.rank.get z))
            ∧ Rooted ufT.parent a
                (if uf.rank.get ra < uf.rank.get rb then rb else ra)
            ∧ Rooted ufT.parent b
                (if uf.rank.get ra < uf.rank.get rb then rb else ra)
            ∧ ∃ ufR, ufT.Union a b = some (ufR, false)
                ∧ ufR.rank = ufT.rank
                ∧ (∀ z s, Rooted ufR.parent z s ↔ Rooted ufT.parent z s)) := by
  have hp := pok_of_ufok h
  obtain ⟨uf1, ra, hfa, hra, hp1, hiff1, hrank1, _⟩ := find_spec hp a
  obtain ⟨uf2, rb, hfb, hrb1, hp2, hiff2, hrank2, _⟩ := find_spec hp1 b
  have hrb : Rooted uf.parent b rb := (hiff1 _ _).1 hrb1
  have hiff20 : ∀ z s, Rooted uf2.parent z s ↔ Rooted uf.parent z s :=
    fun z s => (hiff2 z s).trans (hiff1 z s)
  have hrkeq : uf2.rank = uf.rank := by rw [hrank2, hrank1]
  have hra2 : Rooted uf2.parent a ra := (hiff20 _ _).2 hra
  have hrb2 : Rooted uf2.parent b rb := (hiff20 _ _).2 hrb
  have hfix_a : uf2.parent.get ra = ra := rooted_fix hra2
  have hfix_b : uf2.parent.get rb = rb := rooted_fix hrb2
  have hroot_a2 : Rooted uf2.parent ra ra := Rooted.root ra hfix_a
  have hroot_b2 : Rooted uf2.parent rb rb := Rooted.root rb hfix_b
  refine ⟨ra, rb, hra, hrb, ?_, ?_⟩
  · intro heq
    obtain ⟨ufF, hu, hrk, _, hiff⟩ :=
      union_same_root hp hra (show Rooted uf.parent b ra by rw [heq]; exact hrb)
    exact ⟨ufF, hu, hrk, hiff⟩
  · intro hneq
    rcases lt_trichotomy (uf.rank.get ra) (uf.rank.get rb) with hc | hc | hc
    · -- rank(ra) < rank(rb): ra attaches under rb
      refine ⟨⟨uf2.parent.set ra rb, uf2.rank⟩, ?_, ?_, ?_, ?_, ?_, ?_, ?_, ?_⟩
      · simp only [UnionFind.Union, hfa, hfb, hrkeq]
        rw [if_neg hneq, if_pos hc]
      · exact ⟨uf2.parent, hiff20, by simp only [if_pos hc]⟩
      · intro z s
        simp only [if_pos hc]
        exact ((rooted_set_link hfix_b hfix_a (Ne.symm hneq)) z s).trans
          (by constructor
              · rintro (⟨h1, h2⟩ | ⟨h1, h2⟩)
                · exact Or.inl ⟨(hiff20 _ _).1 h1, h2⟩
                · exact Or.inr ⟨(hiff20 _ _).1 h1, h2⟩
              · rintro (⟨h1, h2⟩ | ⟨h1, h2⟩)
                · exact Or.inl ⟨(hiff20 _ _).2 h1, h2⟩
                · exact Or.inr ⟨(hiff20 _ _).2 h1, h2⟩)
      · intro _
        exact hrkeq
      · intro heq
        exact absurd heq (ne_of_lt hc)
      · simp only [if_pos hc]
        exact (rooted_set_link hfix_b hfix_a (Ne.symm hneq) a rb).2
          (Or.inl ⟨hra2, rfl⟩)
      · simp only [if_pos hc]
        exact (rooted_set_link hfix_b hfix_a (Ne.symm hneq) b rb).2
          (Or.inr ⟨hrb2, Ne.symm hneq⟩)
      · have hpok' : POk (uf2.parent.set ra rb) :=
          pok_link hp2 hfix_b hfix_a (Ne.symm hneq)
        have hrootA : Rooted (uf2.parent.set ra rb) a rb :=
          (rooted_set_link hfix_b hfix_a (Ne.symm hneq) a rb).2 (Or.inl ⟨hra2, rfl⟩)
        have hrootB : Rooted (uf2.parent.set ra rb) b rb :=
          (rooted_set_link hfix_b hfix_a (Ne.symm hneq) b rb).2
            (Or.inr ⟨hrb2, Ne.symm hneq⟩)
        obtain ⟨ufR, hu, hrk, _, hiffR⟩ :=
          @union_same_root ⟨uf2.parent.set ra rb, uf2.rank⟩ a b rb hpok' hrootA hrootB
        exact ⟨ufR, hu, hrk, hiffR⟩
    · -- rank tie: rb attaches under ra, rank(ra) increments
      have hnlt : ¬ uf.rank.get ra < uf.rank.get rb := by
        rw [hc]; exact lt_irrefl _
      refine ⟨⟨uf2.parent.set rb ra, uf.rank.set ra (uf.rank.get ra + 1)⟩,
        ?_, ?_, ?_, ?_, ?_, ?_, ?_, ?_⟩
      · simp only [UnionFind.Union, hfa, hfb, hrkeq]
        rw [if_neg hneq, if_neg (by rw [hc]; exact lt_irrefl _),
          if_neg (by rw [hc]; exact lt_irrefl _)]
      · exact ⟨uf2.parent, hiff20, by simp only [if_neg hnlt]⟩
      · intro z s
        simp only [if_neg hnlt]
        exact ((rooted_set_link hfix_a hfix_b hneq) z s).trans
          (by constructor
              · rintro (⟨h1, h2⟩ | ⟨h1, h2⟩)
                · exact Or.inl ⟨(hiff20 _ _).1 h1, h2⟩
                · exact Or.inr ⟨(hiff20 _ _).1 h1, h2⟩
              · rintro (⟨h1, h2⟩ | ⟨h1, h2⟩)
                · exact Or.inl ⟨(hiff20 _ _).2 h1, h2⟩
                · exact Or.inr ⟨(hiff20 _ _).2 h1, h2⟩)
      · intro hne'
        exact absurd hc hne'
      · intro _
        constructor
        · rw [GoMap.get_set, if_pos rfl]
        · intro z hz
          rw [GoMap.get_set, if_neg hz]
      · simp only [if_neg hnlt]
        exact (rooted_set_link hfix_a hfix_b hneq a ra).2 (Or.inr ⟨hra2, hneq⟩)
      · simp only [if_neg hnlt]
        exact (rooted_set_link hfix_a hfix_b hneq b ra).2 (Or.inl ⟨hrb2, rfl⟩)
      · have hpok' : POk (uf2.parent.set rb ra) :=
          pok_link hp2 hfix_a hfix_b hneq
        have hrootA : Rooted (uf2.parent.set rb ra) a ra :=
          (rooted_set_link hfix_a hfix_b hneq a ra).2 (Or.inr ⟨hra2, hneq⟩)
        have hrootB : Rooted (uf2.parent.set rb ra) b ra :=
          (rooted_set_link hfix_a hfix_b hneq b ra).2 (Or.inl ⟨hrb2, rfl⟩)
        obtain ⟨ufR, hu, hrk, _, hiffR⟩ :=
          @union_same_root ⟨uf2.parent.set rb ra, uf.rank.set ra (uf.rank.get ra + 1)⟩
            a b ra hpok' hrootA hrootB
        exact ⟨ufR, hu, hrk, hiffR⟩
    · -- rank(rb) < rank(ra): rb attaches under ra
      have hnlt : ¬ uf.rank.get ra < uf.rank.get rb := not_lt_of_gt hc
      refine ⟨⟨uf2.parent.set rb ra, uf2.rank⟩, ?_, ?_, ?_, ?_, ?_, ?_, ?_, ?_⟩
      · simp only [UnionFind.Union, hfa, hfb, hrkeq]
        rw [if_neg hneq, if_neg (not_lt_of_gt hc), if_pos hc]
      · exact ⟨uf2.parent, hiff20, by simp only [if_neg hnlt]⟩
      · intro z s
        simp only [if_neg hnlt]
        exact ((rooted_set_link hfix_a hfix_b hneq) z s).trans
          (by constructor
              · rintro (⟨h1, h2⟩ | ⟨h1, h2⟩)
                · exact Or.inl ⟨(hiff20 _ _).1 h1, h2⟩
                · exact Or.inr ⟨(hiff20 _ _).1 h1, h2⟩
              · rintro (⟨h1, h2⟩ | ⟨h1, h2⟩)
                · exact Or.inl ⟨(hiff20 _ _).2 h1, h2⟩
                · exact Or.inr ⟨(hiff20 _ _).2 h1, h2⟩)
      · intro _
        exact hrkeq
      · intro heq
        exact absurd heq (ne_of_gt hc)
      · simp only [if_neg hnlt]
        exact (rooted_set_link hfix_a hfix_b hneq a ra).2 (Or.inr ⟨hra2, hneq⟩)
      · simp only [if_neg hnlt]
        exact (rooted_set_link hfix_a hfix_b hneq b ra).2 (Or.inl ⟨hrb2, rfl⟩)
      · have hpok' : POk (uf2.parent.set rb ra) :=
          pok_link hp2 hfix_a hfix_b hneq
        have hrootA : Rooted (uf2.parent.set rb ra) a ra :=
          (rooted_set_link hfix_a hfix_b hneq a ra).2 (Or.inr ⟨hra2, hneq⟩)
        have hrootB : Rooted (uf2.parent.set rb ra) b ra :=
          (rooted_set_link hfix_a hfix_b hneq b ra).2 (Or.inl ⟨hrb2, rfl⟩)
        obtain ⟨ufR, hu, hrk, _, hiffR⟩ :=
          @union_same_root ⟨uf2.parent.set rb ra, uf2.rank⟩ a b ra
            hpok' hrootA hrootB
        exact ⟨ufR, hu, hrk, hiffR⟩

/-- C6 (counterexample): `ufEx` is the state reached by `MakeSet 1..4;
Union(1,2); Union(3,4); Union(2,4)`, in which `parent[4] = 3`.  The
immediately repeated `Union(2,4)` returns `false` as claimed, but it is not
a no-op: `Find(4)`'s path compression rewrites `parent[4]` from `3` to `1`,
a structural mutation of the union-find state. -/
theorem union_no_mutation_cex :
    ufEx.parent.get 4 = 3
    ∧ (ufEx.Union 2 4).map (fun res => (res.2, res.1.parent.get 4))
        = some (false, 1) := by
  constructor
  · decide
  · decide

/-- C6 (witness for the amended theorem): the contract applied to the
concrete well-formed state `ufEx` and the repeated pair `(2, 4)`. -/
theorem union_by_rank_contract_witness :
    ∃ ra rb,
      Rooted ufEx.parent 2 ra ∧ Rooted ufEx.parent 4 rb
      ∧ (ra = rb →
          ∃ ufF, ufEx.Union 2 4 = some (ufF, false)
            ∧ ufF.rank = ufEx.rank
            ∧ (∀ z s, Rooted ufF.parent z s ↔ Rooted ufEx.parent z s))
      ∧ (ra ≠ rb →
          ∃ ufT, ufEx.Union 2 4 = some (ufT, true)
            ∧ (∃ p2, (∀ z s, Rooted p2 z s ↔ Rooted ufEx.parent z s)
                ∧ ufT.parent
                    = p2.set (if ufEx.rank.get ra < ufEx.rank.get rb then ra else rb)
                        (if ufEx.rank.get ra < ufEx.rank.get rb then rb else ra))
            ∧ (∀ z s, Rooted ufT.parent z s ↔
                ((Rooted ufEx.parent z
                      (if ufEx.rank.get ra < ufEx.rank.get rb then ra else rb)
                    ∧ s = (if ufEx.rank.get ra < ufEx.rank.get rb then rb else ra))
                 ∨ (Rooted ufEx.parent z s
                    ∧ s ≠ (if ufEx.rank.get ra < ufEx.rank.get rb then ra else rb))))
            ∧ (ufEx.rank.get ra ≠ ufEx.rank.get rb → ufT.rank = ufEx.rank)
            ∧ (ufEx.rank.get ra = ufEx.rank.get rb →
                ufT.rank.get ra = ufEx.rank.get ra + 1
                ∧ (∀ z, z ≠ ra → ufT.rank.get z = ufEx.rank.get z))
            ∧ Rooted ufT.parent 2
                (if ufEx.rank.get ra < ufEx.rank.get rb then rb else ra)
            ∧ Rooted ufT.parent 4
                (if ufEx.rank.get ra < ufEx.rank.get rb then rb else ra)
            ∧ ∃ ufR, ufT.Union 2 4 = some (ufR, false)
                ∧ ufR.rank = ufT.rank
                ∧ (∀ z s, Rooted ufR.parent z s ↔ Rooted ufT.parent z s)) :=
  union_by_rank_contract ufEx 2 4 (by decide)

/-! ## Graph construction lemmas -/

theorem GoMap.not_mem_of_lookup_none {β : Type u} {m : GoMap β} {x : Int}
    (h : m.lookup x = none) : x ∉ m.dom := by
  intro hx
  unfold GoMap.lookup at h
  rw [if_pos hx] at h
  cases h

theorem GoMap.fn_of_lookup {β : Type u} {m : GoMap β} {x : Int} {b : β}
    (h : m.lookup x = some b) : m.fn x = b := by
  have hx := GoMap.mem_dom_of_lookup h
  unfold GoMap.lookup at h
  rw [if_pos hx] at h
  exact Option.some.inj h

theorem addVertex_dom {α : Type u} (g : Graph α) (v : Vertex α) :
    (g.AddVertex v).1.Vertices.dom = insert v.ID g.Vertices.dom := by
  unfold Graph.AddVertex Graph.GetVertex
  cases hl : g.Vertices.lookup v.ID with
  | some v0 =>
    simp only
    exact (Finset.insert_eq_self.2 (GoMap.mem_dom_of_lookup hl)).symm
  | none => rfl

theorem addVertex_edges {α : Type u} (g : Graph α) (v : Vertex α) :
    (g.AddVertex v).1.Edges = g.Edges := by
  unfold Graph.AddVertex Graph.GetVertex
  cases g.Vertices.lookup v.ID <;> rfl

theorem addVertex_directed {α : Type u} (g : Graph α) (v : Vertex α) :
    (g.AddVertex v).1.Directed = g.Directed := by
  unfold Graph.AddVertex Graph.GetVertex
  cases g.Vertices.lookup v.ID <;> rfl

theorem addVertex_id {α : Type u} {g : Graph α} (v : Vertex α)
    (hK : ∀ id ∈ g.Vertices.dom, (g.Vertices.fn id).ID = id) :
    (g.AddVertex v).2.ID = v.ID := by
  unfold Graph.AddVertex Graph.GetVertex
  cases hl : g.Vertices.lookup v.ID with
  | some v0 =>
    simp only
    have hmem := GoMap.mem_dom_of_lookup hl
    rw [← GoMap.fn_of_lookup hl]
    exact hK v.ID hmem
  | none => rfl

theorem addVertex_lookup_other {α : Type u} (g : Graph α) (v : Vertex α)
    (id : Int) (hne : id ≠ v.ID) :
    (g.AddVertex v).1.Vertices.lookup id = g.Vertices.lookup id := by
  unfold Graph.AddVertex Graph.GetVertex
  cases g.Vertices.lookup v.ID with
  | some v0 => rfl
  | none =>
    simp only
    rw [GoMap.lookup_set, if_neg hne]

theorem addVertex_idKey {α : Type u} {g : Graph α} (v : Vertex α)
    (hK : ∀ id ∈ g.Vertices.dom, (g.Vertices.fn id).ID = id) :
    ∀ id ∈ (g.AddVertex v).1.Vertices.dom,
      ((g.AddVertex v).1.Vertices.fn id).ID = id := by
  unfold Graph.AddVertex Graph.GetVertex
  cases hl : g.Vertices.lookup v.ID with
  | some v0 => exact hK
  | none =>
    simp only
    intro id hid
    rw [GoMap.dom_set] at hid
    by_cases hne : id = v.ID
    · rw [hne]
      show ((g.Vertices.set v.ID v).fn v.ID).ID = v.ID
      unfold GoMap.set
      simp
    · show ((g.Vertices.set v.ID v).fn id).ID = id
      unfold GoMap.set
      simp only [if_neg hne]
      rcases Finset.mem_insert.1 hid with h' | h'
      · exact absurd h' hne
      · exact hK id h'

/-- The endpoint auto-creation phase of `AddEdge` on an id-consistent graph:
the returned canonical records carry the argument identities, the edge list
and the directed flag are untouched, both endpoint identities are present
afterwards, id-consistency is preserved, and the stored record of every
pre-existing vertex is unchanged. -/
theorem addEndpoints_spec {α : Type u} (g : Graph α) (e : EdgeArg α)
    (hK : ∀ id ∈ g.Vertices.dom, (g.Vertices.fn id).ID = id) :
    (g.addEndpoints e).2.1.ID = e.From.ID
    ∧ (g.addEndpoints e).2.2.ID = e.To.ID
    ∧ (g.addEndpoints e).1.Edges = g.Edges
    ∧ (g.addEndpoints e).1.Directed = g.Directed
    ∧ e.From.ID ∈ (g.addEndpoints e).1.Vertices.dom
    ∧ e.To.ID ∈ (g.addEndpoints e).1.Vertices.dom
    ∧ (∀ id ∈ (g.addEndpoints e).1.Vertices.dom,
        ((g.addEndpoints e).1.Vertices.fn id).ID = id)
    ∧ (∀ id ∈ g.Vertices.dom,
        (g.addEndpoints e).1.Vertices.lookup id = g.Vertices.lookup id) := by
  unfold Graph.addEndpoints
  cases hf : g.GetVertex e.From.ID with
  | some vf =>
    have hfmem : e.From.ID ∈ g.Vertices.dom := GoMap.mem_dom_of_lookup hf
    have hfid : vf.ID = e.From.ID := by
      rw [← GoMap.fn_of_lookup (show g.Vertices.lookup e.From.ID = some vf from hf)]
      exact hK e.From.ID hfmem
    cases ht : g.GetVertex e.To.ID with
    | some vt =>
      have htmem : e.To.ID ∈ g.Vertices.dom := GoMap.mem_dom_of_lookup ht
      have htid : vt.ID = e.To.ID := by
        rw [← GoMap.fn_of_lookup (show g.Vertices.lookup e.To.ID = some vt from ht)]
        exact hK e.To.ID htmem
      exact ⟨hfid, htid, rfl, rfl, hfmem, htmem, hK, fun id _ => rfl⟩
    | none =>
      have htabs : e.To.ID ∉ g.Vertices.dom := GoMap.not_mem_of_lookup_none ht
      refine ⟨hfid, addVertex_id e.To hK, addVertex_edges g e.To,
        addVertex_directed g e.To, ?_, ?_, addVertex_idKey e.To hK, ?_⟩
      · rw [addVertex_dom]
        exact Finset.mem_insert_of_mem hfmem
      · rw [addVertex_dom]
        exact Finset.mem_insert_self _ _
      · intro id hid
        apply addVertex_lookup_other
        intro hc
        rw [hc] at hid
        exact htabs hid
  | none =>
    have hfabs : e.From.ID ∉ g.Vertices.dom := GoMap.not_mem_of_lookup_none hf
    have hK1 := @addVertex_idKey α g e.From hK
    have hdom1 := addVertex_dom g e.From
    cases ht : g.GetVertex e.To.ID with
    | some vt =>
      have htmem : e.To.ID ∈ g.Vertices.dom := GoMap.mem_dom_of_lookup ht
      have htid : vt.ID = e.To.ID := by
        rw [← GoMap.fn_of_lookup (show g.Vertices.lookup e.To.ID = some vt from ht)]
        exact hK e.To.ID htmem
      refine ⟨addVertex_id e.From hK, htid, addVertex_edges g e.From,
        addVertex_directed g e.From, ?_, ?_, hK1, ?_⟩
      · rw [hdom1]
        exact Finset.mem_insert_self _ _
      · rw [hdom1]
        exact Finset.mem_insert_of_mem htmem
      · intro id hid
        apply addVertex_lookup_other
        intro hc
        rw [hc] at hid
        exact hfabs hid
    | none =>
      have htabs : e.To.ID ∉ g.Vertices.dom := GoMap.not_mem_of_lookup_none ht
      have hg1 := g.AddVertex e.From
      refine ⟨addVertex_id e.From hK, addVertex_id e.To hK1, ?_, ?_, ?_, ?_,
        addVertex_idKey e.To hK1, ?_⟩
      · rw [addVertex_edges, addVertex_edges]
      · rw [addVertex_directed, addVertex_directed]
      · rw [addVertex_dom, hdom1]
        exact Finset.mem_insert_of_mem (Finset.mem_insert_self _ _)
      · rw [addVertex_dom]
        exact Finset.mem_insert_self _ _
      · intro id hid
        rw [addVertex_lookup_other _ _ _ (fun hc => htabs (hc ▸ hid)),
          addVertex_lookup_other _ _ _ (fun hc => hfabs (hc ▸ hid))]

theorem adjOf_of_lookup {α : Type u} {g : Graph α} {id : Int} {v : Vertex α}
    (h : g.Vertices.lookup id = some v) : g.adjOf id = v.Edges := by
  unfold Graph.adjOf
  rw [h]

theorem adjOf_of_mem {α : Type u} [Inhabited α] {g : Graph α} {id : Int}
    (h : id ∈ g.Vertices.dom) : g.adjOf id = (g.Vertices.get id).Edges :=
  adjOf_of_lookup (GoMap.lookup_eq_some_get h)

/-- `AddEdge` after the endpoint phase, written out explicitly (undirected
case): append the canonical forward edge to the edge sequence and to the
stored source record, then append the reverse edge to the stored target
record (re-read after the first store, which matters for self-loops). -/
theorem addEdge_core {α : Type u} [Inhabited α] (g : Graph α) (e : EdgeArg α)
    {g2 : Graph α} {fromV toV : Vertex α}
    (hep : g.addEndpoints e = (g2, fromV, toV)) (hU : g.Directed = false) :
    g.AddEdge e =
      (Graph.mk
        ((g2.Vertices.set fromV.ID
            (pushEdge (g2.Vertices.get fromV.ID)
              (Edge.mk fromV.ID toV.ID e.Weight e.Data))).set
          toV.ID
          (pushEdge
            ((g2.Vertices.set fromV.ID
                (pushEdge (g2.Vertices.get fromV.ID)
                  (Edge.mk fromV.ID toV.ID e.Weight e.Data))).get toV.ID)
            (Edge.mk toV.ID fromV.ID e.Weight e.Data)))
        (g2.Edges ++ [Edge.mk fromV.ID toV.ID e.Weight e.Data])
        g2.Directed,
       Edge.mk fromV.ID toV.ID e.Weight e.Data) := by
  unfold Graph.AddEdge
  rw [hep, hU]
  rfl

/-- C7: on every undirected id-consistent graph, each `AddEdge` call appends
exactly one forward entry to the source vertex's adjacency and exactly one
weight-and-payload-preserving reverse entry to the target vertex's adjacency
(for a self-loop both land on the same vertex, forward first), the global
edge sequence gains only the forward edge, every other vertex's adjacency is
untouched, endpoint auto-creation does not change any pre-existing record,
and the edge count grows by exactly one. -/
theorem addEdge_adjacency_effects {α : Type u} [Inhabited α] (g : Graph α)
    (e : EdgeArg α) (hU : g.Directed = false)
    (hK : ∀ id ∈ g.Vertices.dom, (g.Vertices.fn id).ID = id) :
    (g.AddEdge e).2 = Edge.mk e.From.ID e.To.ID e.Weight e.Data
    ∧ (g.AddEdge e).1.Edges
        = g.Edges ++ [Edge.mk e.From.ID e.To.ID e.Weight e.Data]
    ∧ (g.AddEdge e).1.EdgeCount = g.EdgeCount + 1
    ∧ (e.From.ID ≠ e.To.ID →
        (g.AddEdge e).1.adjOf e.From.ID
          = (g.addEndpoints e).1.adjOf e.From.ID
              ++ [Edge.mk e.From.ID e.To.ID e.Weight e.Data]
        ∧ (g.AddEdge e).1.adjOf e.To.ID
          = (g.addEndpoints e).1.adjOf e.To.ID
              ++ [Edge.mk e.To.ID e.From.ID e.Weight e.Data])
    ∧ (e.From.ID = e.To.ID →
        (g.AddEdge e).1.adjOf e.From.ID
          = (g.addEndpoints e).1.adjOf e.From.ID
              ++ [Edge.mk e.From.ID e.To.ID e.Weight e.Data,
                  Edge.mk e.To.ID e.From.ID e.Weight e.Data])
    ∧ (∀ id, id ≠ e.From.ID → id ≠ e.To.ID →
        (g.AddEdge e).1.adjOf id = (g.addEndpoints e).1.adjOf id)
    ∧ (∀ id ∈ g.Vertices.dom, (g.addEndpoints e).1.adjOf id = g.adjOf id) := by
  have hspec := addEndpoints_spec g e hK
  rcases hEP : g.addEndpoints e with ⟨g2, fromV, toV⟩
  rw [hEP] at hspec
  simp only at hspec
  obtain ⟨hf, ht, hE, hD, hmF, hmT, hK2, hpres⟩ := hspec
  have hAE := addEdge_core g e hEP hU
  rw [hf, ht] at hAE
  rw [hAE]
  refine ⟨rfl, ?_, ?_, ?_, ?_, ?_, ?_⟩
  · show g2.Edges ++ _ = g.Edges ++ _
    rw [hE]
  · show (g2.Edges ++ [Edge.mk e.From.ID e.To.ID e.Weight e.Data]).length
        = g.Edges.length + 1
    rw [hE, List.length_append, List.length_singleton]
  · intro hne
    constructor
    · show Graph.adjOf _ e.From.ID = _
      rw [@adjOf_of_lookup α _ _ (pushEdge (g2.Vertices.get e.From.ID)
          (Edge.mk e.From.ID e.To.ID e.Weight e.Data)) ?_,
        adjOf_of_mem hmF]
      · rfl
      · show ((g2.Vertices.set e.From.ID _).set e.To.ID _).lookup e.From.ID = _
        rw [GoMap.lookup_set, if_neg hne, GoMap.lookup_set, if_pos rfl]
    · show Graph.adjOf _ e.To.ID = _
      rw [@adjOf_of_lookup α _ _ (pushEdge
          ((g2.Vertices.set e.From.ID (pushEdge (g2.Vertices.get e.From.ID)
            (Edge.mk e.From.ID e.To.ID e.Weight e.Data))).get e.To.ID)
          (Edge.mk e.To.ID e.From.ID e.Weight e.Data)) ?_,
        adjOf_of_mem hmT]
      · show ((g2.Vertices.set e.From.ID _).get e.To.ID).Edges ++ _ = _
        rw [GoMap.get_set, if_neg (Ne.symm hne)]
      · show ((g2.Vertices.set e.From.ID _).set e.To.ID _).lookup e.To.ID = _
        rw [GoMap.lookup_set, if_pos rfl]
  · intro heq
    show Graph.adjOf _ e.From.ID = _
    rw [@adjOf_of_lookup α _ _ (pushEdge
        ((g2.Vertices.set e.From.ID (pushEdge (g2.Vertices.get e.From.ID)
          (Edge.mk e.From.ID e.To.ID e.Weight e.Data))).get e.To.ID)
        (Edge.mk e.To.ID e.From.ID e.Weight e.Data)) ?_,
      adjOf_of_mem hmF]
    · show ((g2.Vertices.set e.From.ID _).get e.To.ID).Edges ++ _ = _
      rw [GoMap.get_set, if_pos heq.symm]
      show ((g2.Vertices.get e.From.ID).Edges ++ _) ++ _ = _
      rw [List.append_assoc]
      rfl
    · show ((g2.Vertices.set e.From.ID _).set e.To.ID _).lookup e.From.ID = _
      rw [GoMap.lookup_set, if_pos heq]
  · intro id hidF hidT
    show Graph.adjOf _ id = Graph.adjOf g2 id
    unfold Graph.adjOf
    rw [GoMap.lookup_set, if_neg hidT, GoMap.lookup_set, if_neg hidF]
  · intro id hid
    unfold Graph.adjOf
    rw [hpres id hid]

/-- C7 (witness): adding the edge 2-3 of weight 7 to the one-edge graph
`gP`. -/
theorem addEdge_adjacency_effects_witness :
    (gP.AddEdge (wE 2 3 7)).2
      = Edge.mk (wE 2 3 7).From.ID (wE 2 3 7).To.ID (wE 2 3 7).Weight (wE 2 3 7).Data
    ∧ (gP.AddEdge (wE 2 3 7)).1.Edges
        = gP.Edges ++ [Edge.mk (wE 2 3 7).From.ID (wE 2 3 7).To.ID
            (wE 2 3 7).Weight (wE 2 3 7).Data]
    ∧ (gP.AddEdge (wE 2 3 7)).1.EdgeCount = gP.EdgeCount + 1
    ∧ ((wE 2 3 7).From.ID ≠ (wE 2 3 7).To.ID →
        (gP.AddEdge (wE 2 3 7)).1.adjOf (wE 2 3 7).From.ID
          = (gP.addEndpoints (wE 2 3 7)).1.adjOf (wE 2 3 7).From.ID
              ++ [Edge.mk (wE 2 3 7).From.ID (wE 2 3 7).To.ID
                    (wE 2 3 7).Weight (wE 2 3 7).Data]
        ∧ (gP.AddEdge (wE 2 3 7)).1.adjOf (wE 2 3 7).To.ID
          = (gP.addEndpoints (wE 2 3 7)).1.adjOf (wE 2 3 7).To.ID
              ++ [Edge.mk (wE 2 3 7).To.ID (wE 2 3 7).From.ID
                    (wE 2 3 7).Weight (wE 2 3 7).Data])
    ∧ ((wE 2 3 7).From.ID = (wE 2 3 7).To.ID →
        (gP.AddEdge (wE 2 3 7)).1.adjOf (wE 2 3 7).From.ID
          = (gP.addEndpoints (wE 2 3 7)).1.adjOf (wE 2 3 7).From.ID
              ++ [Edge.mk (wE 2 3 7).From.ID (wE 2 3 7).To.ID
                    (wE 2 3 7).Weight (wE 2 3 7).Data,
                  Edge.mk (wE 2 3 7).To.ID (wE 2 3 7).From.ID
                    (wE 2 3 7).Weight (wE 2 3 7).Data])
    ∧ (∀ id, id ≠ (wE 2 3 7).From.ID → id ≠ (wE 2 3 7).To.ID →
        (gP.AddEdge (wE 2 3 7)).1.adjOf id
          = (gP.addEndpoints (wE 2 3 7)).1.adjOf id)
    ∧ (∀ id ∈ gP.Vertices.dom,
        (gP.addEndpoints (wE 2 3 7)).1.adjOf id = gP.adjOf id) :=
  addEdge_adjacency_effects gP (wE 2 3 7) (by decide) (by decide)

/-! ## Structural invariants of API-built graphs -/

theorem addVertex_eq_present {α : Type u} {g : Graph α} {v : Vertex α}
    {v0 : Vertex α} (h : g.Vertices.lookup v.ID = some v0) :
    g.AddVertex v = (g, v0) := by
  unfold Graph.AddVertex Graph.GetVertex
  rw [h]

theorem addVertex_eq_absent {α : Type u} {g : Graph α} {v : Vertex α}
    (h : v.ID ∉ g.Vertices.dom) :
    g.AddVertex v = ({ g with Vertices := g.Vertices.set v.ID v }, v) := by
  unfold Graph.AddVertex Graph.GetVertex
  rw [GoMap.lookup_none h]

theorem ginv_base {α : Type u} [Inhabited α] : GInv (NewGraph false : Graph α) := by
  refine ⟨rfl, ?_, ?_, ?_, ?_, ?_, ?_, ?_⟩ <;>
    · intro a ha
      exact absurd ha (by simp [NewGraph, GoMap.empty])

theorem ginv_set_fresh {α : Type u} [Inhabited α] {g g' : Graph α}
    (hG : GInv g) (id0 : Int) (name : String) (data : α)
    (hmem : id0 ∉ g.Vertices.dom)
    (hV : g'.Vertices = g.Vertices.set id0 (freshVertex id0 name data))
    (hE : g'.Edges = g.Edges) (hD : g'.Directed = g.Directed) : GInv g' := by
  have hfn : ∀ z, g'.Vertices.fn z
      = if z = id0 then freshVertex id0 name data else g.Vertices.fn z := by
    intro z
    rw [hV]
    rfl
  have hdom : g'.Vertices.dom = insert id0 g.Vertices.dom := by
    rw [hV]
    rfl
  refine ⟨by rw [hD]; exact hG.undirected, ?_, ?_, ?_, ?_, ?_, ?_, ?_⟩
  · intro id hid
    rw [hfn]
    by_cases hz : id = id0
    · rw [if_pos hz, hz]
      rfl
    · rw [if_neg hz]
      rw [hdom] at hid
      rcases Finset.mem_insert.1 hid with h' | h'
      · exact absurd h' hz
      · exact hG.idKey id h'
  · intro id hid e he
    rw [hfn] at he
    by_cases hz : id = id0
    · rw [if_pos hz] at he
      exact absurd he (by simp [freshVertex])
    · rw [if_neg hz] at he
      rw [hdom] at hid
      rcases Finset.mem_insert.1 hid with h' | h'
      · exact absurd h' hz
      · exact hG.adjFrom id h' e he
  · intro id hid e he
    rw [hfn] at he
    by_cases hz : id = id0
    · rw [if_pos hz] at he
      exact absurd he (by simp [freshVertex])
    · rw [if_neg hz] at he
      rw [hdom] at hid
      rcases Finset.mem_insert.1 hid with h' | h'
      · exact absurd h' hz
      · rw [hdom]
        exact Finset.mem_insert_of_mem (hG.adjToDom id h' e he)
  · intro e he
    rw [hE] at he
    rw [hdom]
    exact Finset.mem_insert_of_mem (hG.edgeFromDom e he)
  · intro e he
    rw [hE] at he
    rw [hdom]
    exact Finset.mem_insert_of_mem (hG.edgeToDom e he)
  · intro id hid e he
    rw [hfn] at he
    by_cases hz : id = id0
    · rw [if_pos hz] at he
      exact absurd he (by simp [freshVertex])
    · rw [if_neg hz] at he
      rw [hdom] at hid
      rcases Finset.mem_insert.1 hid with h' | h'
      · exact absurd h' hz
      · obtain ⟨e', he', hto⟩ := hG.adjRev id h' e he
        refine ⟨e', ?_, hto⟩
        rw [hfn]
        have hne : e.To ≠ id0 := by
          intro hc
          exact hmem (hc ▸ hG.adjToDom id h' e he)
        rw [if_neg hne]
        exact he'
  · intro id hid e he
    rw [hfn] at he
    by_cases hz : id = id0
    · rw [if_pos hz] at he
      exact absurd he (by simp [freshVertex])
    · rw [if_neg hz] at he
      rw [hdom] at hid
      rcases Finset.mem_insert.1 hid with h' | h'
      · exact absurd h' hz
      · rw [hE]
        exact hG.adjEdge id h' e he

theorem ginv_addVertex {α : Type u} [Inhabited α] {g : Graph α}
    (hG : GInv g) (id0 : Int) (name : String) (data : α) :
    GInv (g.AddVertex (freshVertex id0 name data)).1 := by
  by_cases hmem : id0 ∈ g.Vertices.dom
  · cases hl : g.Vertices.lookup id0 with
    | none => exact absurd hmem (GoMap.not_mem_of_lookup_none hl)
    | some v0 =>
      rw [@addVertex_eq_present α g (freshVertex id0 name data) v0 hl]
      exact hG
  · refine ginv_set_fresh hG id0 name data hmem ?_ ?_ ?_ <;>
      (rw [@addVertex_eq_absent α g (freshVertex id0 name data) hmem] <;> rfl)

theorem pushEdge_edges {α : Type u} (v : Vertex α) (e : Edge α) :
    (pushEdge v e).Edges = v.Edges ++ [e] := rfl

theorem pushEdge_id {α : Type u} (v : Vertex α) (e : Edge α) :
    (pushEdge v e).ID = v.ID := rfl

/-- `GInv` is preserved by the adjacency/edge-sequence updates of the
undirected `AddEdge` body, stated over the post-`addEndpoints` graph. -/
theorem ginv_push_both {α : Type u} [Inhabited α] {g2 : Graph α}
    (hG2 : GInv g2) {F T : Int}
    (hmF : F ∈ g2.Vertices.dom) (hmT : T ∈ g2.Vertices.dom)
    (w : Int) (d : α) {g' : Graph α}
    (hV : g'.Vertices
      = (g2.Vertices.set F (pushEdge (g2.Vertices.get F) (Edge.mk F T w d))).set T
          (pushEdge
            ((g2.Vertices.set F
                (pushEdge (g2.Vertices.get F) (Edge.mk F T w d))).get T)
            (Edge.mk T F w d)))
    (hE : g'.Edges = g2.Edges ++ [Edge.mk F T w d])
    (hD : g'.Directed = g2.Directed) : GInv g' := by
  have hgetF : g2.Vertices.get F = g2.Vertices.fn F := by
    unfold GoMap.get
    rw [if_pos hmF]
  have hmF4 : F ∈ (g2.Vertices.set F
      (pushEdge (g2.Vertices.get F) (Edge.mk F T w d))).dom := by
    rw [GoMap.dom_set]
    exact Finset.mem_insert_self _ _
  have hmT4 : T ∈ (g2.Vertices.set F
      (pushEdge (g2.Vertices.get F) (Edge.mk F T w d))).dom := by
    rw [GoMap.dom_set]
    exact Finset.mem_insert_of_mem hmT
  have hget4T : (g2.Vertices.set F
        (pushEdge (g2.Vertices.get F) (Edge.mk F T w d))).get T
      = if T = F then pushEdge (g2.Vertices.fn F) (Edge.mk F T w d)
        else g2.Vertices.fn T := by
    rw [GoMap.get_set]
    by_cases hTF : T = F
    · rw [if_pos hTF, if_pos hTF, hgetF]
    · rw [if_neg hTF, if_neg hTF]
      unfold GoMap.get
      rw [if_pos hmT]
  have hfn5 : ∀ z, g'.Vertices.fn z
      = if z = T then
          pushEdge
            ((g2.Vertices.set F
                (pushEdge (g2.Vertices.get F) (Edge.mk F T w d))).get T)
            (Edge.mk T F w d)
        else if z = F then pushEdge (g2.Vertices.get F) (Edge.mk F T w d)
        else g2.Vertices.fn z := by
    intro z
    rw [hV]
    rfl
  have hdom5 : g'.Vertices.dom = g2.Vertices.dom := by
    rw [hV, GoMap.dom_set, GoMap.dom_set,
      Finset.insert_eq_self.2 hmF, Finset.insert_eq_self.2 hmT]
  -- every old adjacency entry survives in the new record of its vertex
  have hkeep : ∀ z, ∀ a ∈ (g2.Vertices.fn z).Edges, a ∈ (g'.Vertices.fn z).Edges := by
    intro z a ha
    rw [hfn5]
    by_cases hzT : z = T
    · rw [if_pos hzT, pushEdge_edges, hget4T]
      apply List.mem_append_left
      by_cases hTF : T = F
      · rw [if_pos hTF, pushEdge_edges]
        apply List.mem_append_left
        rw [← hTF, ← hzT]
        exact ha
      · rw [if_neg hTF, ← hzT]
        exact ha
    · rw [if_neg hzT]
      by_cases hzF : z = F
      · rw [if_pos hzF, pushEdge_edges, hgetF]
        apply List.mem_append_left
        rw [← hzF]
        exact ha
      · rw [if_neg hzF]
        exact ha
  -- decompose membership in a new record's adjacency
  have hsplit : ∀ z, ∀ a ∈ (g'.Vertices.fn z).Edges,
      a ∈ (g2.Vertices.fn z).Edges
      ∨ (a = Edge.mk F T w d ∧ (z = F ∨ (z = T ∧ T = F)))
      ∨ (a = Edge.mk T F w d ∧ z = T) := by
    intro z a ha
    rw [hfn5] at ha
    by_cases hzT : z = T
    · rw [if_pos hzT, pushEdge_edges, hget4T] at ha
      rcases List.mem_append.1 ha with h4 | hrev
      · by_cases hTF : T = F
        · rw [if_pos hTF, pushEdge_edges] at h4
          rcases List.mem_append.1 h4 with hold | hfwd
          · rw [hzT, hTF]
            exact Or.inl hold
          · exact Or.inr (Or.inl ⟨List.mem_singleton.1 hfwd, Or.inr ⟨hzT, hTF⟩⟩)
        · rw [if_neg hTF] at h4
          rw [hzT]
          exact Or.inl h4
      · exact Or.inr (Or.inr ⟨List.mem_singleton.1 hrev, hzT⟩)
    · rw [if_neg hzT] at ha
      by_cases hzF : z = F
      · rw [if_pos hzF, pushEdge_edges, hgetF] at ha
        rcases List.mem_append.1 ha with hold | hfwd
        · rw [hzF]
          exact Or.inl hold
        · exact Or.inr (Or.inl ⟨List.mem_singleton.1 hfwd, Or.inl hzF⟩)
      · rw [if_neg hzF] at ha
        exact Or.inl ha
  have hidKey : ∀ id ∈ g'.Vertices.dom, (g'.Vertices.fn id).ID = id := by
    intro id hid
    rw [hdom5] at hid
    rw [hfn5]
    by_cases hzT : id = T
    · rw [if_pos hzT, pushEdge_id, hget4T]
      by_cases hTF : T = F
      · rw [if_pos hTF, pushEdge_id, hG2.idKey F hmF, hzT, hTF]
      · rw [if_neg hTF, hG2.idKey T hmT, hzT]
    · rw [if_neg hzT]
      by_cases hzF : id = F
      · rw [if_pos hzF, pushEdge_id, hgetF, hG2.idKey F hmF, hzF]
      · rw [if_neg hzF]
        exact hG2.idKey id hid
  refine ⟨by rw [hD]; exact hG2.undirected, hidKey, ?_, ?_, ?_, ?_, ?_, ?_⟩
  · -- adjFrom
    intro id hid a ha
    rcases hsplit id a ha with hold | ⟨hfa, hz⟩ | ⟨hra, hz⟩
    · rw [hdom5] at hid
      exact hG2.adjFrom id hid a hold
    · rcases hz with hzF | ⟨hzT, hTF⟩
      · rw [hfa, hzF]
      · rw [hfa, hzT, hTF]
    · rw [hra, hz]
  · -- adjToDom
    intro id hid a ha
    rw [hdom5]
    rcases hsplit id a ha with hold | ⟨hfa, _⟩ | ⟨hra, _⟩
    · rw [hdom5] at hid
      exact hG2.adjToDom id hid a hold
    · rw [hfa]
      exact hmT
    · rw [hra]
      exact hmF
  · -- edgeFromDom
    intro a ha
    rw [hE] at ha
    rw [hdom5]
    rcases List.mem_append.1 ha with hold | hnew
    · exact hG2.edgeFromDom a hold
    · rw [List.mem_singleton.1 hnew]
      exact hmF
  · -- edgeToDom
    intro a ha
    rw [hE] at ha
    rw [hdom5]
    rcases List.mem_append.1 ha with hold | hnew
    · exact hG2.edgeToDom a hold
    · rw [List.mem_singleton.1 hnew]
      exact hmT
  · -- adjRev
    intro id hid a ha
    rcases hsplit id a ha with hold | ⟨hfa, hz⟩ | ⟨hra, hzT⟩
    · rw [hdom5] at hid
      obtain ⟨e', he', hto⟩ := hG2.adjRev id hid a hold
      exact ⟨e', hkeep a.To e' he', hto⟩
    · -- the forward edge: its partner is the reverse edge stored at T
      refine ⟨Edge.mk T F w d, ?_, ?_⟩
      · rw [hfa]
        show Edge.mk T F w d ∈ (g'.Vertices.fn T).Edges
        rw [hfn5, if_pos rfl, pushEdge_edges]
        exact List.mem_append_right _ (List.mem_singleton.2 rfl)
      · show F = id
        rcases hz with hzF | ⟨hzT, hTF⟩
        · rw [hzF]
        · rw [hzT, hTF]
    · -- the reverse edge: its partner is the forward edge stored at F
      refine ⟨Edge.mk F T w d, ?_, ?_⟩
      · rw [hra]
        show Edge.mk F T w d ∈ (g'.Vertices.fn F).Edges
        rw [hfn5]
        by_cases hTF : F = T
        · rw [if_pos hTF, pushEdge_edges, hget4T, if_pos hTF.symm, pushEdge_edges]
          apply List.mem_append_left
          exact List.mem_append_right _ (List.mem_singleton.2 rfl)
        · rw [if_neg hTF, if_pos rfl, pushEdge_edges]
          exact List.mem_append_right _ (List.mem_singleton.2 rfl)
      · show T = id
        rw [hzT]
  · -- adjEdge
    intro id hid a ha
    rw [hE]
    rcases hsplit id a ha with hold | ⟨hfa, _⟩ | ⟨hra, _⟩
    · rw [hdom5] at hid
      rcases hG2.adjEdge id hid a hold with hmem | ⟨e0, he0, hrev⟩
      · exact Or.inl (List.mem_append_left _ hmem)
      · exact Or.inr ⟨e0, List.mem_append_left _ he0, hrev⟩
    · exact Or.inl (List.mem_append_right _ (by rw [hfa]; exact List.mem_singleton.2 rfl))
    · refine Or.inr ⟨Edge.mk F T w d,
        List.mem_append_right _ (List.mem_singleton.2 rfl), ?_⟩
      rw [hra]
      rfl

theorem ginv_addEndpoints {α : Type u} [Inhabited α] {g : Graph α}
    (hG : GInv g) {ef et : Vertex α} (hf : ef.Edges = []) (ht : et.Edges = [])
    (w : Int) (d : α) :
    GInv (g.addEndpoints ⟨ef, et, w, d⟩).1 := by
  have hef : ef = freshVertex ef.ID ef.Name ef.Data := by
    cases ef
    simp only [freshVertex] at hf ⊢
    rw [hf]
  have het : et = freshVertex et.ID et.Name et.Data := by
    cases et
    simp only [freshVertex] at ht ⊢
    rw [ht]
  unfold Graph.addEndpoints
  cases hfl : Graph.GetVertex g ef.ID with
  | some vf =>
    cases htl : Graph.GetVertex g et.ID with
    | some vt => exact hG
    | none =>
      simp only
      rw [het]
      exact ginv_addVertex hG et.ID et.Name et.Data
  | none =>
    have h1 : GInv (g.AddVertex ef).1 := by
      rw [hef]
      exact ginv_addVertex hG ef.ID ef.Name ef.Data
    cases htl : Graph.GetVertex g et.ID with
    | some vt => exact h1
    | none =>
      simp only
      rw [het]
      exact ginv_addVertex h1 et.ID et.Name et.Data

theorem ginv_addEdge {α : Type u} [Inhabited α] {g : Graph α} (hG : GInv g)
    {ef et : Vertex α} (hfE : ef.Edges = []) (htE : et.Edges = [])
    (w : Int) (d : α) :
    GInv (g.AddEdge ⟨ef, et, w, d⟩).1 := by
  have hG2pre : GInv (g.addEndpoints ⟨ef, et, w, d⟩).1 :=
    ginv_addEndpoints hG hfE htE w d
  have hspec := addEndpoints_spec g ⟨ef, et, w, d⟩ hG.idKey
  rcases hEP : g.addEndpoints ⟨ef, et, w, d⟩ with ⟨g2, fromV, toV⟩
  rw [hEP] at hG2pre hspec
  simp only at hspec hG2pre
  obtain ⟨hf, ht, hE2, hD2, hmF, hmT, hK2, hpres⟩ := hspec
  rw [← hf] at hmF
  rw [← ht] at hmT
  have hAE := addEdge_core g ⟨ef, et, w, d⟩ hEP hG.undirected
  refine ginv_push_both hG2pre hmF hmT w d ?_ ?_ ?_ <;> rw [hAE]

/-- Every API-built graph satisfies the structural invariants. -/
theorem built_ginv {α : Type u} [Inhabited α] {g : Graph α} (h : Built g) :
    GInv g := by
  induction h with
  | base => exact ginv_base
  | addV g0 id name data hb ih => exact ginv_addVertex ih id name data
  | addE g0 ef et w d hfE htE hb ih => exact ginv_addEdge ih hfE htE w d

/-! ## Connectivity lemmas -/

theorem adjOf_mem_dest {α : Type u} {g : Graph α} {x : Int} {e : Edge α}
    (h : e ∈ g.adjOf x) :
    x ∈ g.Vertices.dom ∧ e ∈ (g.Vertices.fn x).Edges := by
  unfold Graph.adjOf at h
  cases hl : g.Vertices.lookup x with
  | none => rw [hl] at h; cases h
  | some v =>
    rw [hl] at h
    refine ⟨GoMap.mem_dom_of_lookup hl, ?_⟩
    rw [GoMap.fn_of_lookup hl]
    exact h

theorem adjOf_eq_fn {α : Type u} {g : Graph α} {x : Int}
    (h : x ∈ g.Vertices.dom) : g.adjOf x = (g.Vertices.fn x).Edges := by
  unfold Graph.adjOf
  have : g.Vertices.lookup x = some (g.Vertices.fn x) := by
    unfold GoMap.lookup
    rw [if_pos h]
  rw [this]

theorem adjacent_symm {α : Type u} {g : Graph α} (hG : GInv g) {x y : Int}
    (h : g.adjacent x y) : g.adjacent y x := by
  obtain ⟨e, he, hto⟩ := h
  obtain ⟨hx, he'⟩ := adjOf_mem_dest he
  obtain ⟨e', he2, hto2⟩ := hG.adjRev x hx e he'
  have hty : e.To = y := hto
  refine ⟨e', ?_, hto2⟩
  rw [adjOf_eq_fn (by rw [← hty]; exact hG.adjToDom x hx e he')]
  rw [← hty]
  exact he2

theorem adjacent_mem_right {α : Type u} {g : Graph α} (hG : GInv g) {x y : Int}
    (h : g.adjacent x y) : y ∈ g.Vertices.dom := by
  obtain ⟨e, he, hto⟩ := h
  obtain ⟨hx, he'⟩ := adjOf_mem_dest he
  rw [← hto]
  exact hG.adjToDom x hx e he'

theorem conn_symm {α : Type u} {g : Graph α} (hG : GInv g) {x y : Int}
    (h : g.Conn x y) : g.Conn y x :=
  Relation.ReflTransGen.symmetric (fun _ _ hab => adjacent_symm hG hab) h

theorem conn_mem {α : Type u} {g : Graph α} (hG : GInv g) {x y : Int}
    (hx : x ∈ g.Vertices.dom) (h : g.Conn x y) : y ∈ g.Vertices.dom := by
  induction h with
  | refl => exact hx
  | tail _ hadj ih => exact adjacent_mem_right hG hadj

theorem conn_adjacent {α : Type u} {g : Graph α} {x y : Int}
    (h : g.adjacent x y) : g.Conn x y :=
  Relation.ReflTransGen.single h

/-! ## DFS lemmas -/

theorem dfs_zero {α : Type u} [Inhabited α] (g : Graph α) (node : Int)
    (vis : Finset Int) : g.dfs 0 node vis = none := by
  rw [Graph.dfs]

theorem dfs_succ {α : Type u} [Inhabited α] (g : Graph α) (n : Nat) (node : Int)
    (vis : Finset Int) :
    g.dfs (n + 1) node vis = g.dfsEdges n (g.adjOf node) (insert node vis) := by
  rw [Graph.dfs]

theorem dfsEdges_nil {α : Type u} [Inhabited α] (g : Graph α) (n : Nat)
    (vis : Finset Int) : g.dfsEdges n [] vis = some vis := by
  rw [Graph.dfsEdges]

theorem dfsEdges_cons {α : Type u} [Inhabited α] (g : Graph α) (n : Nat)
    (e : Edge α) (rest : List (Edge α)) (vis : Finset Int) :
    g.dfsEdges n (e :: rest) vis =
      if e.To ∈ vis then g.dfsEdges n rest vis
      else
        match g.dfs n e.To vis with
        | none => none
        | some visited' => g.dfsEdges n rest visited' := by
  rw [Graph.dfsEdges]

/-- Soundness of the DFS: the visited set only grows, the start node is
marked, and every newly marked node is connected to the start. -/
theorem dfs_sound {α : Type u} [Inhabited α] (g : Graph α) : ∀ n : Nat,
    (∀ (node : Int) (vis vis' : Finset Int), g.dfs n node vis = some vis' →
      vis ⊆ vis' ∧ node ∈ vis' ∧ ∀ z ∈ vis', z ∈ vis ∨ g.Conn node z)
    ∧ (∀ (src : Int) (l : List (Edge α)) (vis vis' : Finset Int),
        (∀ e ∈ l, g.adjacent src e.To) →
        g.dfsEdges n l vis = some vis' →
        vis ⊆ vis' ∧ ∀ z ∈ vis', z ∈ vis ∨ g.Conn src z) := by
  intro n
  induction n with
  | zero =>
    constructor
    · intro node vis vis' h
      rw [dfs_zero] at h
      cases h
    · intro src l
      induction l with
      | nil =>
        intro vis vis' _ h
        rw [dfsEdges_nil] at h
        cases h
        exact ⟨subset_rfl, fun z hz => Or.inl hz⟩
      | cons e rest ih =>
        intro vis vis' hadj h
        rw [dfsEdges_cons] at h
        by_cases hv : e.To ∈ vis
        · rw [if_pos hv] at h
          exact ih vis vis' (fun e' he' => hadj e' (List.mem_cons_of_mem e he')) h
        · rw [if_neg hv, dfs_zero] at h
          cases h
  | succ n ihn =>
    have hP : ∀ (node : Int) (vis vis' : Finset Int),
        g.dfs (n + 1) node vis = some vis' →
        vis ⊆ vis' ∧ node ∈ vis' ∧ ∀ z ∈ vis', z ∈ vis ∨ g.Conn node z := by
      intro node vis vis' h
      rw [dfs_succ] at h
      have hQ := ihn.2 node (g.adjOf node) (insert node vis) vis'
        (fun e he => ⟨e, he, rfl⟩) h
      refine ⟨(Finset.subset_insert node vis).trans hQ.1,
        hQ.1 (Finset.mem_insert_self _ _), ?_⟩
      intro z hz
      rcases hQ.2 z hz with hzin | hconn
      · rcases Finset.mem_insert.1 hzin with hzn | hzv
        · rw [hzn]
          exact Or.inr Relation.ReflTransGen.refl
        · exact Or.inl hzv
      · exact Or.inr hconn
    refine ⟨hP, ?_⟩
    intro src l
    induction l with
    | nil =>
      intro vis vis' _ h
      rw [dfsEdges_nil] at h
      cases h
      exact ⟨subset_rfl, fun z hz => Or.inl hz⟩
    | cons e rest ih =>
      intro vis vis' hadj h
      rw [dfsEdges_cons] at h
      by_cases hv : e.To ∈ vis
      · rw [if_pos hv] at h
        exact ih vis vis' (fun e' he' => hadj e' (List.mem_cons_of_mem e he')) h
      · rw [if_neg hv] at h
        cases hd : g.dfs (n + 1) e.To vis with
        | none => rw [hd] at h; cases h
        | some vis1 =>
          rw [hd] at h
          obtain ⟨h1sub, h1mem, h1conn⟩ := hP e.To vis vis1 hd
          obtain ⟨h2sub, h2conn⟩ :=
            ih vis1 vis' (fun e' he' => hadj e' (List.mem_cons_of_mem e he')) h
          have hstep : g.Conn src e.To :=
            conn_adjacent (hadj e (List.mem_cons_self e rest))
          refine ⟨h1sub.trans h2sub, ?_⟩
          intro z hz
          rcases h2conn z hz with hz1 | hconn
          · rcases h1conn z hz1 with hzv | hconn'
            · exact Or.inl hzv
            · exact Or.inr (hstep.trans hconn')
          · exact Or.inr hconn

/-- Adequacy of the DFS fuel: the recursion terminates whenever the fuel
exceeds the number of unvisited markable nodes.  `S` is any set containing
every adjacency target (the only nodes the recursion can be called on besides
the start). -/
theorem dfs_adequate {α : Type u} [Inhabited α] (g : Graph α) (S : Finset Int)
    (hS : ∀ id ∈ g.Vertices.dom, ∀ e ∈ (g.Vertices.fn id).Edges, e.To ∈ S) :
    ∀ n : Nat,
    (∀ (l : List (Edge α)) (vis : Finset Int),
        (∀ e ∈ l, e.To ∈ S) →
        (S \ vis).card ≤ n →
        (g.dfsEdges n l vis).isSome = true)
    ∧ (∀ (node : Int) (vis : Finset Int), node ∈ S → node ∉ vis →
        (S \ vis).card ≤ n + 1 →
        (g.dfs (n + 1) node vis).isSome = true) := by
  have hcard_insert : ∀ (node : Int) (vis : Finset Int), node ∈ S →
      node ∉ vis → (S \ insert node vis).card = (S \ vis).card - 1 := by
    intro node vis hdom hvis
    rw [Finset.sdiff_insert,
      Finset.card_erase_of_mem (Finset.mem_sdiff.2 ⟨hdom, hvis⟩)]
  have hA_of_M : ∀ n : Nat,
      ((∀ (l : List (Edge α)) (vis : Finset Int),
        (∀ e ∈ l, e.To ∈ S) →
        (S \ vis).card ≤ n →
        (g.dfsEdges n l vis).isSome = true)) →
      (∀ (node : Int) (vis : Finset Int), node ∈ S → node ∉ vis →
        (S \ vis).card ≤ n + 1 →
        (g.dfs (n + 1) node vis).isSome = true) := by
    intro n hM node vis hdom hvis hfuel
    rw [dfs_succ]
    refine hM (g.adjOf node) (insert node vis) ?_ ?_
    · intro e he
      have := adjOf_mem_dest he
      exact hS node this.1 e this.2
    · rw [hcard_insert node vis hdom hvis]
      omega
  intro n
  induction n with
  | zero =>
    constructor
    · intro l
      induction l with
      | nil =>
        intro vis _ _
        rw [dfsEdges_nil]
        rfl
      | cons e rest ih =>
        intro vis hadj hfuel
        rw [dfsEdges_cons]
        have hmem : e.To ∈ vis := by
          by_contra hv
          have : e.To ∈ S \ vis :=
            Finset.mem_sdiff.2 ⟨hadj e (List.mem_cons_self e rest), hv⟩
          have := Finset.card_pos.2 ⟨e.To, this⟩
          omega
        rw [if_pos hmem]
        exact ih vis (fun e' he' => hadj e' (List.mem_cons_of_mem e he')) hfuel
    · intro node vis hdom hvis hfuel
      refine hA_of_M 0 ?_ node vis hdom hvis hfuel
      intro l
      induction l with
      | nil =>
        intro vis' _ _
        rw [dfsEdges_nil]
        rfl
      | cons e rest ih =>
        intro vis' hadj hfuel'
        rw [dfsEdges_cons]
        have hmem : e.To ∈ vis' := by
          by_contra hv
          have : e.To ∈ S \ vis' :=
            Finset.mem_sdiff.2 ⟨hadj e (List.mem_cons_self e rest), hv⟩
          have := Finset.card_pos.2 ⟨e.To, this⟩
          omega
        rw [if_pos hmem]
        exact ih vis' (fun e' he' => hadj e' (List.mem_cons_of_mem e he')) hfuel'
  | succ n ihn =>
    have hA := hA_of_M n ihn.1
    have hM : ∀ (l : List (Edge α)) (vis : Finset Int),
        (∀ e ∈ l, e.To ∈ S) →
        (S \ vis).card ≤ n + 1 →
        (g.dfsEdges (n + 1) l vis).isSome = true := by
      intro l
      induction l with
      | nil =>
        intro vis _ _
        rw [dfsEdges_nil]
        rfl
      | cons e rest ih =>
        intro vis hadj hfuel
        rw [dfsEdges_cons]
        by_cases hv : e.To ∈ vis
        · rw [if_pos hv]
          exact ih vis (fun e' he' => hadj e' (List.mem_cons_of_mem e he')) hfuel
        · rw [if_neg hv]
          have hdfs := hA e.To vis (hadj e (List.mem_cons_self e rest)) hv hfuel
          cases hd : g.dfs (n + 1) e.To vis with
          | none => rw [hd] at hdfs; cases hdfs
          | some vis1 =>
            obtain ⟨h1sub, h1mem, _⟩ := (dfs_sound g (n + 1)).1 e.To vis vis1 hd
            apply ih vis1 (fun e' he' => hadj e' (List.mem_cons_of_mem e he'))
            have hsub : S \ vis1 ⊆ S \ insert e.To vis := by
              apply Finset.sdiff_subset_sdiff subset_rfl
              intro z hz
              rcases Finset.mem_insert.1 hz with hz' | hz'
              · rw [hz']
                exact h1mem
              · exact h1sub hz'
            have := Finset.card_le_card hsub
            rw [hcard_insert e.To vis (hadj e (List.mem_cons_self e rest)) hv] at this
            omega
    exact ⟨hM, hA_of_M (n + 1) hM⟩

/-! ## Termination and outcome of the connectivity check -/

theorem mem_targets {α : Type u} {g : Graph α} {id : Int} {e : Edge α}
    (hid : id ∈ g.Vertices.dom) (he : e ∈ (g.Vertices.fn id).Edges) :
    e.To ∈ g.targets :=
  Finset.mem_biUnion.2 ⟨id, hid, List.mem_toFinset.2 (List.mem_map_of_mem Edge.To he)⟩

theorem targets_card_le {α : Type u} (g : Graph α) :
    g.targets.card ≤ g.sumAdj := by
  unfold Graph.targets Graph.sumAdj
  refine le_trans (Finset.card_biUnion_le) (Finset.sum_le_sum ?_)
  intro id _
  exact le_trans (List.toFinset_card_le _) (le_of_eq (List.length_map _ _))

/-- The DFS from any start with the source's fuel budget terminates. -/
theorem dfs_total {α : Type u} [Inhabited α] (g : Graph α) (s : Int) :
    ∃ visited, g.dfs g.dfsFuel s ∅ = some visited := by
  have hS : ∀ id ∈ g.Vertices.dom, ∀ e ∈ (g.Vertices.fn id).Edges,
      e.To ∈ insert s g.targets :=
    fun id hid e he => Finset.mem_insert_of_mem (mem_targets hid he)
  have hcard : ((insert s g.targets) \ ∅).card ≤ g.sumAdj + 1 + 1 := by
    rw [Finset.sdiff_empty]
    have h1 := Finset.card_insert_le s g.targets
    have h2 := targets_card_le g
    omega
  have hA := (dfs_adequate g (insert s g.targets) hS (g.sumAdj + 1)).2 s ∅
    (Finset.mem_insert_self s g.targets) (Finset.not_mem_empty s) hcard
  have hfuel : g.dfsFuel = g.sumAdj + 1 + 1 := rfl
  rw [← hfuel] at hA
  cases hres : g.dfs g.dfsFuel s ∅ with
  | none => rw [hres] at hA; cases hA
  | some visited => exact ⟨visited, rfl⟩

/-- On a disconnected API-shaped graph the source's connectivity check comes
back `false` from every possible start key. -/
theorem isConnectedFrom_false_of_disconnected {α : Type u} [Inhabited α]
    {g : Graph α} (hG : GInv g) {u v : Int} (hu : u ∈ g.Vertices.dom)
    (hv : v ∈ g.Vertices.dom) (hnc : ¬ g.Conn u v) :
    ∀ s ∈ g.Vertices.dom, g.IsConnectedFrom s = some false := by
  intro s hs
  obtain ⟨visited, hvis⟩ := dfs_total g s
  have hV : g.VertexCount ≠ 0 := by
    unfold Graph.VertexCount GoMap.card
    exact Finset.card_ne_zero_of_mem hs
  unfold Graph.IsConnectedFrom
  rw [if_neg hV, hvis]
  obtain ⟨-, -, hconn0⟩ := (dfs_sound g g.dfsFuel).1 s ∅ visited hvis
  have hconn : ∀ z ∈ visited, g.Conn s z := by
    intro z hz
    rcases hconn0 z hz with h0 | h
    · exact absurd h0 (Finset.not_mem_empty z)
    · exact h
  have hsub : visited ⊆ g.Vertices.dom :=
    fun z hz => conn_mem hG hs (hconn z hz)
  have hmiss : ∃ t ∈ g.Vertices.dom, t ∉ visited := by
    by_cases hcu : g.Conn s u
    · refine ⟨v, hv, fun hvin => hnc ?_⟩
      exact (conn_symm hG hcu).trans (hconn v hvin)
    · exact ⟨u, hu, fun huin => hcu (hconn u huin)⟩
  obtain ⟨t, htd, htv⟩ := hmiss
  have hlt : visited.card < g.Vertices.dom.card :=
    Finset.card_lt_card ((Finset.ssubset_iff_of_subset hsub).2 ⟨t, htd, htv⟩)
  have hne : visited.card ≠ g.VertexCount := by
    unfold Graph.VertexCount GoMap.card
    omega
  show some (decide (visited.card = g.VertexCount)) = some false
  rw [decide_eq_false hne]

/-- Connectivity cannot escape an adjacency-closed vertex set: the workhorse
for refuting concrete `Conn` facts by evaluation. -/
theorem conn_closed {α : Type u} {g : Graph α} (S : Finset Int)
    (hS : ∀ x ∈ S, ∀ e ∈ g.adjOf x, e.To ∈ S) {u v : Int}
    (hu : u ∈ S) (h : g.Conn u v) : v ∈ S := by
  induction h with
  | refl => exact hu
  | tail hconn hadj ih =>
    obtain ⟨e, he, hto⟩ := hadj
    rw [← hto]
    exact hS _ ih e he

/-! ## Union-find facts feeding the Kruskal loop -/

theorem pok_of_id_parent {p : GoMap Int} (hid : ∀ x ∈ p.dom, p.get x = x) :
    POk p := by
  have hroot0 : Rooted p 0 0 := by
    by_cases h0 : (0 : Int) ∈ p.dom
    · exact Rooted.root 0 (hid 0 h0)
    · exact Rooted.root 0 (by simp [GoMap.get, h0, default_int])
  constructor
  · intro z hz
    rw [hid z hz]
    exact Finset.mem_insert_of_mem hz
  · intro x
    by_cases hx : x ∈ p.dom
    · exact ⟨x, Rooted.root x (hid x hx)⟩
    · by_cases hx0 : x = 0
      · rw [hx0]
        exact ⟨0, hroot0⟩
      · have hget : p.get x = 0 := by simp [GoMap.get, hx, default_int]
        refine ⟨0, Rooted.step x 0 ?_ ?_⟩
        · rw [hget]
          exact fun h => hx0 h.symm
        · rw [hget]
          exact hroot0

/-- Seeding the union-find through `MakeSet` over any key list produces the
identity parent map over those keys. -/
theorem makeSet_fold_id : ∀ (l : List Int) (uf : UnionFind),
    (∀ x ∈ uf.parent.dom, uf.parent.get x = x) →
    (l.foldl UnionFind.MakeSet uf).parent.dom = uf.parent.dom ∪ l.toFinset
    ∧ ∀ x ∈ (l.foldl UnionFind.MakeSet uf).parent.dom,
        (l.foldl UnionFind.MakeSet uf).parent.get x = x := by
  intro l
  induction l with
  | nil =>
    intro uf hid
    simp only [List.foldl_nil, List.toFinset_nil, Finset.union_empty]
    exact ⟨by simp, hid⟩
  | cons y t ih =>
    intro uf hid
    simp only [List.foldl_cons, List.toFinset_cons]
    have hstep : (uf.MakeSet y).parent.dom = insert y uf.parent.dom
        ∧ ∀ x ∈ (uf.MakeSet y).parent.dom, (uf.MakeSet y).parent.get x = x := by
      by_cases hy : y ∈ uf.parent.dom
      · rw [makeSet_of_mem hy]
        exact ⟨(Finset.insert_eq_self.2 hy).symm, hid⟩
      · rw [makeSet_of_not_mem hy]
        refine ⟨rfl, ?_⟩
        intro x hx
        show (uf.parent.set y y).get x = x
        rw [GoMap.get_set]
        by_cases hxy : x = y
        · rw [if_pos hxy, hxy]
        · rw [if_neg hxy]
          apply hid
          have hx' : x ∈ insert y uf.parent.dom := hx
          rcases Finset.mem_insert.1 hx' with h | h
          · exact absurd h hxy
          · exact h
    obtain ⟨hdom1, hid1⟩ := hstep
    obtain ⟨hdom2, hid2⟩ := ih (uf.MakeSet y) hid1
    refine ⟨?_, hid2⟩
    rw [hdom2, hdom1, Finset.insert_union, Finset.union_insert]

theorem rootD_spec {p : GoMap Int} (hp : POk p) (x : Int) :
    Rooted p x (rootD p x) := by
  obtain ⟨p', r, hfind, hr⟩ := find_adequate hp x
  unfold rootD
  have hcard : p.card + 4 = p.dom.card + 4 := rfl
  rw [hcard, hfind]
  exact hr

theorem rootD_eq {p : GoMap Int} (hp : POk p) {x r : Int} (h : Rooted p x r) :
    rootD p x = r :=
  rooted_det (rootD_spec hp x) h

theorem rootD_congr {p p' : GoMap Int} (hp : POk p) (hp' : POk p')
    (hiff : ∀ z s, Rooted p' z s ↔ Rooted p z s) (x : Int) :
    rootD p' x = rootD p x :=
  rootD_eq hp' ((hiff x (rootD p x)).2 (rootD_spec hp x))

/-- Outcome of one `Union` call on a well-formed state, phrased through the
canonical root function: the call succeeds, keeps the state well formed, and
either reports `false` leaving the partition untouched, or reports `true` and
replaces one of the two argument roots by the other in every class. -/
theorem union_spec {uf : UnionFind} (a b : Int) (hp : POk uf.parent) :
    ∃ uf' s, uf.Union a b = some (uf', s) ∧ POk uf'.parent ∧
      ((s = false ∧ rootD uf.parent a = rootD uf.parent b ∧
          (∀ x, rootD uf'.parent x = rootD uf.parent x)) ∨
       (s = true ∧ rootD uf.parent a ≠ rootD uf.parent b ∧
        ∃ wn ls, ((wn = rootD uf.parent a ∧ ls = rootD uf.parent b) ∨
                  (wn = rootD uf.parent b ∧ ls = rootD uf.parent a)) ∧
          ∀ x, rootD uf'.parent x
            = if rootD uf.parent x = ls then wn else rootD uf.parent x)) := by
  obtain ⟨uf1, ra, hfa, hra, hp1, hiff1, hrank1, _⟩ := find_spec hp a
  obtain ⟨uf2, rb, hfb, hrb1, hp2, hiff2, hrank2, _⟩ := find_spec hp1 b
  have hrb : Rooted uf.parent b rb := (hiff1 _ _).1 hrb1
  have hiff20 : ∀ z s, Rooted uf2.parent z s ↔ Rooted uf.parent z s :=
    fun z s => (hiff2 z s).trans (hiff1 z s)
  have hrkeq : uf2.rank = uf.rank := by rw [hrank2, hrank1]
  have hraD : rootD uf.parent a = ra := rootD_eq hp hra
  have hrbD : rootD uf.parent b = rb := rootD_eq hp hrb
  have hra2 : Rooted uf2.parent a ra := (hiff20 _ _).2 hra
  have hrb2 : Rooted uf2.parent b rb := (hiff20 _ _).2 hrb
  have hfix_a : uf2.parent.get ra = ra := rooted_fix hra2
  have hfix_b : uf2.parent.get rb = rb := rooted_fix hrb2
  by_cases heq : ra = rb
  · refine ⟨uf2, false, ?_, hp2,
      Or.inl ⟨rfl, by rw [hraD, hrbD, heq], fun x => rootD_congr hp hp2 hiff20 x⟩⟩
    simp only [UnionFind.Union, hfa, hfb]
    rw [if_pos heq]
  · have hlink : ∀ (w l : Int), uf2.parent.get w = w → uf2.parent.get l = l →
        w ≠ l → POk (uf2.parent.set l w) ∧
        ∀ x, rootD (uf2.parent.set l w) x
          = if rootD uf.parent x = l then w else rootD uf.parent x := by
      intro w l hw hl hwl
      have hpok' : POk (uf2.parent.set l w) := pok_link hp2 hw hl hwl
      refine ⟨hpok', ?_⟩
      intro x
      have hx2 : Rooted uf2.parent x (rootD uf.parent x) :=
        (hiff20 _ _).2 (rootD_spec hp x)
      by_cases hxl : rootD uf.parent x = l
      · rw [if_pos hxl]
        apply rootD_eq hpok'
        refine (rooted_set_link hw hl hwl x w).2 (Or.inl ⟨?_, rfl⟩)
        rw [← hxl]
        exact hx2
      · rw [if_neg hxl]
        apply rootD_eq hpok'
        exact (rooted_set_link hw hl hwl x _).2 (Or.inr ⟨hx2, hxl⟩)
    have hneqD : rootD uf.parent a ≠ rootD uf.parent b := by
      rw [hraD, hrbD]
      exact heq
    rcases lt_trichotomy (uf.rank.get ra) (uf.rank.get rb) with hc | hc | hc
    · obtain ⟨hpok', hroot'⟩ := hlink rb ra hfix_b hfix_a (Ne.symm heq)
      refine ⟨⟨uf2.parent.set ra rb, uf2.rank⟩, true, ?_, hpok',
        Or.inr ⟨rfl, hneqD, rb, ra, Or.inr ⟨hrbD.symm, hraD.symm⟩, hroot'⟩⟩
      simp only [UnionFind.Union, hfa, hfb, hrkeq]
      rw [if_neg heq, if_pos hc]
    · obtain ⟨hpok', hroot'⟩ := hlink ra rb hfix_a hfix_b heq
      refine ⟨⟨uf2.parent.set rb ra, uf.rank.set ra (uf.rank.get ra + 1)⟩, true,
        ?_, hpok',
        Or.inr ⟨rfl, hneqD, ra, rb, Or.inl ⟨hraD.symm, hrbD.symm⟩, hroot'⟩⟩
      simp only [UnionFind.Union, hfa, hfb, hrkeq]
      rw [if_neg heq, if_neg (by rw [hc]; exact lt_irrefl _),
        if_neg (by rw [hc]; exact lt_irrefl _)]
    · obtain ⟨hpok', hroot'⟩ := hlink ra rb hfix_a hfix_b heq
      refine ⟨⟨uf2.parent.set rb ra, uf2.rank⟩, true, ?_, hpok',
        Or.inr ⟨rfl, hneqD, ra, rb, Or.inl ⟨hraD.symm, hrbD.symm⟩, hroot'⟩⟩
      simp only [UnionFind.Union, hfa, hfb, hrkeq]
      rw [if_neg heq, if_neg (not_lt_of_gt hc), if_pos hc]

theorem GoMap.fn_set {β : Type u} (m : GoMap β) (x : Int) (b : β) (z : Int) :
    (m.set x b).fn z = if z = x then b else m.fn z := rfl

theorem GoMap.get_eq_fn {β : Type u} [Inhabited β] {m : GoMap β} {x : Int}
    (h : x ∈ m.dom) : m.get x = m.fn x := by
  unfold GoMap.get
  rw [if_pos h]

/-- In every API-built graph each stored edge sits in the adjacency list of its
source vertex — the append `fromVertex.Edges = append(fromVertex.Edges, newEdge)`
of `AddEdge`, preserved by later insertions. -/
theorem built_edgeAdj {α : Type u} [Inhabited α] {g : Graph α} (h : Built g) :
    ∀ e ∈ g.Edges, e.From ∈ g.Vertices.dom ∧ e ∈ (g.Vertices.fn e.From).Edges := by
  induction h with
  | base =>
    intro e he
    cases he
  | addV g0 id0 name data _ ih =>
    by_cases hmem : id0 ∈ g0.Vertices.dom
    · cases hl : g0.Vertices.lookup id0 with
      | none => exact absurd hmem (GoMap.not_mem_of_lookup_none hl)
      | some v0 =>
        rw [@addVertex_eq_present α g0 (freshVertex id0 name data) v0 hl]
        exact ih
    · rw [@addVertex_eq_absent α g0 (freshVertex id0 name data) hmem]
      intro e he
      obtain ⟨hd, hmemE⟩ := ih e he
      constructor
      · show e.From ∈ insert (freshVertex id0 name data).ID g0.Vertices.dom
        exact Finset.mem_insert_of_mem hd
      · show e ∈ ((g0.Vertices.set (freshVertex id0 name data).ID
            (freshVertex id0 name data)).fn e.From).Edges
        rw [GoMap.fn_set,
          if_neg (show ¬ e.From = (freshVertex id0 name data).ID from
            fun hEq => hmem (by
              rw [show (freshVertex id0 name data).ID = id0 from rfl] at hEq
              rw [← hEq]
              exact hd))]
        exact hmemE
  | addE g0 ef et w d hef het hb ih =>
    have hG0 : GInv g0 := built_ginv hb
    rcases hEP : g0.addEndpoints ⟨ef, et, w, d⟩ with ⟨g2, fromV, toV⟩
    have hspec := addEndpoints_spec g0 ⟨ef, et, w, d⟩ hG0.idKey
    rw [hEP] at hspec
    simp only at hspec
    obtain ⟨hfid, htid, hE, -, hmF, hmT, -, hpres⟩ := hspec
    have hAE := addEdge_core g0 ⟨ef, et, w, d⟩ hEP hG0.undirected
    rw [hAE]
    intro e he
    have hmFid : fromV.ID ∈ g2.Vertices.dom := by
      rw [hfid]
      exact hmF
    have hmTid : toV.ID ∈ g2.Vertices.dom := by
      rw [htid]
      exact hmT
    rcases List.mem_append.1 he with hold | hnew
    · -- a pre-existing edge: transport through the endpoint phase, then
      -- through the two adjacency stores
      have hold0 : e ∈ g0.Edges := by
        rw [← hE]
        exact hold
      obtain ⟨hd0, hm0⟩ := ih e hold0
      have hlk0 : g0.Vertices.lookup e.From = some (g0.Vertices.fn e.From) := by
        unfold GoMap.lookup
        rw [if_pos hd0]
      have hlk2 : g2.Vertices.lookup e.From = some (g0.Vertices.fn e.From) :=
        (hpres e.From hd0).trans hlk0
      have hd2 : e.From ∈ g2.Vertices.dom := GoMap.mem_dom_of_lookup hlk2
      have hfn2 : g2.Vertices.fn e.From = g0.Vertices.fn e.From :=
        GoMap.fn_of_lookup hlk2
      constructor
      · show e.From ∈ insert toV.ID (insert fromV.ID g2.Vertices.dom)
        exact Finset.mem_insert_of_mem (Finset.mem_insert_of_mem hd2)
      · rw [GoMap.fn_set]
        by_cases hT : e.From = toV.ID
        · rw [if_pos hT, pushEdge_edges]
          apply List.mem_append_left
          rw [GoMap.get_set]
          by_cases hTF : toV.ID = fromV.ID
          · rw [if_pos hTF, pushEdge_edges]
            apply List.mem_append_left
            rw [GoMap.get_eq_fn hmFid]
            rw [show fromV.ID = e.From by rw [hT, hTF]]
            rw [hfn2]
            exact hm0
          · rw [if_neg hTF]
            rw [show toV.ID = e.From from hT.symm]
            rw [GoMap.get_eq_fn hd2, hfn2]
            exact hm0
        · rw [if_neg hT, GoMap.fn_set]
          by_cases hF : e.From = fromV.ID
          · rw [if_pos hF, pushEdge_edges]
            apply List.mem_append_left
            rw [show fromV.ID = e.From from hF.symm]
            rw [GoMap.get_eq_fn hd2, hfn2]
            exact hm0
          · rw [if_neg hF, hfn2]
            exact hm0
    · -- the freshly appended forward edge
      have heq : e = Edge.mk fromV.ID toV.ID w d := List.mem_singleton.1 hnew
      subst heq
      constructor
      · show fromV.ID ∈ insert toV.ID (insert fromV.ID g2.Vertices.dom)
        exact Finset.mem_insert_of_mem (Finset.mem_insert_self _ _)
      · show _ ∈ (((g2.Vertices.set fromV.ID _).set toV.ID _).fn fromV.ID).Edges
        rw [GoMap.fn_set]
        by_cases hFT : fromV.ID = toV.ID
        · rw [if_pos hFT, pushEdge_edges]
          apply List.mem_append_left
          rw [GoMap.get_set, if_pos hFT.symm, pushEdge_edges]
          exact List.mem_append_right _ (List.mem_singleton.2 rfl)
        · rw [if_neg hFT, GoMap.fn_set, if_pos rfl, pushEdge_edges]
          exact List.mem_append_right _ (List.mem_singleton.2 rfl)

/-- Every stored edge of an API-built graph is an adjacency step. -/
theorem built_edge_adjacent {α : Type u} [Inhabited α] {g : Graph α}
    (h : Built g) : ∀ e ∈ g.Edges, g.adjacent e.From e.To := by
  intro e he
  obtain ⟨hd, hm⟩ := built_edgeAdj h e he
  refine ⟨e, ?_, rfl⟩
  rw [adjOf_eq_fn hd]
  exact hm

theorem kruskalLoop_cons {α : Type u} (g : Graph α) (e : Edge α)
    (rest : List (Edge α)) (uf : UnionFind) (mst : List (Edge α)) (w : Int) :
    g.kruskalLoop (e :: rest) uf mst w =
      match uf.Union e.From e.To with
      | none => Res.diverge
      | some (uf', true) =>
        if ((mst ++ [e]).length : Int) = (g.VertexCount : Int) - 1 then
          Res.ok (mst ++ [e], w + e.Weight)
        else g.kruskalLoop rest uf' (mst ++ [e]) (w + e.Weight)
      | some (uf', false) => g.kruskalLoop rest uf' mst w := rfl

/-- The Kruskal edge loop on an edge list internal to a graph with two
non-connected vertices: the loop invariants (well-formed union-find; shared
root implies connectivity; accepted-edge count plus root-class count equals
the vertex count) force the `V-1` early exit to stay unreachable, so the loop
consumes all edges and returns strictly fewer than `V-1` of them. -/
theorem kruskalLoop_disconnected {α : Type u} [Inhabited α] {g : Graph α}
    (hG : GInv g) {u v : Int} (hu : u ∈ g.Vertices.dom)
    (hv : v ∈ g.Vertices.dom) (hnc : ¬ g.Conn u v) :
    ∀ (es : List (Edge α)) (uf : UnionFind) (mst : List (Edge α)) (w : Int),
    (∀ e ∈ es, e.From ∈ g.Vertices.dom ∧ e.To ∈ g.Vertices.dom ∧
        g.adjacent e.From e.To) →
    POk uf.parent →
    (∀ x ∈ g.Vertices.dom, ∀ y ∈ g.Vertices.dom,
        rootD uf.parent x = rootD uf.parent y → g.Conn x y) →
    mst.length + (g.Vertices.dom.image (rootD uf.parent)).card
        = g.Vertices.dom.card →
    ∃ mst' w', g.kruskalLoop es uf mst w = Res.ok (mst', w') ∧
      (mst'.length : Int) < (g.VertexCount : Int) - 1 := by
  intro es
  induction es with
  | nil =>
    intro uf mst w _ _ hcl hcount
    refine ⟨mst, w, rfl, ?_⟩
    have hne : rootD uf.parent u ≠ rootD uf.parent v :=
      fun heq => hnc (hcl u hu v hv heq)
    have h2 : 1 < (g.Vertices.dom.image (rootD uf.parent)).card :=
      Finset.one_lt_card.2 ⟨rootD uf.parent u, Finset.mem_image_of_mem _ hu,
        rootD uf.parent v, Finset.mem_image_of_mem _ hv, hne⟩
    have hVC : g.VertexCount = g.Vertices.dom.card := rfl
    rw [hVC]
    omega
  | cons e rest ih =>
    intro uf mst w hes hpok hcl hcount
    obtain ⟨heF, heT, headj⟩ := hes e (List.mem_cons_self e rest)
    have hes' : ∀ x ∈ rest, x.From ∈ g.Vertices.dom ∧ x.To ∈ g.Vertices.dom ∧
        g.adjacent x.From x.To :=
      fun x hx => hes x (List.mem_cons_of_mem e hx)
    obtain ⟨uf', s, hun, hpok', hcases⟩ := union_spec e.From e.To hpok
    rw [kruskalLoop_cons, hun]
    rcases hcases with ⟨hs, -, hsame⟩ | ⟨hs, hneq, wn, ls, hwl, hroot⟩
    · subst hs
      have hcl' : ∀ x ∈ g.Vertices.dom, ∀ y ∈ g.Vertices.dom,
          rootD uf'.parent x = rootD uf'.parent y → g.Conn x y := by
        intro x hx y hy heq
        rw [hsame x, hsame y] at heq
        exact hcl x hx y hy heq
      have himg : g.Vertices.dom.image (rootD uf'.parent)
          = g.Vertices.dom.image (rootD uf.parent) := by
        apply Finset.image_congr
        intro x _
        exact hsame x
      have hcount' : mst.length + (g.Vertices.dom.image (rootD uf'.parent)).card
          = g.Vertices.dom.card := by
        rw [himg]
        exact hcount
      exact ih uf' mst w hes' hpok' hcl' hcount'
    · subst hs
      have hwn_ne : wn ≠ ls := by
        rcases hwl with ⟨hwa, hlb⟩ | ⟨hwb, hla⟩
        · rw [hwa, hlb]
          exact hneq
        · rw [hwb, hla]
          exact fun hEq => hneq hEq.symm
      have hconnE : g.Conn e.From e.To := conn_adjacent headj
      have hwn_img : wn ∈ g.Vertices.dom.image (rootD uf.parent) := by
        rcases hwl with ⟨hwa, -⟩ | ⟨hwb, -⟩
        · rw [hwa]
          exact Finset.mem_image_of_mem _ heF
        · rw [hwb]
          exact Finset.mem_image_of_mem _ heT
      have hls_img : ls ∈ g.Vertices.dom.image (rootD uf.parent) := by
        rcases hwl with ⟨-, hlb⟩ | ⟨-, hla⟩
        · rw [hlb]
          exact Finset.mem_image_of_mem _ heT
        · rw [hla]
          exact Finset.mem_image_of_mem _ heF
      have himg : g.Vertices.dom.image (rootD uf'.parent)
          = (g.Vertices.dom.image (rootD uf.parent)).erase ls := by
        ext r
        simp only [Finset.mem_image, Finset.mem_erase]
        constructor
        · rintro ⟨x, hx, hr⟩
          rw [hroot x] at hr
          by_cases hxl : rootD uf.parent x = ls
          · rw [if_pos hxl] at hr
            rw [← hr]
            refine ⟨hwn_ne, ?_⟩
            rcases hwl with ⟨hwa, -⟩ | ⟨hwb, -⟩
            · exact ⟨e.From, heF, hwa.symm⟩
            · exact ⟨e.To, heT, hwb.symm⟩
          · rw [if_neg hxl] at hr
            rw [← hr]
            exact ⟨hxl, x, hx, rfl⟩
        · rintro ⟨hrl, x, hx, hr⟩
          refine ⟨x, hx, ?_⟩
          rw [hroot x, hr, if_neg hrl]
      have hcl' : ∀ x ∈ g.Vertices.dom, ∀ y ∈ g.Vertices.dom,
          rootD uf'.parent x = rootD uf'.parent y → g.Conn x y := by
        intro x hx y hy heq
        rw [hroot x, hroot y] at heq
        have hstepFT : ∀ z ∈ g.Vertices.dom, ∀ t ∈ g.Vertices.dom,
            rootD uf.parent z = ls → rootD uf.parent t = wn → g.Conn z t := by
          intro z hz t ht hzl htw
          rcases hwl with ⟨hwa, hlb⟩ | ⟨hwb, hla⟩
          · -- winner is From's root, loser is To's root
            have hzT : g.Conn z e.To := hcl z hz e.To heT (by rw [hzl, hlb])
            have htF : g.Conn t e.From := hcl t ht e.From heF (by rw [htw, hwa])
            exact (hzT.trans (conn_symm hG hconnE)).trans (conn_symm hG htF)
          · -- winner is To's root, loser is From's root
            have hzF : g.Conn z e.From := hcl z hz e.From heF (by rw [hzl, hla])
            have htT : g.Conn t e.To := hcl t ht e.To heT (by rw [htw, hwb])
            exact (hzF.trans hconnE).trans (conn_symm hG htT)
        by_cases hxl : rootD uf.parent x = ls <;>
          by_cases hyl : rootD uf.parent y = ls
        · exact hcl x hx y hy (hxl.trans hyl.symm)
        · rw [if_pos hxl, if_neg hyl] at heq
          exact hstepFT x hx y hy hxl heq.symm
        · rw [if_neg hxl, if_pos hyl] at heq
          exact conn_symm hG (hstepFT y hy x hx hyl heq)
        · rw [if_neg hxl, if_neg hyl] at heq
          exact hcl x hx y hy heq
      have hcard_pos : 0 < (g.Vertices.dom.image (rootD uf.parent)).card :=
        Finset.card_pos.2 ⟨ls, hls_img⟩
      have hcount' : (mst ++ [e]).length
          + (g.Vertices.dom.image (rootD uf'.parent)).card
          = g.Vertices.dom.card := by
        rw [himg, Finset.card_erase_of_mem hls_img, List.length_append,
          List.length_singleton]
        omega
      have hne2 : rootD uf'.parent u ≠ rootD uf'.parent v :=
        fun heq => hnc (hcl' u hu v hv heq)
      have h2' : 1 < (g.Vertices.dom.image (rootD uf'.parent)).card :=
        Finset.one_lt_card.2 ⟨rootD uf'.parent u, Finset.mem_image_of_mem _ hu,
          rootD uf'.parent v, Finset.mem_image_of_mem _ hv, hne2⟩
      have hnoexit : ¬ (((mst ++ [e]).length : Int) = (g.VertexCount : Int) - 1) := by
        have hVC : g.VertexCount = g.Vertices.dom.card := rfl
        rw [hVC]
        omega
      show ∃ mst' w',
        (if ((mst ++ [e]).length : Int) = (g.VertexCount : Int) - 1 then
            Res.ok (mst ++ [e], w + e.Weight)
          else g.kruskalLoop rest uf' (mst ++ [e]) (w + e.Weight))
          = Res.ok (mst', w')
        ∧ (mst'.length : Int) < (g.VertexCount : Int) - 1
      rw [if_neg hnoexit]
      exact ih uf' (mst ++ [e]) (w + e.Weight) hes' hpok' hcl' hcount'

/-- Kruskal on a graph with two non-connected vertices succeeds normally and
returns strictly fewer than `V-1` edges, for every map enumeration order
covering the keys and every permutation of the copied edge slice. -/
theorem kruskal_fewer_edges {α : Type u} [Inhabited α] {g : Graph α}
    (hB : Built g) {u v : Int} (hu : u ∈ g.Vertices.dom)
    (hv : v ∈ g.Vertices.dom) (hnc : ¬ g.Conn u v)
    (enum : List Int) (es : List (Edge α))
    (henum : enum.toFinset = g.Vertices.dom) (hperm : es.Perm g.Edges) :
    ∃ mst w, g.KruskalWith enum es = Res.ok (mst, w) ∧
      (mst.length : Int) < (g.VertexCount : Int) - 1 := by
  have hG := built_ginv hB
  have hDir : ¬ (g.Directed = true) := by
    rw [hG.undirected]
    exact Bool.false_ne_true
  unfold Graph.KruskalWith
  rw [if_neg hDir]
  have hempty : ∀ x ∈ (NewUnionFind.parent).dom, NewUnionFind.parent.get x = x :=
    fun x hx => absurd hx (Finset.not_mem_empty x)
  obtain ⟨hdom0, hid0⟩ := makeSet_fold_id enum NewUnionFind hempty
  have hdom : (enum.foldl UnionFind.MakeSet NewUnionFind).parent.dom
      = g.Vertices.dom := by
    rw [hdom0, ← henum]
    exact Finset.empty_union _
  have hpok0 : POk (enum.foldl UnionFind.MakeSet NewUnionFind).parent :=
    pok_of_id_parent hid0
  have hroot0 : ∀ x ∈ g.Vertices.dom,
      rootD (enum.foldl UnionFind.MakeSet NewUnionFind).parent x = x := by
    intro x hx
    apply rootD_eq hpok0
    apply Rooted.root
    apply hid0
    rw [hdom]
    exact hx
  have hcl0 : ∀ x ∈ g.Vertices.dom, ∀ y ∈ g.Vertices.dom,
      rootD (enum.foldl UnionFind.MakeSet NewUnionFind).parent x
        = rootD (enum.foldl UnionFind.MakeSet NewUnionFind).parent y →
      g.Conn x y := by
    intro x hx y hy heq
    rw [hroot0 x hx, hroot0 y hy] at heq
    rw [heq]
    exact Relation.ReflTransGen.refl
  have himg0 : g.Vertices.dom.image
      (rootD (enum.foldl UnionFind.MakeSet NewUnionFind).parent)
      = g.Vertices.dom := by
    ext r
    simp only [Finset.mem_image]
    constructor
    · rintro ⟨x, hx, hr⟩
      rw [hroot0 x hx] at hr
      rw [← hr]
      exact hx
    · intro hr
      exact ⟨r, hr, hroot0 r hr⟩
  have hcount0 : (([] : List (Edge α)).length) + (g.Vertices.dom.image
      (rootD (enum.foldl UnionFind.MakeSet NewUnionFind).parent)).card
      = g.Vertices.dom.card := by
    rw [himg0, List.length_nil]
    omega
  have hes : ∀ e ∈ es, e.From ∈ g.Vertices.dom ∧ e.To ∈ g.Vertices.dom ∧
      g.adjacent e.From e.To := by
    intro e he
    have heg : e ∈ g.Edges := hperm.mem_iff.1 he
    exact ⟨hG.edgeFromDom e heg, hG.edgeToDom e heg, built_edge_adjacent hB e heg⟩
  exact kruskalLoop_disconnected hG hu hv hnc es
    (enum.foldl UnionFind.MakeSet NewUnionFind) [] 0 hes hpok0 hcl0 hcount0

/-! ## Heap permutation lemmas: the `container/heap` operations move elements
around but never create or drop them. -/

theorem set_cons_perm {α : Type u} :
    ∀ (l : List (Edge α)) (i : Nat) (a b : Edge α),
    l.get? i = some a → (a :: l.set i b).Perm (b :: l) := by
  intro l
  induction l with
  | nil =>
    intro i a b h
    cases h
  | cons x t ihl =>
    intro i a b h
    cases i with
    | zero =>
      have hax : a = x := (Option.some_inj.1 h).symm
      subst hax
      exact List.Perm.swap b a t
    | succ k =>
      have h' : t.get? k = some a := h
      show (a :: x :: t.set k b).Perm (b :: x :: t)
      have s1 : (a :: x :: t.set k b).Perm (x :: a :: t.set k b) :=
        List.Perm.swap x a _
      have s2 : (x :: a :: t.set k b).Perm (x :: b :: t) := (ihl k a b h').cons x
      have s3 : (x :: b :: t).Perm (b :: x :: t) := List.Perm.swap b x t
      exact (s1.trans s2).trans s3

theorem swapAt_perm {α : Type u} (l : List (Edge α)) (i j : Nat) :
    (swapAt l i j).Perm l := by
  unfold swapAt
  cases hi : l.get? i with
  | none => exact List.Perm.refl l
  | some a =>
    cases hj : l.get? j with
    | none => exact List.Perm.refl l
    | some b =>
      by_cases hij : i = j
      · subst hij
        have hab : a = b := by
          rw [hi] at hj
          exact Option.some_inj.1 hj
        subst hab
        show ((l.set i a).set i a).Perm l
        rw [List.set_set]
        exact (set_cons_perm l i a a hi).cons_inv
      · have hj' : (l.set i b).get? j = some b := by
          rw [List.get?_set_ne _ _ hij]
          exact hj
        have h1 := set_cons_perm (l.set i b) j b a hj'
        have h2 := set_cons_perm l i a b hi
        exact (h1.trans h2).cons_inv

theorem downAux_perm {α : Type u} :
    ∀ (fuel : Nat) (l : List (Edge α)) (i n : Nat), (downAux fuel l i n).Perm l := by
  intro fuel
  induction fuel with
  | zero =>
    intro l i n
    exact List.Perm.refl l
  | succ k ih =>
    intro l i n
    simp only [downAux]
    split
    · exact List.Perm.refl l
    · split <;> split <;>
        first
          | exact List.Perm.refl l
          | exact (ih _ _ _).trans (swapAt_perm l i _)

theorem upAux_perm {α : Type u} :
    ∀ (fuel : Nat) (l : List (Edge α)) (j : Nat), (upAux fuel l j).Perm l := by
  intro fuel
  induction fuel with
  | zero =>
    intro l j
    exact List.Perm.refl l
  | succ k ih =>
    intro l j
    simp only [upAux]
    split
    · exact List.Perm.refl l
    · split
      · exact List.Perm.refl l
      · exact (ih _ _).trans (swapAt_perm l _ j)

theorem heapPush_perm {α : Type u} (l : List (Edge α)) (e : Edge α) :
    (heapPush l e).Perm (e :: l) := by
  unfold heapPush heapUp
  exact (upAux_perm _ _ _).trans (List.perm_append_singleton e l)

theorem heapPop_spec {α : Type u} (l : List (Edge α)) (h : 0 < l.length) :
    ∃ e l', heapPop l = some (e, l') ∧ (e :: l').Perm l
      ∧ l'.length + 1 = l.length := by
  have hperm2 : (heapDown (swapAt l 0 (l.length - 1)) 0 (l.length - 1)).Perm l := by
    unfold heapDown
    exact (downAux_perm _ _ _ _).trans (swapAt_perm l 0 (l.length - 1))
  have hlen2 := hperm2.length_eq
  have hne2 : heapDown (swapAt l 0 (l.length - 1)) 0 (l.length - 1) ≠ [] := by
    intro h0
    rw [h0] at hlen2
    simp only [List.length_nil] at hlen2
    omega
  have hempty : l.isEmpty = false := by
    cases l with
    | nil => exact absurd h (lt_irrefl 0)
    | cons x t => rfl
  simp only [heapPop, hempty, Bool.false_eq_true, if_false]
  rw [List.getLast?_eq_getLast _ hne2]
  refine ⟨_, _, rfl, ?_, ?_⟩
  · have hsplit := List.dropLast_append_getLast hne2
    have hstep : ((heapDown (swapAt l 0 (l.length - 1)) 0 (l.length - 1)).getLast hne2
          :: (heapDown (swapAt l 0 (l.length - 1)) 0 (l.length - 1)).dropLast).Perm
        ((heapDown (swapAt l 0 (l.length - 1)) 0 (l.length - 1)).dropLast
          ++ [(heapDown (swapAt l 0 (l.length - 1)) 0 (l.length - 1)).getLast hne2]) :=
      (List.perm_append_singleton _ _).symm
    rw [hsplit] at hstep
    exact hstep.trans hperm2
  · have := List.length_dropLast (heapDown (swapAt l 0 (l.length - 1)) 0 (l.length - 1))
    omega

/-- Bound on any fold that either keeps the accumulator or pushes the current
element (both push loops of Prim have this shape). -/
theorem foldl_push_bound {α : Type u} (f : List (Edge α) → Edge α → List (Edge α))
    (hf : ∀ acc e, (∀ x ∈ f acc e, x = e ∨ x ∈ acc)
      ∧ (f acc e).length ≤ acc.length + 1) :
    ∀ (l acc : List (Edge α)),
      (∀ x ∈ l.foldl f acc, x ∈ acc ∨ x ∈ l)
      ∧ (l.foldl f acc).length ≤ acc.length + l.length := by
  intro l
  induction l with
  | nil =>
    intro acc
    exact ⟨fun x hx => Or.inl hx, by simp⟩
  | cons e t ih =>
    intro acc
    simp only [List.foldl_cons]
    obtain ⟨hmem, hlen⟩ := ih (f acc e)
    constructor
    · intro x hx
      rcases hmem x hx with hx' | hx'
      · rcases (hf acc e).1 x hx' with h | h
        · refine Or.inr ?_
          rw [h]
          exact List.mem_cons_self e t
        · exact Or.inl h
      · exact Or.inr (List.mem_cons_of_mem e hx')
    · have := (hf acc e).2
      simp only [List.length_cons]
      omega

theorem primLoop_succ {α : Type u} [Inhabited α] (g : Graph α) (fuel : Nat)
    (pq : List (Edge α)) (visited : Finset Int) (mst : List (Edge α)) (w : Int) :
    g.primLoop (fuel + 1) pq visited mst w =
      if 0 < pq.length ∧ (mst.length : Int) < (g.VertexCount : Int) - 1 then
        match heapPop pq with
        | none => none
        | some (edge, pq') =>
          if edge.To ∈ visited then g.primLoop fuel pq' visited mst w
          else
            g.primLoop fuel
              ((g.adjOf edge.To).foldl
                (fun acc nextEdge =>
                  if nextEdge.To ∈ insert edge.To visited then acc
                  else heapPush acc nextEdge) pq')
              (insert edge.To visited) (mst ++ [edge]) (w + edge.Weight)
      else some (mst, w) := rfl

/-- The Prim loop terminates within its fuel and only ever accepts edges
whose endpoints are connected to the start: every queue element's source is
connected to the start and is adjacent to its target, and both invariants
survive each iteration. -/
theorem primLoop_spec {α : Type u} [Inhabited α] {g : Graph α} (hG : GInv g)
    (s : Int) :
    ∀ (fuel : Nat) (pq : List (Edge α)) (visited : Finset Int)
      (mst : List (Edge α)) (w : Int),
    (∀ e ∈ pq, g.Conn s e.From ∧ g.adjacent e.From e.To) →
    (∀ e ∈ mst, g.Conn s e.From ∧ g.Conn s e.To) →
    pq.length + (g.Vertices.dom \ visited).sum
        (fun id => (g.Vertices.fn id).Edges.length) < fuel →
    ∃ mst' w', g.primLoop fuel pq visited mst w = some (mst', w') ∧
      ∀ e ∈ mst', g.Conn s e.From ∧ g.Conn s e.To := by
  intro fuel
  induction fuel with
  | zero =>
    intro pq visited mst w _ _ hfuel
    exact absurd hfuel (Nat.not_lt_zero _)
  | succ n ih =>
    intro pq visited mst w hpq hmst hfuel
    rw [primLoop_succ]
    by_cases hguard : 0 < pq.length ∧ (mst.length : Int) < (g.VertexCount : Int) - 1
    · rw [if_pos hguard]
      obtain ⟨e, pq', hpop, hperm, hlen⟩ := heapPop_spec pq hguard.1
      rw [hpop]
      obtain ⟨heC, headj⟩ := hpq e (hperm.subset (List.mem_cons_self e pq'))
      have hpq' : ∀ x ∈ pq', g.Conn s x.From ∧ g.adjacent x.From x.To :=
        fun x hx => hpq x (hperm.subset (List.mem_cons_of_mem e hx))
      show ∃ mst' w',
        (if e.To ∈ visited then g.primLoop n pq' visited mst w
          else
            g.primLoop n
              ((g.adjOf e.To).foldl
                (fun acc nextEdge =>
                  if nextEdge.To ∈ insert e.To visited then acc
                  else heapPush acc nextEdge) pq')
              (insert e.To visited) (mst ++ [e]) (w + e.Weight))
          = some (mst', w')
        ∧ ∀ x ∈ mst', g.Conn s x.From ∧ g.Conn s x.To
      by_cases hvis : e.To ∈ visited
      · rw [if_pos hvis]
        apply ih pq' visited mst w hpq' hmst
        omega
      · rw [if_neg hvis]
        have heTo : g.Conn s e.To := heC.trans (conn_adjacent headj)
        have hmst' : ∀ x ∈ mst ++ [e], g.Conn s x.From ∧ g.Conn s x.To := by
          intro x hx
          rcases List.mem_append.1 hx with h | h
          · exact hmst x h
          · rw [List.mem_singleton.1 h]
            exact ⟨heC, heTo⟩
        have heTd : e.To ∈ g.Vertices.dom := adjacent_mem_right hG headj
        have hf : ∀ (acc : List (Edge α)) (x : Edge α),
            (∀ y ∈ (if x.To ∈ insert e.To visited then acc else heapPush acc x),
              y = x ∨ y ∈ acc)
            ∧ (if x.To ∈ insert e.To visited then acc else heapPush acc x).length
                ≤ acc.length + 1 := by
          intro acc x
          by_cases hc : x.To ∈ insert e.To visited
          · rw [if_pos hc]
            exact ⟨fun y hy => Or.inr hy, Nat.le_succ _⟩
          · rw [if_neg hc]
            constructor
            · intro y hy
              rcases List.mem_cons.1 ((heapPush_perm acc x).subset hy) with h | h
              · exact Or.inl h
              · exact Or.inr h
            · rw [(heapPush_perm acc x).length_eq]
              exact le_of_eq (List.length_cons x acc)
        obtain ⟨hmemF, hlenF⟩ := foldl_push_bound
          (fun acc nextEdge =>
            if nextEdge.To ∈ insert e.To visited then acc
            else heapPush acc nextEdge) hf (g.adjOf e.To) pq'
        have hpq'' : ∀ x ∈ (g.adjOf e.To).foldl
            (fun acc nextEdge =>
              if nextEdge.To ∈ insert e.To visited then acc
              else heapPush acc nextEdge) pq',
            g.Conn s x.From ∧ g.adjacent x.From x.To := by
          intro x hx
          rcases hmemF x hx with h | h
          · exact hpq' x h
          · obtain ⟨hd, hm⟩ := adjOf_mem_dest h
            have hxF : x.From = e.To := hG.adjFrom e.To hd x hm
            constructor
            · rw [hxF]
              exact heTo
            · refine ⟨x, ?_, rfl⟩
              rw [hxF, adjOf_eq_fn hd]
              exact hm
        have hsum : (g.Vertices.dom \ insert e.To visited).sum
              (fun id => (g.Vertices.fn id).Edges.length)
            + (g.Vertices.fn e.To).Edges.length
            = (g.Vertices.dom \ visited).sum
              (fun id => (g.Vertices.fn id).Edges.length) := by
          rw [Finset.sdiff_insert]
          exact Finset.sum_erase_add _ _ (Finset.mem_sdiff.2 ⟨heTd, hvis⟩)
        have hadjlen : (g.adjOf e.To).length = (g.Vertices.fn e.To).Edges.length := by
          rw [adjOf_eq_fn heTd]
        apply ih _ _ _ _ hpq'' hmst'
        omega
    · rw [if_neg hguard]
      exact ⟨mst, w, rfl, hmst⟩

/-- On an API-shaped graph, Prim from any stored start succeeds and accepts
only edges whose endpoints are connected to the start. -/
theorem prim_sound {α : Type u} [Inhabited α] {g : Graph α} (hG : GInv g)
    {s : Int} (hs : s ∈ g.Vertices.dom) :
    ∃ mst w, g.Prim s = Res.ok (mst, w) ∧
      ∀ e ∈ mst, g.Conn s e.From ∧ g.Conn s e.To := by
  have hDir : ¬ (g.Directed = true) := by
    rw [hG.undirected]
    exact Bool.false_ne_true
  have hlk : g.Vertices.lookup s = some (g.Vertices.fn s) := by
    unfold GoMap.lookup
    rw [if_pos hs]
  have hID : (g.Vertices.fn s).ID = s := hG.idKey s hs
  have hf : ∀ (acc : List (Edge α)) (x : Edge α),
      (∀ y ∈ heapPush acc x, y = x ∨ y ∈ acc)
      ∧ (heapPush acc x).length ≤ acc.length + 1 := by
    intro acc x
    constructor
    · intro y hy
      rcases List.mem_cons.1 ((heapPush_perm acc x).subset hy) with h | h
      · exact Or.inl h
      · exact Or.inr h
    · rw [(heapPush_perm acc x).length_eq]
      exact le_of_eq (List.length_cons x acc)
  obtain ⟨hmemF, hlenF⟩ := foldl_push_bound
    (fun acc e => heapPush acc e) hf (g.Vertices.fn s).Edges (heapInit [])
  have hpq1 : ∀ x ∈ (g.Vertices.fn s).Edges.foldl
      (fun acc e => heapPush acc e) (heapInit []),
      g.Conn s x.From ∧ g.adjacent x.From x.To := by
    intro x hx
    rcases hmemF x hx with h | h
    · rw [show heapInit ([] : List (Edge α)) = [] by simp [heapInit]] at h
      exact absurd h (List.not_mem_nil x)
    · have hxF : x.From = s := hG.adjFrom s hs x h
      constructor
      · rw [hxF]
        exact Relation.ReflTransGen.refl
      · refine ⟨x, ?_, rfl⟩
        rw [hxF, adjOf_eq_fn hs]
        exact h
  have hsum : (g.Vertices.dom \ {s}).sum
        (fun id => (g.Vertices.fn id).Edges.length)
      + (g.Vertices.fn s).Edges.length = g.sumAdj := by
    unfold Graph.sumAdj
    rw [Finset.sdiff_singleton_eq_erase]
    exact Finset.sum_erase_add _ _ hs
  have hlen0 : (heapInit ([] : List (Edge α))).length = 0 := by
    rw [show heapInit ([] : List (Edge α)) = [] by simp [heapInit]]
    rfl
  have hfuel : ((g.Vertices.fn s).Edges.foldl
        (fun acc e => heapPush acc e) (heapInit [])).length
      + (g.Vertices.dom \ {s}).sum (fun id => (g.Vertices.fn id).Edges.length)
      < g.primFuel := by
    have hPF : g.primFuel = 2 * g.sumAdj + 2 := rfl
    omega
  obtain ⟨mst, w, hloop, hconn⟩ := primLoop_spec hG s g.primFuel
    ((g.Vertices.fn s).Edges.foldl (fun acc e => heapPush acc e) (heapInit []))
    {s} [] 0 hpq1 (fun e he => absurd he (List.not_mem_nil e)) hfuel
  refine ⟨mst, w, ?_, hconn⟩
  have hIDset : ({(g.Vertices.fn s).ID} : Finset Int) = {s} := by
    rw [hID]
  simp only [Graph.Prim, hlk, hG.undirected, Bool.false_eq_true, if_false,
    hIDset]
  rw [hloop]

/-- C5: on every disconnected API-built undirected graph — disconnection
witnessed by two stored vertices `u`, `v` with no connecting path — the
source behaves as claimed: `IsConnected` comes back `false` from every
possible map-iteration start key; Kruskal, under every map enumeration order
covering the keys and every weight-sorted (indeed arbitrary) permutation of
the copied edge slice, returns a normal `ok` result holding strictly fewer
than `V-1` edges rather than an error; and Prim from every stored start
returns a normal result all of whose edges have both endpoints inside the
start vertex's connected component. -/
theorem disconnected_graph_behavior {α : Type u} [Inhabited α] {g : Graph α}
    (hB : Built g) {u v : Int} (hu : u ∈ g.Vertices.dom)
    (hv : v ∈ g.Vertices.dom) (hnc : ¬ g.Conn u v) :
    (∀ s ∈ g.Vertices.dom, g.IsConnectedFrom s = some false)
    ∧ (∀ (enum : List Int) (es : List (Edge α)),
        enum.toFinset = g.Vertices.dom → es.Perm g.Edges →
        ∃ mst w, g.KruskalWith enum es = Res.ok (mst, w) ∧
          (mst.length : Int) < (g.VertexCount : Int) - 1)
    ∧ (∀ s ∈ g.Vertices.dom, ∃ mst w, g.Prim s = Res.ok (mst, w) ∧
        ∀ e ∈ mst, g.Conn s e.From ∧ g.Conn s e.To) := by
  have hG := built_ginv hB
  refine ⟨isConnectedFrom_false_of_disconnected hG hu hv hnc, ?_, ?_⟩
  · intro enum es henum hperm
    exact kruskal_fewer_edges hB hu hv hnc enum es henum hperm
  · intro s hs
    exact prim_sound hG hs

/-- C5 (witness): the concrete two-component graph `gDisc` (edges 1-2 and
3-4), with vertices 1 and 3 in different components. -/
theorem disconnected_graph_behavior_witness :
    ((1 : Int) ∈ gDisc.Vertices.dom ∧ (3 : Int) ∈ gDisc.Vertices.dom
      ∧ ¬ gDisc.Conn 1 3)
    ∧ ((∀ s ∈ gDisc.Vertices.dom, gDisc.IsConnectedFrom s = some false)
      ∧ (∀ (enum : List Int) (es : List (Edge Int)),
          enum.toFinset = gDisc.Vertices.dom → es.Perm gDisc.Edges →
          ∃ mst w, gDisc.KruskalWith enum es = Res.ok (mst, w) ∧
            (mst.length : Int) < (gDisc.VertexCount : Int) - 1)
      ∧ (∀ s ∈ gDisc.Vertices.dom, ∃ mst w, gDisc.Prim s = Res.ok (mst, w) ∧
          ∀ e ∈ mst, gDisc.Conn s e.From ∧ gDisc.Conn s e.To)) :=
  have hB : Built gDisc := by
    show Built (((NewGraph false : Graph Int).AddEdge (wE 1 2 1)).1.AddEdge
      (wE 3 4 1)).1
    exact Built.addE ((NewGraph false : Graph Int).AddEdge (wE 1 2 1)).1
      (wV 3 "") (wV 4 "") 1 0 rfl rfl
      (Built.addE (NewGraph false : Graph Int) (wV 1 "") (wV 2 "") 1 0 rfl rfl
        Built.base)
  have hnc : ¬ gDisc.Conn 1 3 := fun h =>
    absurd (conn_closed {1, 2} (by decide) (by decide) h) (by decide)
  ⟨⟨by decide, by decide, hnc⟩,
    disconnected_graph_behavior hB (by decide) (by decide) hnc⟩

/-! ## Exact edge counts on connected graphs -/

/-- On a connected graph the Kruskal loop ends with exactly `V-1` accepted
edges: the extra invariant is that every graph edge is either still pending
or already has merged endpoints, so edge exhaustion forces a single root
class. -/
theorem kruskalLoop_connected {α : Type u} [Inhabited α] {g : Graph α}
    (hG : GInv g) {u0 : Int} (hu0 : u0 ∈ g.Vertices.dom)
    (hconn : ∀ x ∈ g.Vertices.dom, ∀ y ∈ g.Vertices.dom, g.Conn x y) :
    ∀ (es : List (Edge α)) (uf : UnionFind) (mst : List (Edge α)) (w : Int),
    (∀ e ∈ es, e.From ∈ g.Vertices.dom ∧ e.To ∈ g.Vertices.dom) →
    POk uf.parent →
    (∀ e ∈ g.Edges, e ∈ es ∨ rootD uf.parent e.From = rootD uf.parent e.To) →
    mst.length + (g.Vertices.dom.image (rootD uf.parent)).card
        = g.Vertices.dom.card →
    ∃ mst' w', g.kruskalLoop es uf mst w = Res.ok (mst', w') ∧
      (mst'.length : Int) = (g.VertexCount : Int) - 1 := by
  intro es
  induction es with
  | nil =>
    intro uf mst w _ hpok hproc hcount
    refine ⟨mst, w, rfl, ?_⟩
    have hadjroot : ∀ x y : Int, g.adjacent x y →
        rootD uf.parent x = rootD uf.parent y := by
      intro x y hadj
      obtain ⟨e, he, hto⟩ := hadj
      obtain ⟨hxd, hm⟩ := adjOf_mem_dest he
      have hxF : e.From = x := hG.adjFrom x hxd e hm
      rcases hG.adjEdge x hxd e hm with hE | ⟨e0, he0, hrev⟩
      · rcases hproc e hE with h | h
        · cases h
        · rw [← hxF, ← hto]
          exact h
      · rcases hproc e0 he0 with h | h
        · cases h
        · have hF : e.From = e0.To := by rw [hrev]; rfl
          have hT : e.To = e0.From := by rw [hrev]; rfl
          rw [← hxF, ← hto, hF, hT]
          exact h.symm
    have hconnroot : ∀ x y : Int, g.Conn x y →
        rootD uf.parent x = rootD uf.parent y := by
      intro x y hxy
      induction hxy with
      | refl => rfl
      | tail _ hadj ih => exact ih.trans (hadjroot _ _ hadj)
    have himg : g.Vertices.dom.image (rootD uf.parent)
        = {rootD uf.parent u0} := by
      ext r
      simp only [Finset.mem_image, Finset.mem_singleton]
      constructor
      · rintro ⟨x, hx, hr⟩
        rw [← hr]
        exact (hconnroot u0 x (hconn u0 hu0 x hx)).symm
      · intro hr
        exact ⟨u0, hu0, hr.symm⟩
    rw [himg, Finset.card_singleton] at hcount
    have hVC : g.VertexCount = g.Vertices.dom.card := rfl
    rw [hVC]
    omega
  | cons e rest ih =>
    intro uf mst w hes hpok hproc hcount
    obtain ⟨heF, heT⟩ := hes e (List.mem_cons_self e rest)
    have hes' : ∀ x ∈ rest, x.From ∈ g.Vertices.dom ∧ x.To ∈ g.Vertices.dom :=
      fun x hx => hes x (List.mem_cons_of_mem e hx)
    obtain ⟨uf', s, hun, hpok', hcases⟩ := union_spec e.From e.To hpok
    rw [kruskalLoop_cons, hun]
    rcases hcases with ⟨hs, heqR, hsame⟩ | ⟨hs, hneq, wn, ls, hwl, hroot⟩
    · subst hs
      have hproc' : ∀ x ∈ g.Edges, x ∈ rest
          ∨ rootD uf'.parent x.From = rootD uf'.parent x.To := by
        intro x hx
        rcases hproc x hx with h | h
        · rcases List.mem_cons.1 h with hxe | hxr
          · refine Or.inr ?_
            rw [hxe, hsame, hsame]
            exact heqR
          · exact Or.inl hxr
        · refine Or.inr ?_
          rw [hsame, hsame]
          exact h
      have hcount' : mst.length
          + (g.Vertices.dom.image (rootD uf'.parent)).card
          = g.Vertices.dom.card := by
        have himg : g.Vertices.dom.image (rootD uf'.parent)
            = g.Vertices.dom.image (rootD uf.parent) :=
          Finset.image_congr (fun x _ => hsame x)
        rw [himg]
        exact hcount
      exact ih uf' mst w hes' hpok' hproc' hcount'
    · subst hs
      have hmerged : rootD uf'.parent e.From = rootD uf'.parent e.To := by
        rw [hroot e.From, hroot e.To]
        rcases hwl with ⟨hwa, hlb⟩ | ⟨hwb, hla⟩
        · have hcF : ¬ (rootD uf.parent e.From = ls) := by
            rw [hlb]
            exact hneq
          rw [if_neg hcF, if_pos hlb.symm, hwa]
        · have hcT : ¬ (rootD uf.parent e.To = ls) := by
            rw [hla]
            exact fun hEq => hneq hEq.symm
          rw [if_pos hla.symm, if_neg hcT, hwb]
      have hproc' : ∀ x ∈ g.Edges, x ∈ rest
          ∨ rootD uf'.parent x.From = rootD uf'.parent x.To := by
        intro x hx
        rcases hproc x hx with h | h
        · rcases List.mem_cons.1 h with hxe | hxr
          · refine Or.inr ?_
            rw [hxe]
            exact hmerged
          · exact Or.inl hxr
        · refine Or.inr ?_
          rw [hroot x.From, hroot x.To, h]
      have hls_img : ls ∈ g.Vertices.dom.image (rootD uf.parent) := by
        rcases hwl with ⟨-, hlb⟩ | ⟨-, hla⟩
        · rw [hlb]
          exact Finset.mem_image_of_mem _ heT
        · rw [hla]
          exact Finset.mem_image_of_mem _ heF
      have hwn_ne : wn ≠ ls := by
        rcases hwl with ⟨hwa, hlb⟩ | ⟨hwb, hla⟩
        · rw [hwa, hlb]
          exact hneq
        · rw [hwb, hla]
          exact fun hEq => hneq hEq.symm
      have himg : g.Vertices.dom.image (rootD uf'.parent)
          = (g.Vertices.dom.image (rootD uf.parent)).erase ls := by
        ext r
        simp only [Finset.mem_image, Finset.mem_erase]
        constructor
        · rintro ⟨x, hx, hr⟩
          rw [hroot x] at hr
          by_cases hxl : rootD uf.parent x = ls
          · rw [if_pos hxl] at hr
            rw [← hr]
            refine ⟨hwn_ne, ?_⟩
            rcases hwl with ⟨hwa, -⟩ | ⟨hwb, -⟩
            · exact ⟨e.From, heF, hwa.symm⟩
            · exact ⟨e.To, heT, hwb.symm⟩
          · rw [if_neg hxl] at hr
            rw [← hr]
            exact ⟨hxl, x, hx, rfl⟩
        · rintro ⟨hrl, x, hx, hr⟩
          refine ⟨x, hx, ?_⟩
          rw [hroot x, hr, if_neg hrl]
      have hcount' : (mst ++ [e]).length
          + (g.Vertices.dom.image (rootD uf'.parent)).card
          = g.Vertices.dom.card := by
        have hpos : 0 < (g.Vertices.dom.image (rootD uf.parent)).card :=
          Finset.card_pos.2 ⟨ls, hls_img⟩
        rw [himg, Finset.card_erase_of_mem hls_img, List.length_append,
          List.length_singleton]
        omega
      show ∃ mst' w',
        (if ((mst ++ [e]).length : Int) = (g.VertexCount : Int) - 1 then
            Res.ok (mst ++ [e], w + e.Weight)
          else g.kruskalLoop rest uf' (mst ++ [e]) (w + e.Weight))
          = Res.ok (mst', w')
        ∧ (mst'.length : Int) = (g.VertexCount : Int) - 1
      by_cases hexit : ((mst ++ [e]).length : Int) = (g.VertexCount : Int) - 1
      · rw [if_pos hexit]
        exact ⟨mst ++ [e], w + e.Weight, rfl, hexit⟩
      · rw [if_neg hexit]
        exact ih uf' (mst ++ [e]) (w + e.Weight) hes' hpok' hproc' hcount'

/-- On a connected nonempty graph Kruskal returns exactly `V-1` edges, for
every map enumeration order covering the keys and every permutation of the
copied edge slice. -/
theorem kruskal_connected_edge_count {α : Type u} [Inhabited α] {g : Graph α}
    (hB : Built g) {u0 : Int} (hu0 : u0 ∈ g.Vertices.dom)
    (hconn : ∀ x ∈ g.Vertices.dom, ∀ y ∈ g.Vertices.dom, g.Conn x y)
    (enum : List Int) (es : List (Edge α))
    (henum : enum.toFinset = g.Vertices.dom) (hperm : es.Perm g.Edges) :
    ∃ mst w, g.KruskalWith enum es = Res.ok (mst, w) ∧
      (mst.length : Int) = (g.VertexCount : Int) - 1 := by
  have hG := built_ginv hB
  have hDir : ¬ (g.Directed = true) := by
    rw [hG.undirected]
    exact Bool.false_ne_true
  unfold Graph.KruskalWith
  rw [if_neg hDir]
  have hempty : ∀ x ∈ (NewUnionFind.parent).dom, NewUnionFind.parent.get x = x :=
    fun x hx => absurd hx (Finset.not_mem_empty x)
  obtain ⟨hdom0, hid0⟩ := makeSet_fold_id enum NewUnionFind hempty
  have hdom : (enum.foldl UnionFind.MakeSet NewUnionFind).parent.dom
      = g.Vertices.dom := by
    rw [hdom0, ← henum]
    exact Finset.empty_union _
  have hpok0 : POk (enum.foldl UnionFind.MakeSet NewUnionFind).parent :=
    pok_of_id_parent hid0
  have hroot0 : ∀ x ∈ g.Vertices.dom,
      rootD (enum.foldl UnionFind.MakeSet NewUnionFind).parent x = x := by
    intro x hx
    apply rootD_eq hpok0
    apply Rooted.root
    apply hid0
    rw [hdom]
    exact hx
  have himg0 : g.Vertices.dom.image
      (rootD (enum.foldl UnionFind.MakeSet NewUnionFind).parent)
      = g.Vertices.dom := by
    ext r
    simp only [Finset.mem_image]
    constructor
    · rintro ⟨x, hx, hr⟩
      rw [hroot0 x hx] at hr
      rw [← hr]
      exact hx
    · intro hr
      exact ⟨r, hr, hroot0 r hr⟩
  have hcount0 : (([] : List (Edge α)).length) + (g.Vertices.dom.image
      (rootD (enum.foldl UnionFind.MakeSet NewUnionFind).parent)).card
      = g.Vertices.dom.card := by
    rw [himg0, List.length_nil]
    omega
  have hes : ∀ e ∈ es, e.From ∈ g.Vertices.dom ∧ e.To ∈ g.Vertices.dom := by
    intro e he
    have heg : e ∈ g.Edges := hperm.mem_iff.1 he
    exact ⟨hG.edgeFromDom e heg, hG.edgeToDom e heg⟩
  have hproc0 : ∀ e ∈ g.Edges, e ∈ es
      ∨ rootD (enum.foldl UnionFind.MakeSet NewUnionFind).parent e.From
        = rootD (enum.foldl UnionFind.MakeSet NewUnionFind).parent e.To :=
    fun e he => Or.inl (hperm.mem_iff.2 he)
  exact kruskalLoop_connected hG hu0 hconn es
    (enum.foldl UnionFind.MakeSet NewUnionFind) [] 0 hes hpok0 hproc0 hcount0

theorem foldl_push_mem_mono {α : Type u}
    (f : List (Edge α) → Edge α → List (Edge α))
    (hf : ∀ acc e x, x ∈ acc → x ∈ f acc e) :
    ∀ (l acc : List (Edge α)) (x : Edge α), x ∈ acc → x ∈ l.foldl f acc := by
  intro l
  induction l with
  | nil =>
    intro acc x hx
    exact hx
  | cons e t ih =>
    intro acc x hx
    exact ih (f acc e) x (hf acc e x hx)

theorem foldl_push_mem_self {α : Type u}
    (f : List (Edge α) → Edge α → List (Edge α)) (P : Edge α → Prop)
    (hf_mono : ∀ acc e x, x ∈ acc → x ∈ f acc e)
    (hf_self : ∀ acc e, P e → e ∈ f acc e) :
    ∀ (l acc : List (Edge α)) (x : Edge α), x ∈ l → P x → x ∈ l.foldl f acc := by
  intro l
  induction l with
  | nil =>
    intro acc x hx
    cases hx
  | cons e t ih =>
    intro acc x hx hP
    rcases List.mem_cons.1 hx with hxe | hxt
    · subst hxe
      exact foldl_push_mem_mono f hf_mono t (f acc x) x (hf_self acc x hP)
    · exact ih (f acc e) x hxt hP

/-- A path leaving a vertex set must use a crossing adjacency. -/
theorem conn_crossing {α : Type u} {g : Graph α} {S : Finset Int} {x y : Int}
    (hx : x ∈ S) (h : g.Conn x y) :
    y ∉ S → ∃ a b, a ∈ S ∧ b ∉ S ∧ g.adjacent a b := by
  induction h with
  | refl =>
    intro hy
    exact absurd hx hy
  | tail hxb hadj ih =>
    intro hy
    rename_i b c
    by_cases hb : b ∈ S
    · exact ⟨b, c, hb, hy, hadj⟩
    · exact ih hb

/-- On a connected graph the Prim loop exits, at whichever guard, with
exactly `V-1` accepted edges: the extra invariants are that the accepted
count stays one below the visited count and that every crossing adjacency
edge is still in the queue, so an empty queue forces `visited = dom`. -/
theorem primLoop_connected {α : Type u} [Inhabited α] {g : Graph α}
    (hG : GInv g) {s : Int}
    (hconn : ∀ x ∈ g.Vertices.dom, ∀ y ∈ g.Vertices.dom, g.Conn x y) :
    ∀ (fuel : Nat) (pq : List (Edge α)) (visited : Finset Int)
      (mst : List (Edge α)) (w : Int),
    (∀ e ∈ pq, g.adjacent e.From e.To) →
    s ∈ visited →
    visited ⊆ g.Vertices.dom →
    mst.length + 1 = visited.card →
    (∀ x ∈ visited, ∀ e ∈ g.adjOf x, e.To ∉ visited → e ∈ pq) →
    pq.length + (g.Vertices.dom \ visited).sum
        (fun id => (g.Vertices.fn id).Edges.length) < fuel →
    ∃ mst' w', g.primLoop fuel pq visited mst w = some (mst', w') ∧
      (mst'.length : Int) = (g.VertexCount : Int) - 1 := by
  intro fuel
  induction fuel with
  | zero =>
    intro pq visited mst w _ _ _ _ _ hfuel
    exact absurd hfuel (Nat.not_lt_zero _)
  | succ n ih =>
    intro pq visited mst w hpq hsv hvd hcount hcross hfuel
    rw [primLoop_succ]
    by_cases hguard : 0 < pq.length ∧ (mst.length : Int) < (g.VertexCount : Int) - 1
    · rw [if_pos hguard]
      obtain ⟨e, pq', hpop, hperm, hlen⟩ := heapPop_spec pq hguard.1
      rw [hpop]
      have headj : g.adjacent e.From e.To :=
        hpq e (hperm.subset (List.mem_cons_self e pq'))
      have hpq' : ∀ x ∈ pq', g.adjacent x.From x.To :=
        fun x hx => hpq x (hperm.subset (List.mem_cons_of_mem e hx))
      show ∃ mst' w',
        (if e.To ∈ visited then g.primLoop n pq' visited mst w
          else
            g.primLoop n
              ((g.adjOf e.To).foldl
                (fun acc nextEdge =>
                  if nextEdge.To ∈ insert e.To visited then acc
                  else heapPush acc nextEdge) pq')
              (insert e.To visited) (mst ++ [e]) (w + e.Weight))
          = some (mst', w')
        ∧ (mst'.length : Int) = (g.VertexCount : Int) - 1
      by_cases hvis : e.To ∈ visited
      · rw [if_pos hvis]
        have hcross' : ∀ x ∈ visited, ∀ ed ∈ g.adjOf x, ed.To ∉ visited →
            ed ∈ pq' := by
          intro x hx ed hed hto
          have hne : ed ≠ e := fun hEq => hto (by rw [hEq]; exact hvis)
          rcases List.mem_cons.1 (hperm.mem_iff.2 (hcross x hx ed hed hto))
              with h | h
          · exact absurd h hne
          · exact h
        apply ih pq' visited mst w hpq' hsv hvd hcount hcross'
        omega
      · rw [if_neg hvis]
        have heTd : e.To ∈ g.Vertices.dom := adjacent_mem_right hG headj
        have hmono : ∀ (acc : List (Edge α)) (x y : Edge α), y ∈ acc →
            y ∈ (if x.To ∈ insert e.To visited then acc else heapPush acc x) := by
          intro acc x y hy
          by_cases hc : x.To ∈ insert e.To visited
          · rw [if_pos hc]
            exact hy
          · rw [if_neg hc]
            exact (heapPush_perm acc x).mem_iff.2 (List.mem_cons_of_mem x hy)
        have hf : ∀ (acc : List (Edge α)) (x : Edge α),
            (∀ y ∈ (if x.To ∈ insert e.To visited then acc else heapPush acc x),
              y = x ∨ y ∈ acc)
            ∧ (if x.To ∈ insert e.To visited then acc else heapPush acc x).length
                ≤ acc.length + 1 := by
          intro acc x
          by_cases hc : x.To ∈ insert e.To visited
          · rw [if_pos hc]
            exact ⟨fun y hy => Or.inr hy, Nat.le_succ _⟩
          · rw [if_neg hc]
            constructor
            · intro y hy
              rcases List.mem_cons.1 ((heapPush_perm acc x).subset hy) with h | h
              · exact Or.inl h
              · exact Or.inr h
            · rw [(heapPush_perm acc x).length_eq]
              exact le_of_eq (List.length_cons x acc)
        obtain ⟨hmemF, hlenF⟩ := foldl_push_bound
          (fun acc nextEdge =>
            if nextEdge.To ∈ insert e.To visited then acc
            else heapPush acc nextEdge) hf (g.adjOf e.To) pq'
        have hpq'' : ∀ x ∈ (g.adjOf e.To).foldl
            (fun acc nextEdge =>
              if nextEdge.To ∈ insert e.To visited then acc
              else heapPush acc nextEdge) pq',
            g.adjacent x.From x.To := by
          intro x hx
          rcases hmemF x hx with h | h
          · exact hpq' x h
          · obtain ⟨hd, hm⟩ := adjOf_mem_dest h
            have hxF : x.From = e.To := hG.adjFrom e.To hd x hm
            refine ⟨x, ?_, rfl⟩
            rw [hxF, adjOf_eq_fn hd]
            exact hm
        have hcount' : (mst ++ [e]).length + 1 = (insert e.To visited).card := by
          rw [Finset.card_insert_of_not_mem hvis, List.length_append,
            List.length_singleton]
          omega
        have hcross'' : ∀ x ∈ insert e.To visited, ∀ ed ∈ g.adjOf x,
            ed.To ∉ insert e.To visited →
            ed ∈ (g.adjOf e.To).foldl
              (fun acc nextEdge =>
                if nextEdge.To ∈ insert e.To visited then acc
                else heapPush acc nextEdge) pq' := by
          intro x hx ed hed hto
          rcases Finset.mem_insert.1 hx with hxe | hxv
          · subst hxe
            refine foldl_push_mem_self _
              (fun y => y.To ∉ insert e.To visited) hmono ?_ _ pq' ed hed hto
            intro acc y hy
            rw [if_neg hy]
            exact (heapPush_perm acc y).mem_iff.2 (List.mem_cons_self y acc)
          · have htov : ed.To ∉ visited :=
              fun hc => hto (Finset.mem_insert_of_mem hc)
            have hne : ed ≠ e := fun hEq => hto (by
              rw [hEq]
              exact Finset.mem_insert_self e.To visited)
            have hedpq' : ed ∈ pq' := by
              rcases List.mem_cons.1 (hperm.mem_iff.2 (hcross x hxv ed hed htov))
                  with h | h
              · exact absurd h hne
              · exact h
            exact foldl_push_mem_mono _ hmono (g.adjOf e.To) pq' ed hedpq'
        have hsum : (g.Vertices.dom \ insert e.To visited).sum
              (fun id => (g.Vertices.fn id).Edges.length)
            + (g.Vertices.fn e.To).Edges.length
            = (g.Vertices.dom \ visited).sum
              (fun id => (g.Vertices.fn id).Edges.length) := by
          rw [Finset.sdiff_insert]
          exact Finset.sum_erase_add _ _ (Finset.mem_sdiff.2 ⟨heTd, hvis⟩)
        have hadjlen : (g.adjOf e.To).length = (g.Vertices.fn e.To).Edges.length := by
          rw [adjOf_eq_fn heTd]
        apply ih _ _ _ _ hpq'' (Finset.mem_insert_of_mem hsv)
          (Finset.insert_subset heTd hvd) hcount' hcross''
        omega
    · rw [if_neg hguard]
      refine ⟨mst, w, rfl, ?_⟩
      have hVC : g.VertexCount = g.Vertices.dom.card := rfl
      have hcard_le : visited.card ≤ g.Vertices.dom.card :=
        Finset.card_le_card hvd
      rcases not_and_or.1 hguard with hpq0 | hful
      · -- empty queue: the visited set is adjacency-closed, hence all of dom
        have hpqnil : pq = [] := by
          cases pq with
          | nil => rfl
          | cons a t => exact absurd (by simp) hpq0
        have hsub : g.Vertices.dom ⊆ visited := by
          by_contra hns
          obtain ⟨t, htd, htv⟩ := Finset.not_subset.1 hns
          obtain ⟨a, b, haS, hbS, hab⟩ :=
            conn_crossing hsv (hconn s (hvd hsv) t htd) htv
          obtain ⟨ed, hed, hto⟩ := hab
          have : ed ∈ pq := hcross a haS ed hed (by rw [hto]; exact hbS)
          rw [hpqnil] at this
          exact absurd this (List.not_mem_nil ed)
        have hveq : visited = g.Vertices.dom := Finset.Subset.antisymm hvd hsub
        rw [hVC, ← hveq]
        omega
      · rw [hVC]
        have h1 : 0 < visited.card := Finset.card_pos.2 ⟨s, hsv⟩
        rw [hVC] at hful
        omega

/-- On a connected graph Prim from any stored start returns exactly `V-1`
edges. -/
theorem prim_connected_edge_count {α : Type u} [Inhabited α] {g : Graph α}
    (hB : Built g)
    (hconn : ∀ x ∈ g.Vertices.dom, ∀ y ∈ g.Vertices.dom, g.Conn x y)
    {s : Int} (hs : s ∈ g.Vertices.dom) :
    ∃ mst w, g.Prim s = Res.ok (mst, w) ∧
      (mst.length : Int) = (g.VertexCount : Int) - 1 := by
  have hG := built_ginv hB
  have hDir : ¬ (g.Directed = true) := by
    rw [hG.undirected]
    exact Bool.false_ne_true
  have hlk : g.Vertices.lookup s = some (g.Vertices.fn s) := by
    unfold GoMap.lookup
    rw [if_pos hs]
  have hID : (g.Vertices.fn s).ID = s := hG.idKey s hs
  have hf : ∀ (acc : List (Edge α)) (x : Edge α),
      (∀ y ∈ heapPush acc x, y = x ∨ y ∈ acc)
      ∧ (heapPush acc x).length ≤ acc.length + 1 := by
    intro acc x
    constructor
    · intro y hy
      rcases List.mem_cons.1 ((heapPush_perm acc x).subset hy) with h | h
      · exact Or.inl h
      · exact Or.inr h
    · rw [(heapPush_perm acc x).length_eq]
      exact le_of_eq (List.length_cons x acc)
  obtain ⟨hmemF, hlenF⟩ := foldl_push_bound
    (fun acc e => heapPush acc e) hf (g.Vertices.fn s).Edges (heapInit [])
  have hpq1 : ∀ x ∈ (g.Vertices.fn s).Edges.foldl
      (fun acc e => heapPush acc e) (heapInit []),
      g.adjacent x.From x.To := by
    intro x hx
    rcases hmemF x hx with h | h
    · rw [show heapInit ([] : List (Edge α)) = [] by simp [heapInit]] at h
      exact absurd h (List.not_mem_nil x)
    · have hxF : x.From = s := hG.adjFrom s hs x h
      refine ⟨x, ?_, rfl⟩
      rw [hxF, adjOf_eq_fn hs]
      exact h
  have hcross1 : ∀ x ∈ ({s} : Finset Int), ∀ ed ∈ g.adjOf x,
      ed.To ∉ ({s} : Finset Int) →
      ed ∈ (g.Vertices.fn s).Edges.foldl
        (fun acc e => heapPush acc e) (heapInit []) := by
    intro x hx ed hed _
    have hxs : x = s := Finset.mem_singleton.1 hx
    subst hxs
    rw [adjOf_eq_fn hs] at hed
    refine foldl_push_mem_self _ (fun _ => True)
      (fun acc e y hy => (heapPush_perm acc e).mem_iff.2 (List.mem_cons_of_mem e hy))
      (fun acc e _ => (heapPush_perm acc e).mem_iff.2 (List.mem_cons_self e acc))
      _ _ ed hed trivial
  have hsum : (g.Vertices.dom \ {s}).sum
        (fun id => (g.Vertices.fn id).Edges.length)
      + (g.Vertices.fn s).Edges.length = g.sumAdj := by
    unfold Graph.sumAdj
    rw [Finset.sdiff_singleton_eq_erase]
    exact Finset.sum_erase_add _ _ hs
  have hlen0 : (heapInit ([] : List (Edge α))).length = 0 := by
    rw [show heapInit ([] : List (Edge α)) = [] by simp [heapInit]]
    rfl
  have hfuel : ((g.Vertices.fn s).Edges.foldl
        (fun acc e => heapPush acc e) (heapInit [])).length
      + (g.Vertices.dom \ {s}).sum (fun id => (g.Vertices.fn id).Edges.length)
      < g.primFuel := by
    have hPF : g.primFuel = 2 * g.sumAdj + 2 := rfl
    omega
  have hcount1 : (([] : List (Edge α)).length) + 1 = ({s} : Finset Int).card := by
    rfl
  obtain ⟨mst, w, hloop, hcnt⟩ := primLoop_connected hG hconn g.primFuel
    ((g.Vertices.fn s).Edges.foldl (fun acc e => heapPush acc e) (heapInit []))
    {s} [] 0 hpq1 (Finset.mem_singleton_self s)
    (Finset.singleton_subset_iff.2 hs) hcount1 hcross1 hfuel
  refine ⟨mst, w, ?_, hcnt⟩
  have hIDset : ({(g.Vertices.fn s).ID} : Finset Int) = {s} := by
    rw [hID]
  simp only [Graph.Prim, hlk, hG.undirected, Bool.false_eq_true, if_false,
    hIDset]
  rw [hloop]

/-! ## Heap order correctness of the `container/heap` port -/

theorem lt_of_get?_some {α : Type u} {l : List (Edge α)} {n : Nat} {a : Edge α}
    (h : l.get? n = some a) : n < l.length := by
  by_contra hc
  rw [List.get?_eq_none.2 (le_of_not_lt hc)] at h
  cases h

theorem get?_some_of_lt {α : Type u} {l : List (Edge α)} {n : Nat}
    (h : n < l.length) : ∃ a, l.get? n = some a :=
  ⟨l.get ⟨n, h⟩, List.get?_eq_get h⟩

theorem child_ne_zero {i k : Nat} (h : k = 2 * i + 1 ∨ k = 2 * i + 2) :
    (k - 1) / 2 = i ∧ k ≠ 0 := by
  rcases h with h | h <;> omega

theorem parent_child {j : Nat} (h : j ≠ 0) :
    j = 2 * ((j - 1) / 2) + 1 ∨ j = 2 * ((j - 1) / 2) + 2 := by
  omega

theorem swapAt_get? {α : Type u} {l : List (Edge α)} {i j : Nat} {a b : Edge α}
    (hi : l.get? i = some a) (hj : l.get? j = some b) :
    (swapAt l i j).get? i = some b ∧ (swapAt l i j).get? j = some a
    ∧ ∀ k, k ≠ i → k ≠ j → (swapAt l i j).get? k = l.get? k := by
  have hil := lt_of_get?_some hi
  have hjl := lt_of_get?_some hj
  unfold swapAt
  rw [hi, hj]
  show ((l.set i b).set j a).get? i = some b
    ∧ ((l.set i b).set j a).get? j = some a
    ∧ ∀ k, k ≠ i → k ≠ j → ((l.set i b).set j a).get? k = l.get? k
  have hjl' : j < (l.set i b).length := by
    rw [List.length_set]
    exact hjl
  refine ⟨?_, List.get?_set_eq_of_lt a hjl', ?_⟩
  · by_cases hij : i = j
    · have hab : a = b := by
        rw [hij, hj] at hi
        exact (Option.some_inj.1 hi).symm
      rw [hij, List.set_set, hab]
      exact List.get?_set_eq_of_lt b (by rw [← hij]; exact hil)
    · rw [List.get?_set_ne a _ (fun hEq => hij hEq.symm),
        List.get?_set_eq_of_lt b hil]
  · intro k hki hkj
    rw [List.get?_set_ne a _ (fun hEq => hkj hEq.symm),
      List.get?_set_ne b _ (fun hEq => hki hEq.symm)]

/-- In a heap every element weighs at least the root. -/
theorem isHeapN_root_min {α : Type u} {l : List (Edge α)} {n : Nat}
    (h : IsHeapN l n) {r : Edge α} (hr : l.get? 0 = some r) :
    ∀ j : Nat, j < n → ∀ a : Edge α, l.get? j = some a →
      r.Weight ≤ a.Weight := by
  intro j
  induction j using Nat.strong_induction_on with
  | _ j ih =>
    intro hjn a ha
    by_cases hj0 : j = 0
    · rw [hj0, hr] at ha
      rw [Option.some_inj.1 ha]
    · have hpar := parent_child hj0
      have hplt : (j - 1) / 2 < j := by omega
      have hpl : (j - 1) / 2 < l.length :=
        lt_trans hplt (lt_of_get?_some ha)
      obtain ⟨pa, hpa⟩ := get?_some_of_lt hpl
      have h1 : r.Weight ≤ pa.Weight :=
        ih ((j - 1) / 2) hplt (lt_trans hplt hjn) pa hpa
      have h2 : pa.Weight ≤ a.Weight := h ((j - 1) / 2) j pa a hpar hjn hpa ha
      omega

/-- A closed sift-up (hole at the root) is a heap. -/
theorem isHeap_of_upOk_zero {α : Type u} {l : List (Edge α)}
    (h : UpOk l l.length 0) : IsHeap l := by
  intro i j a b hch hjn ha hb
  by_cases hi0 : i = 0
  · subst hi0
    have hj12 : j = 2 * 0 + 1 ∨ j = 2 * 0 + 2 := hch
    have := h.2 j a b a hj12 hjn ha hb (by
      show l.get? ((0 - 1) / 2) = some a
      rw [show ((0 : Nat) - 1) / 2 = 0 by omega]
      exact ha)
    exact this.1
  · exact h.1 i j a b hch hjn (fun hEq => hi0 (by
      rcases hch with hc | hc <;> omega)) ha hb

/-- A sift-up that stops because the parent is not heavier is a heap. -/
theorem isHeap_of_upOk_stop {α : Type u} {l : List (Edge α)} {j : Nat}
    {jv pv : Edge α} (hjl : l.get? j = some jv) (hj0 : j ≠ 0)
    (hp : l.get? ((j - 1) / 2) = some pv) (hle : pv.Weight ≤ jv.Weight)
    (h : UpOk l l.length j) : IsHeap l := by
  intro i k a b hch hkn ha hb
  by_cases hkj : k = j
  · subst hkj
    have hij : i = (k - 1) / 2 := ((child_ne_zero hch).1).symm
    rw [hij, hp] at ha
    rw [hjl] at hb
    rw [← Option.some_inj.1 ha, ← Option.some_inj.1 hb]
    exact hle
  · exact h.1 i k a b hch hkn hkj ha hb

/-- The sift-up swap step preserves the intermediate state, moving the hole
to the parent. -/
theorem upOk_swap {α : Type u} {l : List (Edge α)} {j : Nat} {jv pv : Edge α}
    (hj0 : j ≠ 0) (hjl : l.get? j = some jv)
    (hp : l.get? ((j - 1) / 2) = some pv) (hlt : jv.Weight < pv.Weight)
    (h : UpOk l l.length j) :
    UpOk (swapAt l ((j - 1) / 2) j) (swapAt l ((j - 1) / 2) j).length
      ((j - 1) / 2) := by
  obtain ⟨hswi, hswj, hswo⟩ := swapAt_get? hp hjl
  have hlen : (swapAt l ((j - 1) / 2) j).length = l.length :=
    (swapAt_perm l ((j - 1) / 2) j).length_eq
  have hplt : (j - 1) / 2 < j := by omega
  constructor
  · intro p k a b hch hkn hkne ha hb
    rw [hlen] at hkn
    by_cases hkj : k = j
    · -- child at the old hole position, parent is the new hole
      subst hkj
      have hpj : p = (k - 1) / 2 := ((child_ne_zero hch).1).symm
      rw [hpj, hswi] at ha
      rw [hswj] at hb
      rw [← Option.some_inj.1 ha, ← Option.some_inj.1 hb]
      exact le_of_lt hlt
    · have hbl : l.get? k = some b := by
        rw [← hswo k hkne hkj]
        exact hb
      by_cases hpj2 : p = j
      · -- parent at the old hole position, now holding the old parent value
        subst hpj2
        rw [hswj] at ha
        rw [← Option.some_inj.1 ha]
        exact (h.2 k jv b pv hch hkn hjl hbl hp).2
      · by_cases hpi : p = (j - 1) / 2
        · -- parent is the new hole, holding the moved value
          subst hpi
          rw [hswi] at ha
          rw [← Option.some_inj.1 ha]
          refine le_trans (le_of_lt hlt) ?_
          exact h.1 ((j - 1) / 2) k pv b hch hkn hkj hp hbl
        · have hal : l.get? p = some a := by
            rw [← hswo p hpi hpj2]
            exact ha
          exact h.1 p k a b hch hkn hkj hal hbl
  · intro c iv cv pa hch hcn hiv hcv hpa
    rw [hlen] at hcn
    have hiveq : iv = jv := Option.some_inj.1 (hiv.symm.trans hswi)
    subst hiveq
    have hparent_le : ∀ x : Edge α,
        (swapAt l ((j - 1) / 2) j).get? (((j - 1) / 2 - 1) / 2) = some x →
        x.Weight ≤ pv.Weight ∨ x = iv := by
      intro x hx
      by_cases hi0 : (j - 1) / 2 = 0
      · refine Or.inr ?_
        rw [hi0, show ((0 : Nat) - 1) / 2 = 0 by omega] at hx
        rw [hi0] at hswi
        exact Option.some_inj.1 (hx.symm.trans hswi)
      · refine Or.inl ?_
        have hgplt : ((j - 1) / 2 - 1) / 2 < (j - 1) / 2 := by omega
        have hxl : l.get? (((j - 1) / 2 - 1) / 2) = some x := by
          rw [← hswo _ (by omega) (by omega)]
          exact hx
        exact h.1 _ _ x pv (parent_child hi0)
          (by rw [← hlen]; exact lt_of_get?_some hiv) (by omega) hxl hp
    by_cases hcj : c = j
    · -- child is the old hole, holding the old parent value
      subst hcj
      have hcveq : cv = pv := Option.some_inj.1 (hcv.symm.trans hswj)
      subst hcveq
      refine ⟨le_of_lt hlt, ?_⟩
      rcases hparent_le pa hpa with hle | hEq
      · exact hle
      · rw [hEq]
        exact le_of_lt hlt
    · -- child is the sibling of the old hole
      have hcvl : l.get? c = some cv := by
        rw [← hswo c (by omega) hcj]
        exact hcv
      have hsib : pv.Weight ≤ cv.Weight :=
        h.1 ((j - 1) / 2) c pv cv hch hcn hcj hp hcvl
      refine ⟨le_trans (le_of_lt hlt) hsib, ?_⟩
      rcases hparent_le pa hpa with hle | hEq
      · exact le_trans hle hsib
      · rw [hEq]
        exact le_trans (le_of_lt hlt) hsib

/-- The sift-up loop turns an `UpOk` state into a heap. -/
theorem upAux_heap {α : Type u} :
    ∀ (fuel : Nat) (l : List (Edge α)) (j : Nat),
    j < fuel → j < l.length → UpOk l l.length j →
    IsHeap (upAux fuel l j) := by
  intro fuel
  induction fuel with
  | zero =>
    intro l j hfuel
    exact absurd hfuel (Nat.not_lt_zero j)
  | succ n ih =>
    intro l j hfuel hjl hup
    simp only [upAux]
    by_cases hj0 : j = 0
    · rw [if_pos hj0]
      subst hj0
      exact isHeap_of_upOk_zero hup
    · rw [if_neg hj0]
      obtain ⟨jv, hjv⟩ := get?_some_of_lt hjl
      have hpl : (j - 1) / 2 < l.length := lt_trans (by omega) hjl
      obtain ⟨pv, hpv⟩ := get?_some_of_lt hpl
      by_cases hless : lessAt l j ((j - 1) / 2) = true
      · have hlt : jv.Weight < pv.Weight := by
          unfold lessAt at hless
          rw [hjv, hpv] at hless
          exact of_decide_eq_true hless
        rw [if_neg (not_not_intro hless)]
        refine ih (swapAt l ((j - 1) / 2) j) ((j - 1) / 2) (by omega) ?_
          (upOk_swap hj0 hjv hpv hlt hup)
        rw [(swapAt_perm l ((j - 1) / 2) j).length_eq]
        exact hpl
      · rw [if_pos hless]
        have hge : pv.Weight ≤ jv.Weight := by
          unfold lessAt at hless
          rw [hjv, hpv] at hless
          exact le_of_not_lt (fun hc => hless (decide_eq_true hc))
        exact isHeap_of_upOk_stop hjv hj0 hpv hge hup

/-- `heap.Push` preserves the heap order. -/
theorem heapPush_isHeap {α : Type u} {l : List (Edge α)} (h : IsHeap l)
    (e : Edge α) : IsHeap (heapPush l e) := by
  unfold heapPush heapUp
  refine upAux_heap (l.length + 1) (l ++ [e]) l.length (by omega) (by simp) ⟨?_, ?_⟩
  · intro i k a b hch hkn hkne ha hb
    have hkl : k < (l ++ [e]).length := lt_of_get?_some hb
    rw [List.length_append, List.length_singleton] at hkl
    have hkn' : k < l.length := by omega
    have hb' : l.get? k = some b := by
      rw [List.get?_append hkn'] at hb
      exact hb
    have ha' : l.get? i = some a := by
      rw [List.get?_append (show i < l.length by omega)] at ha
      exact ha
    exact h i k a b hch hkn' ha' hb'
  · intro c jv cv pa hch hcn _ _ _
    exfalso
    rw [List.length_append, List.length_singleton] at hcn
    omega

theorem isHeapN_of_downOk_noChild {α : Type u} {l : List (Edge α)} {n i : Nat}
    (hno : n ≤ 2 * i + 1) (h : DownOk l n i) : IsHeapN l n := by
  intro p k a b hch hkn ha hb
  by_cases hpi : p = i
  · exfalso
    subst hpi
    omega
  · exact h.1 p k a b hch hkn hpi ha hb

theorem isHeapN_of_downOk_stop {α : Type u} {l : List (Edge α)} {n i j : Nat}
    {iv jv : Edge α} (hchj : j = 2 * i + 1 ∨ j = 2 * i + 2)
    (hiv : l.get? i = some iv) (_hjv : l.get? j = some jv)
    (hstop : iv.Weight ≤ jv.Weight)
    (hminc : ∀ c : Nat, ∀ cv : Edge α, (c = 2 * i + 1 ∨ c = 2 * i + 2) →
      c < n → l.get? c = some cv → jv.Weight ≤ cv.Weight)
    (h : DownOk l n i) : IsHeapN l n := by
  intro p k a b hch hkn ha hb
  by_cases hpi : p = i
  · subst hpi
    rw [hiv] at ha
    rw [← Option.some_inj.1 ha]
    exact le_trans hstop (hminc k b hch hkn hb)
  · exact h.1 p k a b hch hkn hpi ha hb

theorem downOk_swap {α : Type u} {l : List (Edge α)} {n i j : Nat}
    {iv jv : Edge α} (hchj : j = 2 * i + 1 ∨ j = 2 * i + 2) (hjn : j < n)
    (hiv : l.get? i = some iv) (hjv : l.get? j = some jv)
    (hlt : jv.Weight < iv.Weight)
    (hminc : ∀ c : Nat, ∀ cv : Edge α, (c = 2 * i + 1 ∨ c = 2 * i + 2) →
      c < n → l.get? c = some cv → jv.Weight ≤ cv.Weight)
    (h : DownOk l n i) : DownOk (swapAt l i j) n j := by
  obtain ⟨hswi, hswj, hswo⟩ := swapAt_get? hiv hjv
  have hij : i < j := by omega
  constructor
  · intro p k a b hch hkn hpne ha hb
    by_cases hpi : p = i
    · subst hpi
      have haj : a = jv := Option.some_inj.1 (ha.symm.trans hswi)
      subst haj
      by_cases hkj : k = j
      · subst hkj
        have hbv : b = iv := Option.some_inj.1 (hb.symm.trans hswj)
        rw [hbv]
        exact le_of_lt hlt
      · have hbl : l.get? k = some b := by
          rw [← hswo k (by omega) hkj]
          exact hb
        exact hminc k b hch hkn hbl
    · by_cases hki : k = i
      · subst hki
        have hbv : b = jv := Option.some_inj.1 (hb.symm.trans hswi)
        subst hbv
        have hk0 := child_ne_zero hch
        have hal : l.get? p = some a := by
          rw [← hswo p hpi (by omega)]
          exact ha
        have hpar : p = (k - 1) / 2 := hk0.1.symm
        rw [hpar] at hal
        exact h.2 hk0.2 j b a hchj hjn hjv hal
      · by_cases hkj : k = j
        · exfalso
          subst hkj
          have := (child_ne_zero hch).1
          have := (child_ne_zero hchj).1
          omega
        · have hal : l.get? p = some a := by
            rw [← hswo p hpi hpne]
            exact ha
          have hbl : l.get? k = some b := by
            rw [← hswo k hki hkj]
            exact hb
          exact h.1 p k a b hch hkn hpi hal hbl
  · intro _ c cv pa hch hcn hcv hpa
    have hcgt : j < c := by omega
    have hcvl : l.get? c = some cv := by
      rw [← hswo c (by omega) (by omega)]
      exact hcv
    have hpar : (j - 1) / 2 = i := (child_ne_zero hchj).1
    rw [hpar] at hpa
    have hpav : pa = jv := Option.some_inj.1 (hpa.symm.trans hswi)
    rw [hpav]
    exact h.1 j c jv cv hch hcn (by omega) hjv hcvl

/-- The sift-down loop turns a `DownOk` state into a heap on the prefix,
leaving length and the positions at or beyond the prefix untouched. -/
theorem downAux_heap {α : Type u} :
    ∀ (fuel : Nat) (l : List (Edge α)) (i n : Nat),
    n ≤ l.length → n ≤ fuel + i → DownOk l n i →
    IsHeapN (downAux fuel l i n) n
    ∧ (downAux fuel l i n).length = l.length
    ∧ ∀ k, n ≤ k → (downAux fuel l i n).get? k = l.get? k := by
  intro fuel
  induction fuel with
  | zero =>
    intro l i n hn hfi h
    refine ⟨?_, rfl, fun k _ => rfl⟩
    exact isHeapN_of_downOk_noChild (by omega) h
  | succ m ih =>
    intro l i n hn hfi h
    simp only [downAux]
    by_cases hj1 : 2 * i + 1 ≥ n
    · rw [if_pos hj1]
      exact ⟨isHeapN_of_downOk_noChild hj1 h, rfl, fun k _ => rfl⟩
    · rw [if_neg hj1]
      have hil : i < l.length := by omega
      obtain ⟨iv, hiv⟩ := get?_some_of_lt hil
      have hmain : ∀ j : Nat, (j = 2 * i + 1 ∨ j = 2 * i + 2) → j < n →
          (∀ c : Nat, ∀ cv jv : Edge α, (c = 2 * i + 1 ∨ c = 2 * i + 2) →
            c < n → l.get? c = some cv → l.get? j = some jv →
            jv.Weight ≤ cv.Weight) →
          IsHeapN (if ¬ lessAt l j i = true then l
              else downAux m (swapAt l i j) j n) n
          ∧ (if ¬ lessAt l j i = true then l
              else downAux m (swapAt l i j) j n).length = l.length
          ∧ ∀ k, n ≤ k → (if ¬ lessAt l j i = true then l
              else downAux m (swapAt l i j) j n).get? k = l.get? k := by
        intro j hchj hjn hminc
        have hjl : j < l.length := by omega
        obtain ⟨jv, hjv⟩ := get?_some_of_lt hjl
        by_cases hless : lessAt l j i = true
        · have hlt : jv.Weight < iv.Weight := by
            unfold lessAt at hless
            rw [hjv, hiv] at hless
            exact of_decide_eq_true hless
          rw [if_neg (not_not_intro hless)]
          have hswlen : (swapAt l i j).length = l.length :=
            (swapAt_perm l i j).length_eq
          obtain ⟨hH, hL, hP⟩ := ih (swapAt l i j) j n (by omega) (by omega)
            (downOk_swap hchj hjn hiv hjv hlt
              (fun c cv hc hcn hcv => hminc c cv jv hc hcn hcv hjv) h)
          refine ⟨hH, by rw [hL, hswlen], ?_⟩
          intro k hk
          rw [hP k hk]
          exact (swapAt_get? hiv hjv).2.2 k (by omega) (by omega)
        · rw [if_pos hless]
          have hge : iv.Weight ≤ jv.Weight := by
            unfold lessAt at hless
            rw [hjv, hiv] at hless
            exact le_of_not_lt (fun hc => hless (decide_eq_true hc))
          exact ⟨isHeapN_of_downOk_stop hchj hiv hjv hge
            (fun c cv hc hcn hcv => hminc c cv jv hc hcn hcv hjv) h,
            rfl, fun k _ => rfl⟩
      by_cases hsel : 2 * i + 1 + 1 < n ∧ lessAt l (2 * i + 1 + 1) (2 * i + 1) = true
      · rw [if_pos hsel]
        refine hmain (2 * i + 1 + 1) (Or.inr (by omega)) hsel.1 ?_
        intro c cv jv hc hcn hcv hjv
        rcases hc with hc | hc
        · subst hc
          have hc2 : (2 : Nat) * i + 1 + 1 < l.length := by omega
          have hlt2 : jv.Weight < cv.Weight := by
            have := hsel.2
            unfold lessAt at this
            rw [show (2 : Nat) * i + 2 = 2 * i + 1 + 1 by omega] at hjv
            rw [hjv, hcv] at this
            exact of_decide_eq_true this
          exact le_of_lt hlt2
        · rw [hc, show (2 : Nat) * i + 2 = 2 * i + 1 + 1 by omega] at hcv
          rw [Option.some_inj.1 (hcv.symm.trans hjv)]
      · rw [if_neg hsel]
        refine hmain (2 * i + 1) (Or.inl rfl) (by omega) ?_
        intro c cv jv hc hcn hcv hjv
        rcases hc with hc | hc
        · rw [hc] at hcv
          rw [Option.some_inj.1 (hcv.symm.trans hjv)]
        · subst hc
          have hnless : ¬ lessAt l (2 * i + 1 + 1) (2 * i + 1) = true :=
            fun hl => hsel ⟨by omega, hl⟩
          unfold lessAt at hnless
          rw [show (2 : Nat) * i + 1 + 1 = 2 * i + 2 by omega] at hnless
          rw [hcv, hjv] at hnless
          exact le_of_not_lt (fun hcc => hnless (decide_eq_true hcc))

/-- `heap.Pop` on a heap returns a globally minimal element, and the rest is
again a heap. -/
theorem heapPop_min {α : Type u} {l : List (Edge α)} (hh : IsHeap l)
    (hlen : 0 < l.length) :
    ∃ e l', heapPop l = some (e, l') ∧ (e :: l').Perm l
      ∧ l'.length + 1 = l.length ∧ IsHeap l'
      ∧ ∀ x ∈ l, e.Weight ≤ x.Weight := by
  obtain ⟨r, hr⟩ := get?_some_of_lt hlen
  obtain ⟨z, hz⟩ := get?_some_of_lt (show l.length - 1 < l.length by omega)
  obtain ⟨hswi, hswj, hswo⟩ := swapAt_get? hr hz
  have hswlen : (swapAt l 0 (l.length - 1)).length = l.length :=
    (swapAt_perm _ _ _).length_eq
  have hdo : DownOk (swapAt l 0 (l.length - 1)) (l.length - 1) 0 := by
    constructor
    · intro p k a b hch hkn hpne ha hb
      have hpk : p < k := by rcases hch with h | h <;> omega
      have hk0 : k ≠ 0 := by omega
      have hal : l.get? p = some a := by
        rw [← hswo p hpne (by omega)]
        exact ha
      have hbl : l.get? k = some b := by
        rw [← hswo k hk0 (by omega)]
        exact hb
      exact hh p k a b hch (by omega) hal hbl
    · intro h0
      exact absurd rfl h0
  obtain ⟨hH, hL, hP⟩ := downAux_heap (l.length - 1 + 1)
    (swapAt l 0 (l.length - 1)) 0 (l.length - 1)
    (by rw [hswlen]; omega) (by omega) hdo
  have hlast : (heapDown (swapAt l 0 (l.length - 1)) 0 (l.length - 1)).get?
      (l.length - 1) = some r := by
    show (downAux (l.length - 1 + 1) (swapAt l 0 (l.length - 1)) 0
      (l.length - 1)).get? (l.length - 1) = some r
    rw [hP (l.length - 1) (le_refl _)]
    exact hswj
  have hlen2 : (heapDown (swapAt l 0 (l.length - 1)) 0 (l.length - 1)).length
      = l.length := by
    show (downAux (l.length - 1 + 1) (swapAt l 0 (l.length - 1)) 0
      (l.length - 1)).length = l.length
    rw [hL, hswlen]
  have hgl : (heapDown (swapAt l 0 (l.length - 1)) 0 (l.length - 1)).getLast?
      = some r := by
    rw [List.getLast?_eq_get?, hlen2]
    exact hlast
  have hne2 : heapDown (swapAt l 0 (l.length - 1)) 0 (l.length - 1) ≠ [] := by
    intro h0
    rw [h0] at hlen2
    simp only [List.length_nil] at hlen2
    omega
  have hperm2 : (heapDown (swapAt l 0 (l.length - 1)) 0 (l.length - 1)).Perm l := by
    unfold heapDown
    exact (downAux_perm _ _ _ _).trans (swapAt_perm l 0 (l.length - 1))
  have hempty : l.isEmpty = false := by
    cases l with
    | nil => exact absurd hlen (lt_irrefl 0)
    | cons x t => rfl
  refine ⟨r, (heapDown (swapAt l 0 (l.length - 1)) 0 (l.length - 1)).dropLast,
    ?_, ?_, ?_, ?_, ?_⟩
  · simp only [heapPop, hempty, Bool.false_eq_true, if_false]
    rw [hgl]
  · have hglast : (heapDown (swapAt l 0 (l.length - 1)) 0
        (l.length - 1)).getLast hne2 = r := by
      have := List.getLast?_eq_getLast _ hne2
      rw [this] at hgl
      exact Option.some_inj.1 hgl
    have hsplit := List.dropLast_append_getLast hne2
    rw [hglast] at hsplit
    have hstep : (r :: (heapDown (swapAt l 0 (l.length - 1)) 0
          (l.length - 1)).dropLast).Perm
        ((heapDown (swapAt l 0 (l.length - 1)) 0 (l.length - 1)).dropLast
          ++ [r]) :=
      (List.perm_append_singleton _ _).symm
    rw [hsplit] at hstep
    exact hstep.trans hperm2
  · rw [List.length_dropLast, hlen2]
    omega
  · intro p k a b hch hkn ha hb
    rw [List.length_dropLast, hlen2] at hkn
    have hpk : p < k := by rcases hch with h | h <;> omega
    have hdl : (heapDown (swapAt l 0 (l.length - 1)) 0
        (l.length - 1)).dropLast = (heapDown (swapAt l 0 (l.length - 1)) 0
        (l.length - 1)).take (l.length - 1) := by
      rw [List.dropLast_eq_take, hlen2]
    rw [hdl, List.get?_take hkn] at hb
    rw [hdl, List.get?_take (by omega)] at ha
    exact hH p k a b hch hkn ha hb
  · intro x hx
    obtain ⟨m, hm⟩ := List.mem_iff_get?.1 hx
    exact isHeapN_root_min hh hr m (lt_of_get?_some hm) x hm

/-! ## Walks through explicit edge collections -/

theorem estep_symm {α : Type u} {T : Multiset (Edge α)} {x y : Int}
    (h : EStep T x y) : EStep T y x := by
  obtain ⟨e, he, ho⟩ := h
  exact ⟨e, he, ho.symm⟩

theorem econn_symm' {α : Type u} {T : Multiset (Edge α)} {x y : Int}
    (h : EConn T x y) : EConn T y x :=
  Relation.ReflTransGen.symmetric (fun _ _ hab => estep_symm hab) h

theorem econn_mono {α : Type u} {T T' : Multiset (Edge α)} (hsub : ∀ e ∈ T, e ∈ T')
    {x y : Int} (h : EConn T x y) : EConn T' x y := by
  induction h with
  | refl => exact Relation.ReflTransGen.refl
  | tail _ hstep ih =>
    obtain ⟨e, he, ho⟩ := hstep
    exact ih.tail ⟨e, hsub e he, ho⟩

theorem epath_append {α : Type u} {T : Multiset (Edge α)} {x y z : Int}
    {p q : List (Edge α)} (h1 : EPath T x y p) (h2 : EPath T y z q) :
    EPath T x z (p ++ q) := by
  induction h1 with
  | nil _ => exact h2
  | cons x' y' z' e p' he ho _ ih =>
    exact EPath.cons x' y' z e (p' ++ q) he ho (ih h2)

theorem epath_split {α : Type u} {T : Multiset (Edge α)} :
    ∀ {p q : List (Edge α)} {x z : Int}, EPath T x z (p ++ q) →
    ∃ y, EPath T x y p ∧ EPath T y z q := by
  intro p
  induction p with
  | nil =>
    intro q x z h
    exact ⟨x, EPath.nil x, h⟩
  | cons e t ih =>
    intro q x z h
    cases h with
    | cons _ y _ _ _ he ho hrest =>
      obtain ⟨w, h1, h2⟩ := ih hrest
      exact ⟨w, EPath.cons x y w e t he ho h1, h2⟩

theorem econn_of_epath {α : Type u} {T : Multiset (Edge α)} {x y : Int}
    {p : List (Edge α)} (h : EPath T x y p) : EConn T x y := by
  induction h with
  | nil _ => exact Relation.ReflTransGen.refl
  | cons x' y' z' e p' he ho _ ih =>
    exact Relation.ReflTransGen.head ⟨e, he, ho⟩ ih

theorem epath_of_econn {α : Type u} {T : Multiset (Edge α)} {x y : Int}
    (h : EConn T x y) : ∃ p, EPath T x y p := by
  induction h with
  | refl => exact ⟨[], EPath.nil x⟩
  | tail _ hstep ih =>
    obtain ⟨p, hp⟩ := ih
    obtain ⟨e, he, ho⟩ := hstep
    exact ⟨p ++ [e], epath_append hp (EPath.cons _ _ _ e [] he ho (EPath.nil _))⟩

theorem epath_mem {α : Type u} {T : Multiset (Edge α)} {x y : Int}
    {p : List (Edge α)} (h : EPath T x y p) : ∀ e ∈ p, e ∈ T := by
  induction h with
  | nil _ =>
    intro e he
    cases he
  | cons x' y' z' e p' he _ _ ih =>
    intro f hf
    rcases List.mem_cons.1 hf with hfe | hfp
    · rw [hfe]
      exact he
    · exact ih f hfp

theorem epath_change_mem {α : Type u} {T T' : Multiset (Edge α)} {x y : Int} :
    ∀ {p : List (Edge α)}, EPath T x y p → (∀ e ∈ p, e ∈ T') →
    EPath T' x y p := by
  intro p h
  induction h with
  | nil x' =>
    intro _
    exact EPath.nil x'
  | cons x' y' z' e p' _ ho _ ih =>
    intro hT'
    exact EPath.cons x' y' z' e p' (hT' e (List.mem_cons_self e p')) ho
      (ih (fun f hf => hT' f (List.mem_cons_of_mem e hf)))

theorem not_nodup_split {α : Type u} :
    ∀ {p : List (Edge α)}, ¬ p.Nodup →
    ∃ (a : Edge α) (l1 l2 l3 : List (Edge α)), p = l1 ++ a :: l2 ++ a :: l3 := by
  intro p
  induction p with
  | nil =>
    intro h
    exact absurd List.nodup_nil h
  | cons x t ih =>
    intro h
    by_cases hx : x ∈ t
    · obtain ⟨l2, l3, hsplit⟩ := List.append_of_mem hx
      refine ⟨x, [], l2, l3, ?_⟩
      rw [hsplit]
      rfl
    · have hnt : ¬ t.Nodup := fun hnd => h (List.nodup_cons.2 ⟨hx, hnd⟩)
      obtain ⟨a, l1, l2, l3, hsplit⟩ := ih hnt
      refine ⟨a, x :: l1, l2, l3, ?_⟩
      rw [hsplit]
      rfl

/-- Every connection has a walk using each stored edge at most once. -/
theorem epath_nodup {α : Type u} {T : Multiset (Edge α)} {x y : Int}
    (h : EConn T x y) : ∃ p, EPath T x y p ∧ p.Nodup := by
  obtain ⟨p0, hp0⟩ := epath_of_econn h
  clear h
  have main : ∀ (n : Nat) (p : List (Edge α)), p.length ≤ n → EPath T x y p →
      ∃ q, EPath T x y q ∧ q.Nodup := by
    intro n
    induction n with
    | zero =>
      intro p hlen hp
      have hp0' : p = [] := List.length_eq_zero.1 (by omega)
      subst hp0'
      exact ⟨[], hp, List.nodup_nil⟩
    | succ m ih =>
      intro p hlen hp
      by_cases hnd : p.Nodup
      · exact ⟨p, hp, hnd⟩
      · obtain ⟨a, l1, l2, l3, hsplit⟩ := not_nodup_split hnd
        subst hsplit
        have hlen' : l1.length + l2.length + l3.length + 2 ≤ m + 1 := by
          simp only [List.length_append, List.length_cons] at hlen
          omega
        obtain ⟨w', hpA, hrestB⟩ :=
          @epath_split α T (l1 ++ a :: l2) (a :: l3) x y hp
        obtain ⟨u, hp1, hrestA⟩ := @epath_split α T l1 (a :: l2) x w' hpA
        cases hrestA with
        | cons _ v _ _ _ ha ho1 hp2 =>
          cases hrestB with
          | cons _ v2 _ _ _ _ ho2 hp3 =>
            rcases ho1 with ⟨hf1, ht1⟩ | ⟨hf1, ht1⟩ <;>
              rcases ho2 with ⟨hf2, ht2⟩ | ⟨hf2, ht2⟩
            · -- forward, forward: keep one copy, drop the loop between
              have hq : EPath T x y (l1 ++ a :: l3) := by
                refine epath_append hp1 (EPath.cons u v2 y a l3 ha ?_ hp3)
                exact Or.inl ⟨hf1, ht2⟩
              refine ih (l1 ++ a :: l3) ?_ hq
              simp only [List.length_append, List.length_cons]
              omega
            · -- forward then backward: the two uses cancel entirely
              have huv2 : u = v2 := hf1.symm.trans hf2
              have hq : EPath T x y (l1 ++ l3) := by
                refine epath_append hp1 ?_
                rw [huv2]
                exact hp3
              refine ih (l1 ++ l3) ?_ hq
              simp only [List.length_append]
              omega
            · -- backward then forward: the two uses cancel entirely
              have huv2 : u = v2 := ht1.symm.trans ht2
              have hq : EPath T x y (l1 ++ l3) := by
                refine epath_append hp1 ?_
                rw [huv2]
                exact hp3
              refine ih (l1 ++ l3) ?_ hq
              simp only [List.length_append]
              omega
            · -- backward, backward: keep one copy, drop the loop between
              have hq : EPath T x y (l1 ++ a :: l3) := by
                refine epath_append hp1 (EPath.cons u v2 y a l3 ha ?_ hp3)
                exact Or.inr ⟨hf2, ht1⟩
              refine ih (l1 ++ a :: l3) ?_ hq
              simp only [List.length_append, List.length_cons]
              omega
  exact main p0.length p0 (le_refl _) hp0

/-- A walk leaving a vertex set crosses it at some used edge. -/
theorem epath_cross_split {α : Type u} {T : Multiset (Edge α)} {S : Finset Int} :
    ∀ {p : List (Edge α)} {x y : Int}, EPath T x y p → x ∈ S → y ∉ S →
    ∃ (p1 : List (Edge α)) (f : Edge α) (p2 : List (Edge α)) (a b : Int),
      p = p1 ++ f :: p2 ∧ EPath T x a p1 ∧ f ∈ T
      ∧ ((f.From = a ∧ f.To = b) ∨ (f.From = b ∧ f.To = a))
      ∧ a ∈ S ∧ b ∉ S ∧ EPath T b y p2 := by
  intro p
  induction p with
  | nil =>
    intro x y h hx hy
    cases h
    exact absurd hx hy
  | cons e t ih =>
    intro x y h hx hy
    cases h with
    | cons _ m _ _ _ he ho hrest =>
      by_cases hm : m ∈ S
      · obtain ⟨p1, f, p2, a, b, hsplit, h1, hf, ho2, ha, hb, h2⟩ :=
          ih hrest hm hy
        refine ⟨e :: p1, f, p2, a, b, ?_,
          EPath.cons x m a e p1 he ho h1, hf, ho2, ha, hb, h2⟩
        rw [hsplit]
        rfl
      · exact ⟨[], e, t, x, m, rfl, EPath.nil x, he, ho, hx, hm, hrest⟩

/-- Rerouting: replacing `f` by `e` preserves all connections, provided the
new collection still bridges `f`'s endpoints. -/
theorem econn_reroute {α : Type u} {T T2 : Multiset (Edge α)} {f e : Edge α}
    (hT : T = f ::ₘ T2) (hbridge : EConn (e ::ₘ T2) f.From f.To) :
    ∀ {x y : Int}, EConn T x y → EConn (e ::ₘ T2) x y := by
  intro x y h
  induction h with
  | refl => exact Relation.ReflTransGen.refl
  | tail _ hstep ih =>
    obtain ⟨g', hg, ho⟩ := hstep
    rw [hT] at hg
    rcases Multiset.mem_cons.1 hg with hgef | hgT2
    · subst hgef
      refine Relation.ReflTransGen.trans ih ?_
      rcases ho with ⟨hf1, ht1⟩ | ⟨hf1, ht1⟩
      · rw [← hf1, ← ht1]
        exact hbridge
      · rw [← hf1, ← ht1]
        exact econn_symm' hbridge
    · exact ih.tail ⟨g', Multiset.mem_cons_of_mem hgT2, ho⟩

/-- Cut exchange: when a collection spans a domain containing both endpoints
of a crossing edge `e`, it holds a crossing edge `f` whose replacement by `e`
still spans the domain. -/
theorem spanning_exchange {α : Type u} {T : Multiset (Edge α)} {D S : Finset Int}
    (hspan : ∀ x ∈ D, ∀ y ∈ D, EConn T x y) {e : Edge α}
    (heF : e.From ∈ D) (heT : e.To ∈ D) (heFS : e.From ∈ S) (heTS : e.To ∉ S) :
    ∃ (f : Edge α) (T2 : Multiset (Edge α)), T = f ::ₘ T2
      ∧ ((f.From ∈ S ∧ f.To ∉ S) ∨ (f.To ∈ S ∧ f.From ∉ S))
      ∧ ∀ x ∈ D, ∀ y ∈ D, EConn (e ::ₘ T2) x y := by
  obtain ⟨p, hp, hnd⟩ := epath_nodup (hspan e.From heF e.To heT)
  obtain ⟨p1, f, p2, a, b, hsplit, h1, hfT, ho, haS, hbS, h2⟩ :=
    epath_cross_split hp heFS heTS
  subst hsplit
  rw [List.nodup_append] at hnd
  obtain ⟨hnd1, hnd2, hdisj⟩ := hnd
  have hfp1 : f ∉ p1 := fun hmem => hdisj hmem (List.mem_cons_self f p2)
  have hfp2 : f ∉ p2 := (List.nodup_cons.1 hnd2).1
  obtain ⟨T2, hT2⟩ := Multiset.exists_cons_of_mem hfT
  have hmemT2 : ∀ q, q ∈ T → q ≠ f → q ∈ T2 := by
    intro q hq hqf
    rw [hT2] at hq
    rcases Multiset.mem_cons.1 hq with h | h
    · exact absurd h hqf
    · exact h
  have hsurv1 : ∀ q ∈ p1, q ∈ e ::ₘ T2 := by
    intro q hq
    exact Multiset.mem_cons_of_mem
      (hmemT2 q (epath_mem h1 q hq) (fun hEq => hfp1 (hEq ▸ hq)))
  have hsurv2 : ∀ q ∈ p2, q ∈ e ::ₘ T2 := by
    intro q hq
    exact Multiset.mem_cons_of_mem
      (hmemT2 q (epath_mem h2 q hq) (fun hEq => hfp2 (hEq ▸ hq)))
  have h1' : EPath (e ::ₘ T2) e.From a p1 := epath_change_mem h1 hsurv1
  have h2' : EPath (e ::ₘ T2) b e.To p2 := epath_change_mem h2 hsurv2
  have hbridge_ab : EConn (e ::ₘ T2) a b :=
    (econn_symm' (econn_of_epath h1')).trans
      ((Relation.ReflTransGen.single
          ⟨e, Multiset.mem_cons_self e _, Or.inl ⟨rfl, rfl⟩⟩).trans
        (econn_symm' (econn_of_epath h2')))
  have hbridge : EConn (e ::ₘ T2) f.From f.To := by
    rcases ho with ⟨hf1, ht1⟩ | ⟨hf1, ht1⟩
    · rw [hf1, ht1]
      exact hbridge_ab
    · rw [hf1, ht1]
      exact econn_symm' hbridge_ab
  refine ⟨f, T2, hT2, ?_, ?_⟩
  · rcases ho with ⟨hf1, ht1⟩ | ⟨hf1, ht1⟩
    · refine Or.inl ⟨?_, ?_⟩
      · rw [hf1]
        exact haS
      · rw [ht1]
        exact hbS
    · refine Or.inr ⟨?_, ?_⟩
      · rw [ht1]
        exact haS
      · rw [hf1]
        exact hbS
  · intro x hx y hy
    exact econn_reroute hT2 hbridge (hspan x hx y hy)

/-- Folding `Union` over an edge list merges every listed edge's endpoints
while dropping at most one root class per edge. -/
theorem unionFold_spec {α : Type u} (D : Finset Int) :
    ∀ (ts : List (Edge α)) (uf : UnionFind), POk uf.parent →
    ∃ uf2 : UnionFind, POk uf2.parent
      ∧ (∀ t ∈ ts, rootD uf2.parent t.From = rootD uf2.parent t.To)
      ∧ (∀ x y : Int, rootD uf.parent x = rootD uf.parent y →
          rootD uf2.parent x = rootD uf2.parent y)
      ∧ (D.image (rootD uf.parent)).card
          ≤ (D.image (rootD uf2.parent)).card + ts.length := by
  intro ts
  induction ts with
  | nil =>
    intro uf hpok
    exact ⟨uf, hpok, fun t ht => absurd ht (List.not_mem_nil t),
      fun x y h => h, by omega⟩
  | cons t rest ih =>
    intro uf hpok
    obtain ⟨uf1, s, hun, hpok1, hcases⟩ := union_spec t.From t.To hpok
    obtain ⟨uf2, hpok2, hmerged, hmono, hcard⟩ := ih uf1 hpok1
    have hmono1 : ∀ x y : Int, rootD uf.parent x = rootD uf.parent y →
        rootD uf1.parent x = rootD uf1.parent y := by
      intro x y h
      rcases hcases with ⟨-, -, hsame⟩ | ⟨-, -, wn, ls, -, hroot⟩
      · rw [hsame, hsame, h]
      · rw [hroot, hroot, h]
    have ht1 : rootD uf1.parent t.From = rootD uf1.parent t.To := by
      rcases hcases with ⟨-, heq, hsame⟩ | ⟨-, hneq, wn, ls, hwl, hroot⟩
      · rw [hsame, hsame]
        exact heq
      · rw [hroot t.From, hroot t.To]
        rcases hwl with ⟨hwa, hlb⟩ | ⟨hwb, hla⟩
        · have hcF : ¬ (rootD uf.parent t.From = ls) := by
            rw [hlb]
            exact hneq
          rw [if_neg hcF, if_pos hlb.symm, hwa]
        · have hcT : ¬ (rootD uf.parent t.To = ls) := by
            rw [hla]
            exact fun hEq => hneq hEq.symm
          rw [if_pos hla.symm, if_neg hcT, hwb]
    refine ⟨uf2, hpok2, ?_, fun x y h => hmono x y (hmono1 x y h), ?_⟩
    · intro t' ht'
      rcases List.mem_cons.1 ht' with h | h
      · rw [h]
        exact hmono t.From t.To ht1
      · exact hmerged t' h
    · have hstep : (D.image (rootD uf.parent)).card
          ≤ (D.image (rootD uf1.parent)).card + 1 := by
        rcases hcases with ⟨-, -, hsame⟩ | ⟨-, -, wn, ls, -, hroot⟩
        · have himg : D.image (rootD uf1.parent) = D.image (rootD uf.parent) :=
            Finset.image_congr (fun x _ => hsame x)
          rw [himg]
          omega
        · have hsub : D.image (rootD uf.parent)
              ⊆ insert ls (D.image (rootD uf1.parent)) := by
            intro r hr
            obtain ⟨x, hx, hrx⟩ := Finset.mem_image.1 hr
            by_cases hrl : r = ls
            · rw [hrl]
              exact Finset.mem_insert_self _ _
            · refine Finset.mem_insert_of_mem (Finset.mem_image.2 ⟨x, hx, ?_⟩)
              rw [hroot x, hrx, if_neg hrl]
          have h1 := Finset.card_le_card hsub
          have h2 := Finset.card_insert_le ls (D.image (rootD uf1.parent))
          omega
      simp only [List.length_cons]
      omega

/-- A collection that connects every pair of a nonempty domain has at least
`|D| - 1` members. -/
theorem spans_card {α : Type u} {D : Finset Int} (hne : D.Nonempty)
    {T : Multiset (Edge α)} (hspan : ∀ x ∈ D, ∀ y ∈ D, EConn T x y) :
    D.card ≤ Multiset.card T + 1 := by
  obtain ⟨hdom0, hid0⟩ := makeSet_fold_id (D.sort (· ≤ ·)) NewUnionFind
    (fun x hx => absurd hx (Finset.not_mem_empty x))
  have hdomD : (List.foldl UnionFind.MakeSet NewUnionFind
      (D.sort (· ≤ ·))).parent.dom = D := by
    rw [hdom0, Finset.sort_toFinset]
    exact Finset.empty_union D
  have hpok0 : POk (List.foldl UnionFind.MakeSet NewUnionFind
      (D.sort (· ≤ ·))).parent := pok_of_id_parent hid0
  have hroot0 : ∀ x ∈ D, rootD (List.foldl UnionFind.MakeSet NewUnionFind
      (D.sort (· ≤ ·))).parent x = x := by
    intro x hx
    apply rootD_eq hpok0
    apply Rooted.root
    apply hid0
    rw [hdomD]
    exact hx
  have himg0 : D.image (rootD (List.foldl UnionFind.MakeSet NewUnionFind
      (D.sort (· ≤ ·))).parent) = D := by
    ext r
    simp only [Finset.mem_image]
    constructor
    · rintro ⟨x, hx, hr⟩
      rw [hroot0 x hx] at hr
      rw [← hr]
      exact hx
    · intro hr
      exact ⟨r, hr, hroot0 r hr⟩
  obtain ⟨uf2, hpok2, hmerged, hmono, hcard⟩ :=
    unionFold_spec D T.toList _ hpok0
  have hstep : ∀ x y : Int, EStep T x y →
      rootD uf2.parent x = rootD uf2.parent y := by
    rintro x y ⟨t, htT, ho⟩
    have htl : t ∈ T.toList := by
      rw [Multiset.mem_toList]
      exact htT
    have hme := hmerged t htl
    rcases ho with ⟨hf, ht⟩ | ⟨hf, ht⟩
    · rw [← hf, ← ht]
      exact hme
    · rw [← hf, ← ht]
      exact hme.symm
  have hconn : ∀ x y : Int, EConn T x y →
      rootD uf2.parent x = rootD uf2.parent y := by
    intro x y h
    induction h with
    | refl => rfl
    | tail _ hs ih => exact ih.trans (hstep _ _ hs)
  obtain ⟨x0, hx0⟩ := hne
  have himg2 : D.image (rootD uf2.parent) = {rootD uf2.parent x0} := by
    ext r
    simp only [Finset.mem_image, Finset.mem_singleton]
    constructor
    · rintro ⟨x, hx, hr⟩
      rw [← hr]
      exact (hconn x0 x (hspan x0 hx0 x hx)).symm
    · intro hr
      exact ⟨x0, hx0, hr.symm⟩
  rw [himg0, himg2, Finset.card_singleton, Multiset.length_toList] at hcard
  omega

/-- Removing an edge whose endpoints stay bridged preserves connections. -/
theorem econn_remove {α : Type u} {T T2 : Multiset (Edge α)} {f : Edge α}
    (hT : T = f ::ₘ T2) (hbridge : EConn T2 f.From f.To) :
    ∀ {x y : Int}, EConn T x y → EConn T2 x y := by
  intro x y h
  induction h with
  | refl => exact Relation.ReflTransGen.refl
  | tail _ hstep ih =>
    obtain ⟨g', hg, ho⟩ := hstep
    rw [hT] at hg
    rcases Multiset.mem_cons.1 hg with hgef | hgT2
    · subst hgef
      refine Relation.ReflTransGen.trans ih ?_
      rcases ho with ⟨hf1, ht1⟩ | ⟨hf1, ht1⟩
      · rw [← hf1, ← ht1]
        exact hbridge
      · rw [← hf1, ← ht1]
        exact econn_symm' hbridge
    · exact ih.tail ⟨g', hgT2, ho⟩

/-- A spanning collection of minimal size cannot contain an edge whose
endpoints are bridged without it. -/
theorem tree_no_extra {α : Type u} {D : Finset Int} (hne : D.Nonempty)
    {Tstar T2 : Multiset (Edge α)} {e : Edge α} (hT : Tstar = e ::ₘ T2)
    (hcard : Multiset.card Tstar + 1 = D.card)
    (hspan : ∀ x ∈ D, ∀ y ∈ D, EConn Tstar x y)
    (hbridge : EConn T2 e.From e.To) : False := by
  have hspan2 : ∀ x ∈ D, ∀ y ∈ D, EConn T2 x y :=
    fun x hx y hy => econn_remove hT hbridge (hspan x hx y hy)
  have hcard2 := spans_card hne hspan2
  rw [hT] at hcard
  simp only [Multiset.card_cons] at hcard
  omega

theorem msWeight_cons {α : Type u} (e : Edge α) (T : Multiset (Edge α)) :
    msWeight (e ::ₘ T) = e.Weight + msWeight T := by
  unfold msWeight
  rw [Multiset.map_cons, Multiset.sum_cons]

theorem mset_append_singleton {α : Type u} (mst : List (Edge α)) (e : Edge α) :
    (↑(mst ++ [e]) : Multiset (Edge α)) = e ::ₘ (↑mst : Multiset (Edge α)) := by
  rw [Multiset.cons_coe]
  exact Multiset.coe_eq_coe.2 (List.perm_append_singleton e mst)

/-- The Kruskal loop never exceeds the weight of any spanning tree: the
classic promise argument, carrying a candidate spanning tree that contains
every accepted edge, stays inside the unprocessed edges, and never gets
heavier. -/
theorem kruskalLoop_weight {α : Type u} [Inhabited α] {g : Graph α}
    (hne : g.Vertices.dom.Nonempty) (W0 : Int) :
    ∀ (es : List (Edge α)) (uf : UnionFind) (mst : List (Edge α)) (w : Int)
      (Tstar : Multiset (Edge α)),
    es.Pairwise (fun a b => a.Weight ≤ b.Weight) →
    (∀ e ∈ es, e.From ∈ g.Vertices.dom ∧ e.To ∈ g.Vertices.dom) →
    POk uf.parent →
    (∀ x ∈ g.Vertices.dom, ∀ y ∈ g.Vertices.dom,
        rootD uf.parent x = rootD uf.parent y →
        EConn (↑mst : Multiset (Edge α)) x y) →
    (∀ c ∈ mst, rootD uf.parent c.From = rootD uf.parent c.To) →
    mst.length + (g.Vertices.dom.image (rootD uf.parent)).card
        = g.Vertices.dom.card →
    (↑mst : Multiset (Edge α)) ≤ Tstar →
    Multiset.card Tstar + 1 = g.Vertices.dom.card →
    (∀ x ∈ g.Vertices.dom, ∀ y ∈ g.Vertices.dom, EConn Tstar x y) →
    (∀ t ∈ Tstar, t.From ∈ g.Vertices.dom ∧ t.To ∈ g.Vertices.dom) →
    Tstar ≤ (↑mst : Multiset (Edge α)) + (↑es : Multiset (Edge α)) →
    msWeight Tstar ≤ W0 →
    w = msWeight (↑mst : Multiset (Edge α)) →
    ∃ mst2 w2, g.kruskalLoop es uf mst w = Res.ok (mst2, w2) ∧ w2 ≤ W0 := by
  intro es
  induction es with
  | nil =>
    intro uf mst w Tstar _ _ _ _ _ _ hsubC _ _ _ hTsub hwT hw
    refine ⟨mst, w, rfl, ?_⟩
    have hTeq : Tstar = (↑mst : Multiset (Edge α)) := by
      refine le_antisymm ?_ hsubC
      simpa using hTsub
    rw [hw, ← hTeq]
    exact hwT
  | cons e rest ih =>
    intro uf mst w Tstar hsort hes hpok R1 R2 hcount hsubC hcardT hspanT hTmem
      hTsub hwT hw
    obtain ⟨heF, heT⟩ := hes e (List.mem_cons_self e rest)
    have hehead := (List.pairwise_cons.1 hsort).1
    have hsort' := (List.pairwise_cons.1 hsort).2
    have hes' : ∀ x ∈ rest, x.From ∈ g.Vertices.dom ∧ x.To ∈ g.Vertices.dom :=
      fun x hx => hes x (List.mem_cons_of_mem e hx)
    have hcoe_er : (↑(e :: rest) : Multiset (Edge α))
        = e ::ₘ (↑rest : Multiset (Edge α)) := (Multiset.cons_coe e rest).symm
    obtain ⟨uf', s, hun, hpok', hcases⟩ := union_spec e.From e.To hpok
    rw [kruskalLoop_cons, hun]
    rcases hcases with ⟨hs, heqR, hsame⟩ | ⟨hs, hneq, wn, ls, hwl, hroot⟩
    · -- rejected edge: roots already equal
      subst hs
      have R1' : ∀ x ∈ g.Vertices.dom, ∀ y ∈ g.Vertices.dom,
          rootD uf'.parent x = rootD uf'.parent y →
          EConn (↑mst : Multiset (Edge α)) x y := by
        intro x hx y hy heq
        rw [hsame x, hsame y] at heq
        exact R1 x hx y hy heq
      have R2' : ∀ c ∈ mst, rootD uf'.parent c.From = rootD uf'.parent c.To := by
        intro c hc
        rw [hsame, hsame]
        exact R2 c hc
      have hcount' : mst.length
          + (g.Vertices.dom.image (rootD uf'.parent)).card
          = g.Vertices.dom.card := by
        have himg : g.Vertices.dom.image (rootD uf'.parent)
            = g.Vertices.dom.image (rootD uf.parent) :=
          Finset.image_congr (fun x _ => hsame x)
        rw [himg]
        exact hcount
      have hbridgeC : EConn (↑mst : Multiset (Edge α)) e.From e.To :=
        R1 e.From heF e.To heT heqR
      have hTsub' : Tstar ≤ (↑mst : Multiset (Edge α)) + (↑rest) := by
        classical
        by_cases hcnt : Multiset.count e Tstar
            ≤ Multiset.count e (↑mst : Multiset (Edge α))
        · rw [Multiset.le_iff_count]
          intro q
          have h1 := Multiset.le_iff_count.1 hTsub q
          rw [Multiset.count_add] at h1 ⊢
          by_cases hq : q = e
          · subst hq
            have := Multiset.count_le_of_le q hsubC
            omega
          · rw [hcoe_er, Multiset.count_cons_of_ne hq] at h1
            exact h1
        · exfalso
          push_neg at hcnt
          have heTst : e ∈ Tstar :=
            Multiset.count_pos.1 (lt_of_le_of_lt (Nat.zero_le _) hcnt)
          have hT2 : Tstar = e ::ₘ Tstar.erase e := (Multiset.cons_erase heTst).symm
          have hCle : (↑mst : Multiset (Edge α)) ≤ Tstar.erase e := by
            rw [Multiset.le_iff_count]
            intro q
            by_cases hq : q = e
            · subst hq
              rw [Multiset.count_erase_self]
              omega
            · rw [Multiset.count_erase_of_ne hq]
              exact Multiset.le_iff_count.1 hsubC q
          have hbridge2 : EConn (Tstar.erase e) e.From e.To :=
            econn_mono (fun q hq => Multiset.mem_of_le hCle hq) hbridgeC
          exact tree_no_extra hne hT2 hcardT hspanT hbridge2
      exact ih uf' mst w Tstar hsort' hes' hpok' R1' R2' hcount' hsubC hcardT
        hspanT hTmem hTsub' hwT hw
    · -- accepted edge: roots differ, merge happens
      subst hs
      have heC : e ∉ mst := fun hmem => hneq (R2 e hmem)
      have hwn_ne : wn ≠ ls := by
        rcases hwl with ⟨hwa, hlb⟩ | ⟨hwb, hla⟩
        · rw [hwa, hlb]
          exact hneq
        · rw [hwb, hla]
          exact fun hEq => hneq hEq.symm
      have hmerged : rootD uf'.parent e.From = rootD uf'.parent e.To := by
        rw [hroot e.From, hroot e.To]
        rcases hwl with ⟨hwa, hlb⟩ | ⟨hwb, hla⟩
        · have hcF : ¬ (rootD uf.parent e.From = ls) := by
            rw [hlb]
            exact hneq
          rw [if_neg hcF, if_pos hlb.symm, hwa]
        · have hcT : ¬ (rootD uf.parent e.To = ls) := by
            rw [hla]
            exact fun hEq => hneq hEq.symm
          rw [if_pos hla.symm, if_neg hcT, hwb]
      have hmono_mst : ∀ x y : Int, EConn (↑mst : Multiset (Edge α)) x y →
          EConn (↑(mst ++ [e]) : Multiset (Edge α)) x y := by
        intro x y h
        refine econn_mono ?_ h
        intro q hq
        rw [mset_append_singleton]
        exact Multiset.mem_cons_of_mem hq
      have hstepE : EConn (↑(mst ++ [e]) : Multiset (Edge α)) e.From e.To := by
        refine Relation.ReflTransGen.single ⟨e, ?_, Or.inl ⟨rfl, rfl⟩⟩
        rw [mset_append_singleton]
        exact Multiset.mem_cons_self e _
      have R1' : ∀ x ∈ g.Vertices.dom, ∀ y ∈ g.Vertices.dom,
          rootD uf'.parent x = rootD uf'.parent y →
          EConn (↑(mst ++ [e]) : Multiset (Edge α)) x y := by
        intro x hx y hy heq
        rw [hroot x, hroot y] at heq
        have hstepFT : ∀ z ∈ g.Vertices.dom, ∀ t ∈ g.Vertices.dom,
            rootD uf.parent z = ls → rootD uf.parent t = wn →
            EConn (↑(mst ++ [e]) : Multiset (Edge α)) z t := by
          intro z hz t ht hzl htw
          rcases hwl with ⟨hwa, hlb⟩ | ⟨hwb, hla⟩
          · have hzT : EConn (↑mst : Multiset (Edge α)) z e.To :=
              R1 z hz e.To heT (by rw [hzl, hlb])
            have htF : EConn (↑mst : Multiset (Edge α)) t e.From :=
              R1 t ht e.From heF (by rw [htw, hwa])
            exact ((hmono_mst _ _ hzT).trans (econn_symm' hstepE)).trans
              (econn_symm' (hmono_mst _ _ htF))
          · have hzF : EConn (↑mst : Multiset (Edge α)) z e.From :=
              R1 z hz e.From heF (by rw [hzl, hla])
            have htT : EConn (↑mst : Multiset (Edge α)) t e.To :=
              R1 t ht e.To heT (by rw [htw, hwb])
            exact ((hmono_mst _ _ hzF).trans hstepE).trans
              (econn_symm' (hmono_mst _ _ htT))
        by_cases hxl : rootD uf.parent x = ls <;>
          by_cases hyl : rootD uf.parent y = ls
        · exact hmono_mst _ _ (R1 x hx y hy (hxl.trans hyl.symm))
        · rw [if_pos hxl, if_neg hyl] at heq
          exact hstepFT x hx y hy hxl heq.symm
        · rw [if_neg hxl, if_pos hyl] at heq
          exact econn_symm' (hstepFT y hy x hx hyl heq)
        · rw [if_neg hxl, if_neg hyl] at heq
          exact hmono_mst _ _ (R1 x hx y hy heq)
      have R2' : ∀ c ∈ mst ++ [e],
          rootD uf'.parent c.From = rootD uf'.parent c.To := by
        intro c hc
        rcases List.mem_append.1 hc with h | h
        · have hcr := R2 c h
          rw [hroot, hroot, hcr]
        · rw [List.mem_singleton.1 h]
          exact hmerged
      have hls_img : ls ∈ g.Vertices.dom.image (rootD uf.parent) := by
        rcases hwl with ⟨-, hlb⟩ | ⟨-, hla⟩
        · rw [hlb]
          exact Finset.mem_image_of_mem _ heT
        · rw [hla]
          exact Finset.mem_image_of_mem _ heF
      have himg : g.Vertices.dom.image (rootD uf'.parent)
          = (g.Vertices.dom.image (rootD uf.parent)).erase ls := by
        ext r
        simp only [Finset.mem_image, Finset.mem_erase]
        constructor
        · rintro ⟨x, hx, hr⟩
          rw [hroot x] at hr
          by_cases hxl : rootD uf.parent x = ls
          · rw [if_pos hxl] at hr
            rw [← hr]
            refine ⟨hwn_ne, ?_⟩
            rcases hwl with ⟨hwa, -⟩ | ⟨hwb, -⟩
            · exact ⟨e.From, heF, hwa.symm⟩
            · exact ⟨e.To, heT, hwb.symm⟩
          · rw [if_neg hxl] at hr
            rw [← hr]
            exact ⟨hxl, x, hx, rfl⟩
        · rintro ⟨hrl, x, hx, hr⟩
          refine ⟨x, hx, ?_⟩
          rw [hroot x, hr, if_neg hrl]
      have hcount' : (mst ++ [e]).length
          + (g.Vertices.dom.image (rootD uf'.parent)).card
          = g.Vertices.dom.card := by
        have hpos : 0 < (g.Vertices.dom.image (rootD uf.parent)).card :=
          Finset.card_pos.2 ⟨ls, hls_img⟩
        rw [himg, Finset.card_erase_of_mem hls_img, List.length_append,
          List.length_singleton]
        omega
      -- update the promise tree
      have hTst' : ∃ Tst' : Multiset (Edge α),
          (↑(mst ++ [e]) : Multiset (Edge α)) ≤ Tst'
          ∧ Multiset.card Tst' + 1 = g.Vertices.dom.card
          ∧ (∀ x ∈ g.Vertices.dom, ∀ y ∈ g.Vertices.dom, EConn Tst' x y)
          ∧ (∀ t ∈ Tst', t.From ∈ g.Vertices.dom ∧ t.To ∈ g.Vertices.dom)
          ∧ Tst' ≤ (↑(mst ++ [e]) : Multiset (Edge α)) + (↑rest)
          ∧ msWeight Tst' ≤ W0 := by
        by_cases heTst : e ∈ Tstar
        · refine ⟨Tstar, ?_, hcardT, hspanT, hTmem, ?_, hwT⟩
          · rw [mset_append_singleton]
            obtain ⟨u, hu⟩ := Multiset.le_iff_exists_add.1 hsubC
            have heu : e ∈ u := by
              rw [hu] at heTst
              rcases Multiset.mem_add.1 heTst with h | h
              · exact absurd (Multiset.mem_coe.1 h) heC
              · exact h
            obtain ⟨u', hu'⟩ := Multiset.exists_cons_of_mem heu
            rw [hu, hu', Multiset.add_cons]
            exact Multiset.cons_le_cons e (Multiset.le_add_right _ _)
          · rw [mset_append_singleton]
            rw [hcoe_er] at hTsub
            calc Tstar ≤ (↑mst : Multiset (Edge α)) + e ::ₘ (↑rest) := hTsub
              _ = e ::ₘ ((↑mst : Multiset (Edge α)) + ↑rest) := by
                  rw [Multiset.add_cons]
              _ = (e ::ₘ (↑mst : Multiset (Edge α))) + ↑rest := by
                  rw [Multiset.cons_add]
        · -- exchange along the cut of `e.From`'s current class
          have heFS : e.From ∈ g.Vertices.dom.filter
              (fun z => rootD uf.parent z = rootD uf.parent e.From) :=
            Finset.mem_filter.2 ⟨heF, rfl⟩
          have heTS : e.To ∉ g.Vertices.dom.filter
              (fun z => rootD uf.parent z = rootD uf.parent e.From) :=
            fun h => hneq (Finset.mem_filter.1 h).2.symm
          obtain ⟨f, T2, hT2, hcross, hspan2⟩ :=
            spanning_exchange hspanT heF heT heFS heTS
          have hfD : f.From ∈ g.Vertices.dom ∧ f.To ∈ g.Vertices.dom :=
            hTmem f (by rw [hT2]; exact Multiset.mem_cons_self f T2)
          have hfroots : rootD uf.parent f.From ≠ rootD uf.parent f.To := by
            rcases hcross with ⟨h1, h2⟩ | ⟨h1, h2⟩
            · intro hEq
              apply h2
              refine Finset.mem_filter.2 ⟨hfD.2, ?_⟩
              rw [← hEq]
              exact (Finset.mem_filter.1 h1).2
            · intro hEq
              apply h2
              refine Finset.mem_filter.2 ⟨hfD.1, ?_⟩
              rw [hEq]
              exact (Finset.mem_filter.1 h1).2
          have hfC : f ∉ mst := fun hmem => hfroots (R2 f hmem)
          have hfe : f ≠ e := fun hEq => heTst (by
            rw [← hEq, hT2]
            exact Multiset.mem_cons_self f T2)
          have hfrest : f ∈ rest := by
            have hfTst : f ∈ Tstar := by
              rw [hT2]
              exact Multiset.mem_cons_self f T2
            have hmem := Multiset.mem_of_le hTsub hfTst
            rcases Multiset.mem_add.1 hmem with h | h
            · exact absurd (Multiset.mem_coe.1 h) hfC
            · rcases List.mem_cons.1 (Multiset.mem_coe.1 h) with h' | h'
              · exact absurd h' hfe
              · exact h'
          have hwef : e.Weight ≤ f.Weight := hehead f hfrest
          have hcardTstar : Multiset.card Tstar = Multiset.card T2 + 1 := by
            rw [hT2]
            simp [Multiset.card_cons]
          refine ⟨e ::ₘ T2, ?_, ?_, hspan2, ?_, ?_, ?_⟩
          · rw [mset_append_singleton]
            refine Multiset.cons_le_cons e ?_
            obtain ⟨u, hu⟩ := Multiset.le_iff_exists_add.1 hsubC
            rw [hT2] at hu
            have hfu : f ∈ u := by
              have : f ∈ (↑mst : Multiset (Edge α)) + u := by
                rw [← hu]
                exact Multiset.mem_cons_self f T2
              rcases Multiset.mem_add.1 this with h | h
              · exact absurd (Multiset.mem_coe.1 h) hfC
              · exact h
            obtain ⟨u', hu'⟩ := Multiset.exists_cons_of_mem hfu
            rw [hu', Multiset.add_cons] at hu
            have hT2eq : T2 = (↑mst : Multiset (Edge α)) + u' :=
              (Multiset.cons_inj_right f).1 hu
            rw [hT2eq]
            exact Multiset.le_add_right _ _
          · simp only [Multiset.card_cons]
            omega
          · intro t ht
            rcases Multiset.mem_cons.1 ht with h | h
            · rw [h]
              exact ⟨heF, heT⟩
            · exact hTmem t (by rw [hT2]; exact Multiset.mem_cons_of_mem h)
          · rw [mset_append_singleton, Multiset.cons_add]
            refine Multiset.cons_le_cons e ?_
            rw [hT2, hcoe_er] at hTsub
            have heT2 : e ∉ f ::ₘ T2 := by
              rw [← hT2]
              exact heTst
            obtain ⟨u, hu⟩ := Multiset.le_iff_exists_add.1 hTsub
            have heu : e ∈ u := by
              have : e ∈ (f ::ₘ T2) + u := by
                rw [← hu]
                exact Multiset.mem_add.2 (Or.inr (Multiset.mem_cons_self e _))
              rcases Multiset.mem_add.1 this with h | h
              · exact absurd h heT2
              · exact h
            obtain ⟨u', hu'⟩ := Multiset.exists_cons_of_mem heu
            rw [hu', Multiset.add_cons, Multiset.add_cons] at hu
            have hEq : (↑mst : Multiset (Edge α)) + ↑rest = (f ::ₘ T2) + u' :=
              (Multiset.cons_inj_right e).1 hu
            calc T2 ≤ f ::ₘ T2 := Multiset.le_cons_self T2 f
              _ ≤ (f ::ₘ T2) + u' := Multiset.le_add_right _ _
              _ = (↑mst : Multiset (Edge α)) + ↑rest := hEq.symm
          · have h1 : msWeight Tstar = f.Weight + msWeight T2 := by
              rw [hT2, msWeight_cons]
            rw [msWeight_cons]
            omega
      obtain ⟨Tst', hsubC', hcardT', hspanT', hTmem', hTsub', hwT'⟩ := hTst'
      have hw' : w + e.Weight = msWeight (↑(mst ++ [e]) : Multiset (Edge α)) := by
        rw [mset_append_singleton, msWeight_cons, hw]
        omega
      show ∃ mst2 w2,
        (if ((mst ++ [e]).length : Int) = (g.VertexCount : Int) - 1 then
            Res.ok (mst ++ [e], w + e.Weight)
          else g.kruskalLoop rest uf' (mst ++ [e]) (w + e.Weight))
          = Res.ok (mst2, w2)
        ∧ w2 ≤ W0
      by_cases hexit : ((mst ++ [e]).length : Int) = (g.VertexCount : Int) - 1
      · rw [if_pos hexit]
        refine ⟨mst ++ [e], w + e.Weight, rfl, ?_⟩
        have hVC : g.VertexCount = g.Vertices.dom.card := rfl
        rw [hVC] at hexit
        have hlen : (mst ++ [e]).length + 1 = g.Vertices.dom.card := by
          have hpos : 0 < g.Vertices.dom.card := Finset.card_pos.2 hne
          omega
        have hcardle : Multiset.card Tst'
            ≤ Multiset.card (↑(mst ++ [e]) : Multiset (Edge α)) := by
          rw [Multiset.coe_card]
          omega
        have hTeq : (↑(mst ++ [e]) : Multiset (Edge α)) = Tst' :=
          Multiset.eq_of_le_of_card_le hsubC' hcardle
        rw [hw', hTeq]
        exact hwT'
      · rw [if_neg hexit]
        exact ih uf' (mst ++ [e]) (w + e.Weight) Tst' hsort' hes' hpok' R1' R2'
          hcount' hsubC' hcardT' hspanT' hTmem' hTsub' hwT' hw'

theorem adjPair_base {α : Type u} [Inhabited α] :
    AdjPair (NewGraph false : Graph α) := by
  intro id hid
  exact absurd hid (by simp [NewGraph, GoMap.empty])

theorem adjPair_set_fresh {α : Type u} [Inhabited α] {g g' : Graph α}
    (hG : GInv g) (hA : AdjPair g) (id0 : Int) (name : String) (data : α)
    (hmem : id0 ∉ g.Vertices.dom)
    (hV : g'.Vertices = g.Vertices.set id0 (freshVertex id0 name data)) :
    AdjPair g' := by
  have hfn : ∀ z, g'.Vertices.fn z
      = if z = id0 then freshVertex id0 name data else g.Vertices.fn z := by
    intro z
    rw [hV]
    rfl
  have hdom : g'.Vertices.dom = insert id0 g.Vertices.dom := by
    rw [hV]
    rfl
  intro id hid a ha
  rw [hfn] at ha
  by_cases hz : id = id0
  · rw [if_pos hz] at ha
    exact absurd ha (by simp [freshVertex])
  · rw [if_neg hz] at ha
    rw [hdom] at hid
    rcases Finset.mem_insert.1 hid with h' | h'
    · exact absurd h' hz
    · have hto : a.To ∈ g.Vertices.dom := hG.adjToDom id h' a ha
      have hne : a.To ≠ id0 := fun hc => hmem (hc ▸ hto)
      rw [hfn, if_neg hne]
      exact hA id h' a ha

theorem adjPair_addVertex {α : Type u} [Inhabited α] {g : Graph α}
    (hG : GInv g) (hA : AdjPair g) (id0 : Int) (name : String) (data : α) :
    AdjPair (g.AddVertex (freshVertex id0 name data)).1 := by
  by_cases hmem : id0 ∈ g.Vertices.dom
  · cases hl : g.Vertices.lookup id0 with
    | none => exact absurd hmem (GoMap.not_mem_of_lookup_none hl)
    | some v0 =>
      rw [@addVertex_eq_present α g (freshVertex id0 name data) v0 hl]
      exact hA
  · exact adjPair_set_fresh hG hA id0 name data hmem
      (by rw [@addVertex_eq_absent α g (freshVertex id0 name data) hmem]; rfl)

theorem adjPair_addEndpoints {α : Type u} [Inhabited α] {g : Graph α}
    (hG : GInv g) (hA : AdjPair g) {ef et : Vertex α}
    (hf : ef.Edges = []) (ht : et.Edges = []) (w : Int) (d : α) :
    AdjPair (g.addEndpoints ⟨ef, et, w, d⟩).1 := by
  have hef : ef = freshVertex ef.ID ef.Name ef.Data := by
    cases ef
    simp only [freshVertex] at hf ⊢
    rw [hf]
  have het : et = freshVertex et.ID et.Name et.Data := by
    cases et
    simp only [freshVertex] at ht ⊢
    rw [ht]
  unfold Graph.addEndpoints
  cases hfl : Graph.GetVertex g ef.ID with
  | some vf =>
    cases htl : Graph.GetVertex g et.ID with
    | some vt => exact hA
    | none =>
      simp only
      rw [het]
      exact adjPair_addVertex hG hA et.ID et.Name et.Data
  | none =>
    have h1G : GInv (g.AddVertex ef).1 := by
      rw [hef]
      exact ginv_addVertex hG ef.ID ef.Name ef.Data
    have h1A : AdjPair (g.AddVertex ef).1 := by
      rw [hef]
      exact adjPair_addVertex hG hA ef.ID ef.Name ef.Data
    cases htl : Graph.GetVertex g et.ID with
    | some vt => exact h1A
    | none =>
      simp only
      rw [het]
      exact adjPair_addVertex h1G h1A et.ID et.Name et.Data

theorem adjPair_push_both {α : Type u} [Inhabited α] {g2 : Graph α}
    (hA2 : AdjPair g2) {F T : Int}
    (hmF : F ∈ g2.Vertices.dom) (hmT : T ∈ g2.Vertices.dom)
    (w : Int) (d : α) {g' : Graph α}
    (hV : g'.Vertices
      = (g2.Vertices.set F (pushEdge (g2.Vertices.get F) (Edge.mk F T w d))).set T
          (pushEdge
            ((g2.Vertices.set F
                (pushEdge (g2.Vertices.get F) (Edge.mk F T w d))).get T)
            (Edge.mk T F w d))) :
    AdjPair g' := by
  have hgetF : g2.Vertices.get F = g2.Vertices.fn F := by
    unfold GoMap.get
    rw [if_pos hmF]
  have hget4T : (g2.Vertices.set F
        (pushEdge (g2.Vertices.get F) (Edge.mk F T w d))).get T
      = if T = F then pushEdge (g2.Vertices.fn F) (Edge.mk F T w d)
        else g2.Vertices.fn T := by
    rw [GoMap.get_set]
    by_cases hTF : T = F
    · rw [if_pos hTF, if_pos hTF, hgetF]
    · rw [if_neg hTF, if_neg hTF]
      unfold GoMap.get
      rw [if_pos hmT]
  have hfn5 : ∀ z, g'.Vertices.fn z
      = if z = T then
          pushEdge
            ((g2.Vertices.set F
                (pushEdge (g2.Vertices.get F) (Edge.mk F T w d))).get T)
            (Edge.mk T F w d)
        else if z = F then pushEdge (g2.Vertices.get F) (Edge.mk F T w d)
        else g2.Vertices.fn z := by
    intro z
    rw [hV]
    rfl
  have hdom5 : g'.Vertices.dom = g2.Vertices.dom := by
    rw [hV, GoMap.dom_set, GoMap.dom_set,
      Finset.insert_eq_self.2 hmF, Finset.insert_eq_self.2 hmT]
  have hkeep : ∀ z, ∀ a ∈ (g2.Vertices.fn z).Edges, a ∈ (g'.Vertices.fn z).Edges := by
    intro z a ha
    rw [hfn5]
    by_cases hzT : z = T
    · rw [if_pos hzT, pushEdge_edges, hget4T]
      apply List.mem_append_left
      by_cases hTF : T = F
      · rw [if_pos hTF, pushEdge_edges]
        apply List.mem_append_left
        rw [← hTF, ← hzT]
        exact ha
      · rw [if_neg hTF, ← hzT]
        exact ha
    · rw [if_neg hzT]
      by_cases hzF : z = F
      · rw [if_pos hzF, pushEdge_edges, hgetF]
        apply List.mem_append_left
        rw [← hzF]
        exact ha
      · rw [if_neg hzF]
        exact ha
  have hsplit : ∀ z, ∀ a ∈ (g'.Vertices.fn z).Edges,
      a ∈ (g2.Vertices.fn z).Edges
      ∨ (a = Edge.mk F T w d ∧ (z = F ∨ (z = T ∧ T = F)))
      ∨ (a = Edge.mk T F w d ∧ z = T) := by
    intro z a ha
    rw [hfn5] at ha
    by_cases hzT : z = T
    · rw [if_pos hzT, pushEdge_edges, hget4T] at ha
      rcases List.mem_append.1 ha with h4 | hrev
      · by_cases hTF : T = F
        · rw [if_pos hTF, pushEdge_edges] at h4
          rcases List.mem_append.1 h4 with hold | hfwd
          · rw [hzT, hTF]
            exact Or.inl hold
          · exact Or.inr (Or.inl ⟨List.mem_singleton.1 hfwd, Or.inr ⟨hzT, hTF⟩⟩)
        · rw [if_neg hTF] at h4
          rw [hzT]
          exact Or.inl h4
      · exact Or.inr (Or.inr ⟨List.mem_singleton.1 hrev, hzT⟩)
    · rw [if_neg hzT] at ha
      by_cases hzF : z = F
      · rw [if_pos hzF, pushEdge_edges, hgetF] at ha
        rcases List.mem_append.1 ha with hold | hfwd
        · rw [hzF]
          exact Or.inl hold
        · exact Or.inr (Or.inl ⟨List.mem_singleton.1 hfwd, Or.inl hzF⟩)
      · rw [if_neg hzF] at ha
        exact Or.inl ha
  intro id hid a ha
  rcases hsplit id a ha with hold | ⟨hfa, -⟩ | ⟨hra, -⟩
  · rw [hdom5] at hid
    exact hkeep a.To a.Reverse (hA2 id hid a hold)
  · rw [hfa]
    show Edge.mk T F w d ∈ (g'.Vertices.fn T).Edges
    rw [hfn5, if_pos rfl, pushEdge_edges]
    exact List.mem_append_right _ (List.mem_singleton.2 rfl)
  · rw [hra]
    show Edge.mk F T w d ∈ (g'.Vertices.fn F).Edges
    rw [hfn5]
    by_cases hTF : F = T
    · rw [if_pos hTF, pushEdge_edges, hget4T, if_pos hTF.symm, pushEdge_edges]
      apply List.mem_append_left
      exact List.mem_append_right _ (List.mem_singleton.2 rfl)
    · rw [if_neg hTF, if_pos rfl, pushEdge_edges]
      exact List.mem_append_right _ (List.mem_singleton.2 rfl)

/-- Every adjacency entry of an API-built graph has its exact weight-preserving
reverse entry stored at the target — `AddEdge` writes the two together. -/
theorem built_adjPair {α : Type u} [Inhabited α] {g : Graph α} (h : Built g) :
    AdjPair g := by
  induction h with
  | base => exact adjPair_base
  | addV g0 id name data hb ih =>
    exact adjPair_addVertex (built_ginv hb) ih id name data
  | addE g0 ef et w d hfE htE hb ih =>
    have hG0 := built_ginv hb
    have hA2pre : AdjPair (g0.addEndpoints ⟨ef, et, w, d⟩).1 :=
      adjPair_addEndpoints hG0 ih hfE htE w d
    have hspec := addEndpoints_spec g0 ⟨ef, et, w, d⟩ hG0.idKey
    rcases hEP : g0.addEndpoints ⟨ef, et, w, d⟩ with ⟨g2, fromV, toV⟩
    rw [hEP] at hA2pre hspec
    simp only at hspec hA2pre
    obtain ⟨hf, ht, hE2, hD2, hmF, hmT, hK2, hpres⟩ := hspec
    rw [← hf] at hmF
    rw [← ht] at hmT
    have hAE := addEdge_core g0 ⟨ef, et, w, d⟩ hEP hG0.undirected
    refine adjPair_push_both hA2pre hmF hmT w d ?_
    rw [hAE]

/-- On a connected graph the Kruskal loop's output is a spanning collection:
`V-1` edges drawn from the unprocessed input, whose total weight is the
returned weight, connecting every pair of vertex identities. -/
theorem kruskalLoop_spanning {α : Type u} [Inhabited α] {g : Graph α}
    (hG : GInv g) {u0 : Int} (hu0 : u0 ∈ g.Vertices.dom)
    (hconn : ∀ x ∈ g.Vertices.dom, ∀ y ∈ g.Vertices.dom, g.Conn x y) :
    ∀ (es : List (Edge α)) (uf : UnionFind) (mst : List (Edge α)) (w : Int),
    (∀ e ∈ es, e.From ∈ g.Vertices.dom ∧ e.To ∈ g.Vertices.dom) →
    POk uf.parent →
    (∀ e ∈ g.Edges, e ∈ es ∨ rootD uf.parent e.From = rootD uf.parent e.To) →
    mst.length + (g.Vertices.dom.image (rootD uf.parent)).card
        = g.Vertices.dom.card →
    (∀ x ∈ g.Vertices.dom, ∀ y ∈ g.Vertices.dom,
        rootD uf.parent x = rootD uf.parent y →
        EConn (↑mst : Multiset (Edge α)) x y) →
    w = msWeight (↑mst : Multiset (Edge α)) →
    ∃ mst' w', g.kruskalLoop es uf mst w = Res.ok (mst', w')
      ∧ (mst'.length : Int) = (g.VertexCount : Int) - 1
      ∧ (↑mst' : Multiset (Edge α)) ≤ (↑mst : Multiset (Edge α)) + (↑es)
      ∧ w' = msWeight (↑mst' : Multiset (Edge α))
      ∧ (∀ x ∈ g.Vertices.dom, ∀ y ∈ g.Vertices.dom,
          EConn (↑mst' : Multiset (Edge α)) x y) := by
  intro es
  induction es with
  | nil =>
    intro uf mst w _ hpok hproc hcount R1 hw
    refine ⟨mst, w, rfl, ?_, by simp, hw, ?_⟩
    · have hadjroot : ∀ x y : Int, g.adjacent x y →
          rootD uf.parent x = rootD uf.parent y := by
        intro x y hadj
        obtain ⟨e, he, hto⟩ := hadj
        obtain ⟨hxd, hm⟩ := adjOf_mem_dest he
        have hxF : e.From = x := hG.adjFrom x hxd e hm
        rcases hG.adjEdge x hxd e hm with hE | ⟨e0, he0, hrev⟩
        · rcases hproc e hE with h | h
          · cases h
          · rw [← hxF, ← hto]
            exact h
        · rcases hproc e0 he0 with h | h
          · cases h
          · have hF : e.From = e0.To := by rw [hrev]; rfl
            have hT : e.To = e0.From := by rw [hrev]; rfl
            rw [← hxF, ← hto, hF, hT]
            exact h.symm
      have hconnroot : ∀ x y : Int, g.Conn x y →
          rootD uf.parent x = rootD uf.parent y := by
        intro x y hxy
        induction hxy with
        | refl => rfl
        | tail _ hadj ih => exact ih.trans (hadjroot _ _ hadj)
      have himg : g.Vertices.dom.image (rootD uf.parent)
          = {rootD uf.parent u0} := by
        ext r
        simp only [Finset.mem_image, Finset.mem_singleton]
        constructor
        · rintro ⟨x, hx, hr⟩
          rw [← hr]
          exact (hconnroot u0 x (hconn u0 hu0 x hx)).symm
        · intro hr
          exact ⟨u0, hu0, hr.symm⟩
      rw [himg, Finset.card_singleton] at hcount
      have hVC : g.VertexCount = g.Vertices.dom.card := rfl
      rw [hVC]
      omega
    · intro x hx y hy
      have hconnroot : ∀ z t : Int, g.Conn z t →
          rootD uf.parent z = rootD uf.parent t := by
        intro z t hzt
        induction hzt with
        | refl => rfl
        | tail _ hadj ih =>
          refine ih.trans ?_
          obtain ⟨e, he, hto⟩ := hadj
          obtain ⟨hxd, hm⟩ := adjOf_mem_dest he
          have hxF : e.From = _ := hG.adjFrom _ hxd e hm
          rcases hG.adjEdge _ hxd e hm with hE | ⟨e0, he0, hrev⟩
          · rcases hproc e hE with h | h
            · cases h
            · rw [← hxF, ← hto]
              exact h
          · rcases hproc e0 he0 with h | h
            · cases h
            · have hF : e.From = e0.To := by rw [hrev]; rfl
              have hT : e.To = e0.From := by rw [hrev]; rfl
              rw [← hxF, ← hto, hF, hT]
              exact h.symm
      exact R1 x hx y hy (hconnroot x y (hconn x hx y hy))
  | cons e rest ih =>
    intro uf mst w hes hpok hproc hcount R1 hw
    obtain ⟨heF, heT⟩ := hes e (List.mem_cons_self e rest)
    have hes' : ∀ x ∈ rest, x.From ∈ g.Vertices.dom ∧ x.To ∈ g.Vertices.dom :=
      fun x hx => hes x (List.mem_cons_of_mem e hx)
    have hcoe_er : (↑(e :: rest) : Multiset (Edge α))
        = e ::ₘ (↑rest : Multiset (Edge α)) := (Multiset.cons_coe e rest).symm
    obtain ⟨uf', s, hun, hpok', hcases⟩ := union_spec e.From e.To hpok
    rw [kruskalLoop_cons, hun]
    rcases hcases with ⟨hs, heqR, hsame⟩ | ⟨hs, hneq, wn, ls, hwl, hroot⟩
    · subst hs
      have hproc' : ∀ x ∈ g.Edges, x ∈ rest
          ∨ rootD uf'.parent x.From = rootD uf'.parent x.To := by
        intro x hx
        rcases hproc x hx with h | h
        · rcases List.mem_cons.1 h with hxe | hxr
          · refine Or.inr ?_
            rw [hxe, hsame, hsame]
            exact heqR
          · exact Or.inl hxr
        · refine Or.inr ?_
          rw [hsame, hsame]
          exact h
      have hcount' : mst.length
          + (g.Vertices.dom.image (rootD uf'.parent)).card
          = g.Vertices.dom.card := by
        have himg : g.Vertices.dom.image (rootD uf'.parent)
            = g.Vertices.dom.image (rootD uf.parent) :=
          Finset.image_congr (fun x _ => hsame x)
        rw [himg]
        exact hcount
      have R1' : ∀ x ∈ g.Vertices.dom, ∀ y ∈ g.Vertices.dom,
          rootD uf'.parent x = rootD uf'.parent y →
          EConn (↑mst : Multiset (Edge α)) x y := by
        intro x hx y hy heq
        rw [hsame x, hsame y] at heq
        exact R1 x hx y hy heq
      obtain ⟨mst', w', hrun, hlen, hsub, hw', hspan⟩ :=
        ih uf' mst w hes' hpok' hproc' hcount' R1' hw
      refine ⟨mst', w', hrun, hlen, ?_, hw', hspan⟩
      refine le_trans hsub ?_
      rw [hcoe_er]
      exact add_le_add_left (Multiset.le_cons_self _ e) _
    · subst hs
      have hmerged : rootD uf'.parent e.From = rootD uf'.parent e.To := by
        rw [hroot e.From, hroot e.To]
        rcases hwl with ⟨hwa, hlb⟩ | ⟨hwb, hla⟩
        · have hcF : ¬ (rootD uf.parent e.From = ls) := by
            rw [hlb]
            exact hneq
          rw [if_neg hcF, if_pos hlb.symm, hwa]
        · have hcT : ¬ (rootD uf.parent e.To = ls) := by
            rw [hla]
            exact fun hEq => hneq hEq.symm
          rw [if_pos hla.symm, if_neg hcT, hwb]
      have hproc' : ∀ x ∈ g.Edges, x ∈ rest
          ∨ rootD uf'.parent x.From = rootD uf'.parent x.To := by
        intro x hx
        rcases hproc x hx with h | h
        · rcases List.mem_cons.1 h with hxe | hxr
          · refine Or.inr ?_
            rw [hxe]
            exact hmerged
          · exact Or.inl hxr
        · refine Or.inr ?_
          rw [hroot x.From, hroot x.To, h]
      have hls_img : ls ∈ g.Vertices.dom.image (rootD uf.parent) := by
        rcases hwl with ⟨-, hlb⟩ | ⟨-, hla⟩
        · rw [hlb]
          exact Finset.mem_image_of_mem _ heT
        · rw [hla]
          exact Finset.mem_image_of_mem _ heF
      have hwn_ne : wn ≠ ls := by
        rcases hwl with ⟨hwa, hlb⟩ | ⟨hwb, hla⟩
        · rw [hwa, hlb]
          exact hneq
        · rw [hwb, hla]
          exact fun hEq => hneq hEq.symm
      have himg : g.Vertices.dom.image (rootD uf'.parent)
          = (g.Vertices.dom.image (rootD uf.parent)).erase ls := by
        ext r
        simp only [Finset.mem_image, Finset.mem_erase]
        constructor
        · rintro ⟨x, hx, hr⟩
          rw [hroot x] at hr
          by_cases hxl : rootD uf.parent x = ls
          · rw [if_pos hxl] at hr
            rw [← hr]
            refine ⟨hwn_ne, ?_⟩
            rcases hwl with ⟨hwa, -⟩ | ⟨hwb, -⟩
            · exact ⟨e.From, heF, hwa.symm⟩
            · exact ⟨e.To, heT, hwb.symm⟩
          · rw [if_neg hxl] at hr
            rw [← hr]
            exact ⟨hxl, x, hx, rfl⟩
        · rintro ⟨hrl, x, hx, hr⟩
          refine ⟨x, hx, ?_⟩
          rw [hroot x, hr, if_neg hrl]
      have hcount' : (mst ++ [e]).length
          + (g.Vertices.dom.image (rootD uf'.parent)).card
          = g.Vertices.dom.card := by
        have hpos : 0 < (g.Vertices.dom.image (rootD uf.parent)).card :=
          Finset.card_pos.2 ⟨ls, hls_img⟩
        rw [himg, Finset.card_erase_of_mem hls_img, List.length_append,
          List.length_singleton]
        omega
      have hmono_mst : ∀ x y : Int, EConn (↑mst : Multiset (Edge α)) x y →
          EConn (↑(mst ++ [e]) : Multiset (Edge α)) x y := by
        intro x y h
        refine econn_mono ?_ h
        intro q hq
        rw [mset_append_singleton]
        exact Multiset.mem_cons_of_mem hq
      have hstepE : EConn (↑(mst ++ [e]) : Multiset (Edge α)) e.From e.To := by
        refine Relation.ReflTransGen.single ⟨e, ?_, Or.inl ⟨rfl, rfl⟩⟩
        rw [mset_append_singleton]
        exact Multiset.mem_cons_self e _
      have R1' : ∀ x ∈ g.Vertices.dom, ∀ y ∈ g.Vertices.dom,
          rootD uf'.parent x = rootD uf'.parent y →
          EConn (↑(mst ++ [e]) : Multiset (Edge α)) x y := by
        intro x hx y hy heq
        rw [hroot x, hroot y] at heq
        have hstepFT : ∀ z ∈ g.Vertices.dom, ∀ t ∈ g.Vertices.dom,
            rootD uf.parent z = ls → rootD uf.parent t = wn →
            EConn (↑(mst ++ [e]) : Multiset (Edge α)) z t := by
          intro z hz t ht hzl htw
          rcases hwl with ⟨hwa, hlb⟩ | ⟨hwb, hla⟩
          · have hzT : EConn (↑mst : Multiset (Edge α)) z e.To :=
              R1 z hz e.To heT (by rw [hzl, hlb])
            have htF : EConn (↑mst : Multiset (Edge α)) t e.From :=
              R1 t ht e.From heF (by rw [htw, hwa])
            exact ((hmono_mst _ _ hzT).trans (econn_symm' hstepE)).trans
              (econn_symm' (hmono_mst _ _ htF))
          · have hzF : EConn (↑mst : Multiset (Edge α)) z e.From :=
              R1 z hz e.From heF (by rw [hzl, hla])
            have htT : EConn (↑mst : Multiset (Edge α)) t e.To :=
              R1 t ht e.To heT (by rw [htw, hwb])
            exact ((hmono_mst _ _ hzF).trans hstepE).trans
              (econn_symm' (hmono_mst _ _ htT))
        by_cases hxl : rootD uf.parent x = ls <;>
          by_cases hyl : rootD uf.parent y = ls
        · exact hmono_mst _ _ (R1 x hx y hy (hxl.trans hyl.symm))
        · rw [if_pos hxl, if_neg hyl] at heq
          exact hstepFT x hx y hy hxl heq.symm
        · rw [if_neg hxl, if_pos hyl] at heq
          exact econn_symm' (hstepFT y hy x hx hyl heq)
        · rw [if_neg hxl, if_neg hyl] at heq
          exact hmono_mst _ _ (R1 x hx y hy heq)
      have hw' : w + e.Weight
          = msWeight (↑(mst ++ [e]) : Multiset (Edge α)) := by
        rw [mset_append_singleton, msWeight_cons, hw]
        omega
      have hsubstep : (↑(mst ++ [e]) : Multiset (Edge α)) + (↑rest)
          = (↑mst : Multiset (Edge α)) + (↑(e :: rest)) := by
        rw [mset_append_singleton, hcoe_er, Multiset.cons_add,
          Multiset.add_cons]
      show ∃ mst' w',
        (if ((mst ++ [e]).length : Int) = (g.VertexCount : Int) - 1 then
            Res.ok (mst ++ [e], w + e.Weight)
          else g.kruskalLoop rest uf' (mst ++ [e]) (w + e.Weight))
          = Res.ok (mst', w')
        ∧ (mst'.length : Int) = (g.VertexCount : Int) - 1
        ∧ (↑mst' : Multiset (Edge α)) ≤ (↑mst : Multiset (Edge α)) + (↑(e :: rest))
        ∧ w' = msWeight (↑mst' : Multiset (Edge α))
        ∧ (∀ x ∈ g.Vertices.dom, ∀ y ∈ g.Vertices.dom,
            EConn (↑mst' : Multiset (Edge α)) x y)
      by_cases hexit : ((mst ++ [e]).length : Int) = (g.VertexCount : Int) - 1
      · rw [if_pos hexit]
        refine ⟨mst ++ [e], w + e.Weight, rfl, hexit, ?_, hw', ?_⟩
        · rw [← hsubstep]
          exact Multiset.le_add_right _ _
        · have hVC : g.VertexCount = g.Vertices.dom.card := rfl
          rw [hVC] at hexit
          have hpos : 0 < g.Vertices.dom.card := Finset.card_pos.2 ⟨u0, hu0⟩
          have himg1 : (g.Vertices.dom.image (rootD uf'.parent)).card ≤ 1 := by
            omega
          intro x hx y hy
          refine R1' x hx y hy ?_
          exact Finset.card_le_one.1 himg1 _
            (Finset.mem_image_of_mem _ hx) _ (Finset.mem_image_of_mem _ hy)
      · rw [if_neg hexit]
        obtain ⟨mst', w', hrun, hlen, hsub, hw2, hspan⟩ :=
          ih uf' (mst ++ [e]) (w + e.Weight) hes' hpok' hproc' hcount' R1' hw'
        refine ⟨mst', w', hrun, hlen, ?_, hw2, hspan⟩
        rw [← hsubstep]
        exact hsub

/-- Kruskal on a connected API-built graph (any enumeration order, any
weight-sorted copy): the result is a spanning tree of the stored edge
sequence whose returned weight is its total weight, and that weight is
minimal among all spanning trees. -/
theorem kruskal_opt {α : Type u} [Inhabited α] {g : Graph α}
    (hB : Built g) {u0 : Int} (hu0 : u0 ∈ g.Vertices.dom)
    (hconn : ∀ x ∈ g.Vertices.dom, ∀ y ∈ g.Vertices.dom, g.Conn x y)
    (enum : List Int) (es : List (Edge α))
    (henum : enum.toFinset = g.Vertices.dom) (hperm : es.Perm g.Edges)
    (hsort : es.Pairwise (fun a b => a.Weight ≤ b.Weight)) :
    ∃ mst w, g.KruskalWith enum es = Res.ok (mst, w)
      ∧ (mst.length : Int) = (g.VertexCount : Int) - 1
      ∧ SpanningTree g (↑mst)
      ∧ w = msWeight (↑mst : Multiset (Edge α))
      ∧ ∀ T0 : Multiset (Edge α), SpanningTree g T0 → w ≤ msWeight T0 := by
  have hG := built_ginv hB
  have hDir : ¬ (g.Directed = true) := by
    rw [hG.undirected]
    exact Bool.false_ne_true
  unfold Graph.KruskalWith
  rw [if_neg hDir]
  have hempty : ∀ x ∈ (NewUnionFind.parent).dom, NewUnionFind.parent.get x = x :=
    fun x hx => absurd hx (Finset.not_mem_empty x)
  obtain ⟨hdom0, hid0⟩ := makeSet_fold_id enum NewUnionFind hempty
  have hdom : (enum.foldl UnionFind.MakeSet NewUnionFind).parent.dom
      = g.Vertices.dom := by
    rw [hdom0, ← henum]
    exact Finset.empty_union _
  have hpok0 : POk (enum.foldl UnionFind.MakeSet NewUnionFind).parent :=
    pok_of_id_parent hid0
  have hroot0 : ∀ x ∈ g.Vertices.dom,
      rootD (enum.foldl UnionFind.MakeSet NewUnionFind).parent x = x := by
    intro x hx
    apply rootD_eq hpok0
    apply Rooted.root
    apply hid0
    rw [hdom]
    exact hx
  have himg0 : g.Vertices.dom.image
      (rootD (enum.foldl UnionFind.MakeSet NewUnionFind).parent)
      = g.Vertices.dom := by
    ext r
    simp only [Finset.mem_image]
    constructor
    · rintro ⟨x, hx, hr⟩
      rw [hroot0 x hx] at hr
      rw [← hr]
      exact hx
    · intro hr
      exact ⟨r, hr, hroot0 r hr⟩
  have hcount0 : (([] : List (Edge α)).length) + (g.Vertices.dom.image
      (rootD (enum.foldl UnionFind.MakeSet NewUnionFind).parent)).card
      = g.Vertices.dom.card := by
    rw [himg0, List.length_nil]
    omega
  have hes : ∀ e ∈ es, e.From ∈ g.Vertices.dom ∧ e.To ∈ g.Vertices.dom := by
    intro e he
    have heg : e ∈ g.Edges := hperm.mem_iff.1 he
    exact ⟨hG.edgeFromDom e heg, hG.edgeToDom e heg⟩
  have hproc0 : ∀ e ∈ g.Edges, e ∈ es
      ∨ rootD (enum.foldl UnionFind.MakeSet NewUnionFind).parent e.From
        = rootD (enum.foldl UnionFind.MakeSet NewUnionFind).parent e.To :=
    fun e he => Or.inl (hperm.mem_iff.2 he)
  have R1_0 : ∀ x ∈ g.Vertices.dom, ∀ y ∈ g.Vertices.dom,
      rootD (enum.foldl UnionFind.MakeSet NewUnionFind).parent x
        = rootD (enum.foldl UnionFind.MakeSet NewUnionFind).parent y →
      EConn (↑([] : List (Edge α)) : Multiset (Edge α)) x y := by
    intro x hx y hy heq
    rw [hroot0 x hx, hroot0 y hy] at heq
    rw [heq]
    exact Relation.ReflTransGen.refl
  have hw0 : (0 : Int) = msWeight (↑([] : List (Edge α)) : Multiset (Edge α)) := by
    simp [msWeight]
  have hes_eq : (↑es : Multiset (Edge α)) = (↑g.Edges : Multiset (Edge α)) :=
    Multiset.coe_eq_coe.2 hperm
  obtain ⟨mstK, wK, hrun, hlen, hsub, hwK, hspanK⟩ :=
    kruskalLoop_spanning hG hu0 hconn es
      (enum.foldl UnionFind.MakeSet NewUnionFind) [] 0 hes hpok0 hproc0
      hcount0 R1_0 hw0
  have hsubE : (↑mstK : Multiset (Edge α)) ≤ (↑g.Edges : Multiset (Edge α)) := by
    refine le_trans hsub ?_
    rw [Multiset.coe_nil, zero_add, hes_eq]
  have hVC : g.VertexCount = g.Vertices.dom.card := rfl
  have hpos : 0 < g.Vertices.dom.card := Finset.card_pos.2 ⟨u0, hu0⟩
  have hcardK : Multiset.card (↑mstK : Multiset (Edge α)) + 1
      = g.Vertices.dom.card := by
    rw [Multiset.coe_card]
    rw [hVC] at hlen
    omega
  refine ⟨mstK, wK, hrun, hlen, ⟨hsubE, hcardK, hspanK⟩, hwK, ?_⟩
  intro T0 hT0
  obtain ⟨hT0sub, hT0card, hT0span⟩ := hT0
  have hTmem : ∀ t ∈ T0, t.From ∈ g.Vertices.dom ∧ t.To ∈ g.Vertices.dom := by
    intro t ht
    have htE : t ∈ g.Edges := Multiset.mem_coe.1 (Multiset.mem_of_le hT0sub ht)
    exact ⟨hG.edgeFromDom t htE, hG.edgeToDom t htE⟩
  have hTsub : T0 ≤ (↑([] : List (Edge α)) : Multiset (Edge α)) + (↑es) := by
    rw [Multiset.coe_nil, zero_add, hes_eq]
    exact hT0sub
  obtain ⟨mst2, w2, hrun2, hle2⟩ :=
    kruskalLoop_weight (g := g) ⟨u0, hu0⟩ (msWeight T0) es
      (enum.foldl UnionFind.MakeSet NewUnionFind) [] 0 T0 hsort hes hpok0
      R1_0 (fun c hc => absurd hc (List.not_mem_nil c)) hcount0
      (by simp) hT0card hT0span hTmem hTsub (le_refl _) hw0
  have hEq := hrun.symm.trans hrun2
  simp only [Res.ok.injEq, Prod.mk.injEq] at hEq
  rw [hEq.2]
  exact hle2

theorem foldl_push_isHeap {α : Type u}
    (f : List (Edge α) → Edge α → List (Edge α))
    (hf : ∀ acc e, IsHeap acc → IsHeap (f acc e)) :
    ∀ (l acc : List (Edge α)), IsHeap acc → IsHeap (l.foldl f acc) := by
  intro l
  induction l with
  | nil =>
    intro acc h
    exact h
  | cons e t ih =>
    intro acc h
    exact ih (f acc e) (hf acc e h)

/-- On a connected graph the Prim loop's output is a spanning collection of
adjacency entries: `V-1` accepted edges, each stored in its source's
adjacency, pairwise distinct and reverse-free, totalling the returned weight
and connecting the start to every vertex identity. -/
theorem primLoop_spanning {α : Type u} [Inhabited α] {g : Graph α}
    (hG : GInv g) {s : Int}
    (hconn : ∀ x ∈ g.Vertices.dom, ∀ y ∈ g.Vertices.dom, g.Conn x y) :
    ∀ (fuel : Nat) (pq : List (Edge α)) (visited : Finset Int)
      (mst : List (Edge α)) (w : Int),
    (∀ e ∈ pq, e.From ∈ visited ∧ e.From ∈ g.Vertices.dom ∧ e ∈ g.adjOf e.From) →
    s ∈ visited →
    visited ⊆ g.Vertices.dom →
    mst.length + 1 = visited.card →
    (∀ x ∈ visited, ∀ e ∈ g.adjOf x, e.To ∉ visited → e ∈ pq) →
    (∀ c ∈ mst, c.From ∈ visited ∧ c.To ∈ visited) →
    (∀ c ∈ mst, c.From ∈ g.Vertices.dom ∧ c ∈ g.adjOf c.From) →
    (∀ x ∈ visited, EConn (↑mst : Multiset (Edge α)) s x) →
    mst.Nodup →
    (∀ c ∈ mst, c.Reverse ∉ mst) →
    w = msWeight (↑mst : Multiset (Edge α)) →
    pq.length + (g.Vertices.dom \ visited).sum
        (fun id => (g.Vertices.fn id).Edges.length) < fuel →
    ∃ mst' w', g.primLoop fuel pq visited mst w = some (mst', w')
      ∧ (mst'.length : Int) = (g.VertexCount : Int) - 1
      ∧ w' = msWeight (↑mst' : Multiset (Edge α))
      ∧ (∀ x ∈ g.Vertices.dom, EConn (↑mst' : Multiset (Edge α)) s x)
      ∧ (∀ c ∈ mst', c.From ∈ g.Vertices.dom ∧ c ∈ g.adjOf c.From)
      ∧ mst'.Nodup
      ∧ (∀ c ∈ mst', c.Reverse ∉ mst') := by
  intro fuel
  induction fuel with
  | zero =>
    intro pq visited mst w _ _ _ _ _ _ _ _ _ _ _ hfuel
    exact absurd hfuel (Nat.not_lt_zero _)
  | succ n ih =>
    intro pq visited mst w hpq hsv hvd hcount hcross hJ hMadj hR hnd hrf hw hfuel
    rw [primLoop_succ]
    by_cases hguard : 0 < pq.length ∧ (mst.length : Int) < (g.VertexCount : Int) - 1
    · rw [if_pos hguard]
      obtain ⟨e, pq', hpop, hperm, hlen⟩ := heapPop_spec pq hguard.1
      rw [hpop]
      obtain ⟨heFv, heFd, headj⟩ := hpq e (hperm.subset (List.mem_cons_self e pq'))
      have hpq' : ∀ x ∈ pq', x.From ∈ visited ∧ x.From ∈ g.Vertices.dom
          ∧ x ∈ g.adjOf x.From :=
        fun x hx => hpq x (hperm.subset (List.mem_cons_of_mem e hx))
      show ∃ mst' w',
        (if e.To ∈ visited then g.primLoop n pq' visited mst w
          else
            g.primLoop n
              ((g.adjOf e.To).foldl
                (fun acc nextEdge =>
                  if nextEdge.To ∈ insert e.To visited then acc
                  else heapPush acc nextEdge) pq')
              (insert e.To visited) (mst ++ [e]) (w + e.Weight))
          = some (mst', w')
        ∧ (mst'.length : Int) = (g.VertexCount : Int) - 1
        ∧ w' = msWeight (↑mst' : Multiset (Edge α))
        ∧ (∀ x ∈ g.Vertices.dom, EConn (↑mst' : Multiset (Edge α)) s x)
        ∧ (∀ c ∈ mst', c.From ∈ g.Vertices.dom ∧ c ∈ g.adjOf c.From)
        ∧ mst'.Nodup
        ∧ (∀ c ∈ mst', c.Reverse ∉ mst')
      by_cases hvis : e.To ∈ visited
      · rw [if_pos hvis]
        have hcross' : ∀ x ∈ visited, ∀ ed ∈ g.adjOf x, ed.To ∉ visited →
            ed ∈ pq' := by
          intro x hx ed hed hto
          have hne : ed ≠ e := fun hEq => hto (by rw [hEq]; exact hvis)
          rcases List.mem_cons.1 (hperm.mem_iff.2 (hcross x hx ed hed hto))
              with h | h
          · exact absurd h hne
          · exact h
        apply ih pq' visited mst w hpq' hsv hvd hcount hcross' hJ hMadj hR hnd
          hrf hw
        omega
      · rw [if_neg hvis]
        have heTd : e.To ∈ g.Vertices.dom :=
          adjacent_mem_right hG ⟨e, headj, rfl⟩
        have hmono : ∀ (acc : List (Edge α)) (x y : Edge α), y ∈ acc →
            y ∈ (if x.To ∈ insert e.To visited then acc else heapPush acc x) := by
          intro acc x y hy
          by_cases hc : x.To ∈ insert e.To visited
          · rw [if_pos hc]
            exact hy
          · rw [if_neg hc]
            exact (heapPush_perm acc x).mem_iff.2 (List.mem_cons_of_mem x hy)
        have hf : ∀ (acc : List (Edge α)) (x : Edge α),
            (∀ y ∈ (if x.To ∈ insert e.To visited then acc else heapPush acc x),
              y = x ∨ y ∈ acc)
            ∧ (if x.To ∈ insert e.To visited then acc else heapPush acc x).length
                ≤ acc.length + 1 := by
          intro acc x
          by_cases hc : x.To ∈ insert e.To visited
          · rw [if_pos hc]
            exact ⟨fun y hy => Or.inr hy, Nat.le_succ _⟩
          · rw [if_neg hc]
            constructor
            · intro y hy
              rcases List.mem_cons.1 ((heapPush_perm acc x).subset hy) with h | h
              · exact Or.inl h
              · exact Or.inr h
            · rw [(heapPush_perm acc x).length_eq]
              exact le_of_eq (List.length_cons x acc)
        obtain ⟨hmemF, hlenF⟩ := foldl_push_bound
          (fun acc nextEdge =>
            if nextEdge.To ∈ insert e.To visited then acc
            else heapPush acc nextEdge) hf (g.adjOf e.To) pq'
        have hpq'' : ∀ x ∈ (g.adjOf e.To).foldl
            (fun acc nextEdge =>
              if nextEdge.To ∈ insert e.To visited then acc
              else heapPush acc nextEdge) pq',
            x.From ∈ insert e.To visited ∧ x.From ∈ g.Vertices.dom
            ∧ x ∈ g.adjOf x.From := by
          intro x hx
          rcases hmemF x hx with h | h
          · obtain ⟨h1, h2, h3⟩ := hpq' x h
            exact ⟨Finset.mem_insert_of_mem h1, h2, h3⟩
          · obtain ⟨hd, hm⟩ := adjOf_mem_dest h
            have hxF : x.From = e.To := hG.adjFrom e.To hd x hm
            refine ⟨by rw [hxF]; exact Finset.mem_insert_self _ _,
              by rw [hxF]; exact heTd, ?_⟩
            rw [hxF, adjOf_eq_fn hd]
            exact hm
        have hcount' : (mst ++ [e]).length + 1 = (insert e.To visited).card := by
          rw [Finset.card_insert_of_not_mem hvis, List.length_append,
            List.length_singleton]
          omega
        have hcross'' : ∀ x ∈ insert e.To visited, ∀ ed ∈ g.adjOf x,
            ed.To ∉ insert e.To visited →
            ed ∈ (g.adjOf e.To).foldl
              (fun acc nextEdge =>
                if nextEdge.To ∈ insert e.To visited then acc
                else heapPush acc nextEdge) pq' := by
          intro x hx ed hed hto
          rcases Finset.mem_insert.1 hx with hxe | hxv
          · subst hxe
            refine foldl_push_mem_self _
              (fun y => y.To ∉ insert e.To visited) hmono ?_ _ pq' ed hed hto
            intro acc y hy
            rw [if_neg hy]
            exact (heapPush_perm acc y).mem_iff.2 (List.mem_cons_self y acc)
          · have htov : ed.To ∉ visited :=
              fun hc => hto (Finset.mem_insert_of_mem hc)
            have hne : ed ≠ e := fun hEq => hto (by
              rw [hEq]
              exact Finset.mem_insert_self e.To visited)
            have hedpq' : ed ∈ pq' := by
              rcases List.mem_cons.1 (hperm.mem_iff.2 (hcross x hxv ed hed htov))
                  with h | h
              · exact absurd h hne
              · exact h
            exact foldl_push_mem_mono _ hmono (g.adjOf e.To) pq' ed hedpq'
        have hJ' : ∀ c ∈ mst ++ [e],
            c.From ∈ insert e.To visited ∧ c.To ∈ insert e.To visited := by
          intro c hc
          rcases List.mem_append.1 hc with h | h
          · obtain ⟨h1, h2⟩ := hJ c h
            exact ⟨Finset.mem_insert_of_mem h1, Finset.mem_insert_of_mem h2⟩
          · rw [List.mem_singleton.1 h]
            exact ⟨Finset.mem_insert_of_mem heFv, Finset.mem_insert_self _ _⟩
        have hMadj' : ∀ c ∈ mst ++ [e],
            c.From ∈ g.Vertices.dom ∧ c ∈ g.adjOf c.From := by
          intro c hc
          rcases List.mem_append.1 hc with h | h
          · exact hMadj c h
          · rw [List.mem_singleton.1 h]
            exact ⟨heFd, headj⟩
        have hmono_mst : ∀ x y : Int, EConn (↑mst : Multiset (Edge α)) x y →
            EConn (↑(mst ++ [e]) : Multiset (Edge α)) x y := by
          intro x y h
          refine econn_mono ?_ h
          intro q hq
          rw [mset_append_singleton]
          exact Multiset.mem_cons_of_mem hq
        have hR' : ∀ x ∈ insert e.To visited,
            EConn (↑(mst ++ [e]) : Multiset (Edge α)) s x := by
          intro x hx
          rcases Finset.mem_insert.1 hx with hxe | hxv
          · subst hxe
            refine (hmono_mst s e.From (hR e.From heFv)).tail ?_
            refine ⟨e, ?_, Or.inl ⟨rfl, rfl⟩⟩
            rw [mset_append_singleton]
            exact Multiset.mem_cons_self e _
          · exact hmono_mst s x (hR x hxv)
        have heC : e ∉ mst := fun hmem => hvis (hJ e hmem).2
        have hnd' : (mst ++ [e]).Nodup := by
          rw [List.nodup_append]
          exact ⟨hnd, List.nodup_singleton e,
            fun a ha hb => absurd (List.mem_singleton.1 hb ▸ ha) heC⟩
        have hrf' : ∀ c ∈ mst ++ [e], c.Reverse ∉ mst ++ [e] := by
          intro c hc hcon
          rcases List.mem_append.1 hc with h | h
          · rcases List.mem_append.1 hcon with h' | h'
            · exact hrf c h h'
            · have hce : c.Reverse = e := List.mem_singleton.1 h'
              apply hvis
              have : e.To = c.From := by rw [← hce]; rfl
              rw [this]
              exact (hJ c h).1
          · have hce : c = e := List.mem_singleton.1 h
            subst hce
            rcases List.mem_append.1 hcon with h' | h'
            · apply hvis
              have : c.To = c.Reverse.From := rfl
              rw [this]
              exact (hJ c.Reverse h').1
            · have hrr : c.Reverse = c := List.mem_singleton.1 h'
              apply hvis
              have : c.To = c.Reverse.To := by rw [hrr]
              rw [this]
              show c.From ∈ visited
              exact heFv
        have hw' : w + e.Weight
            = msWeight (↑(mst ++ [e]) : Multiset (Edge α)) := by
          rw [mset_append_singleton, msWeight_cons, hw]
          omega
        have hsum : (g.Vertices.dom \ insert e.To visited).sum
              (fun id => (g.Vertices.fn id).Edges.length)
            + (g.Vertices.fn e.To).Edges.length
            = (g.Vertices.dom \ visited).sum
              (fun id => (g.Vertices.fn id).Edges.length) := by
          rw [Finset.sdiff_insert]
          exact Finset.sum_erase_add _ _ (Finset.mem_sdiff.2 ⟨heTd, hvis⟩)
        have hadjlen : (g.adjOf e.To).length = (g.Vertices.fn e.To).Edges.length := by
          rw [adjOf_eq_fn heTd]
        apply ih _ _ _ _ hpq'' (Finset.mem_insert_of_mem hsv)
          (Finset.insert_subset heTd hvd) hcount' hcross'' hJ' hMadj' hR' hnd'
          hrf' hw'
        omega
    · rw [if_neg hguard]
      have hVC : g.VertexCount = g.Vertices.dom.card := rfl
      have hcard_le : visited.card ≤ g.Vertices.dom.card :=
        Finset.card_le_card hvd
      have hveq : visited = g.Vertices.dom := by
        rcases not_and_or.1 hguard with hpq0 | hful
        · have hpqnil : pq = [] := by
            cases pq with
            | nil => rfl
            | cons a t => exact absurd (by simp) hpq0
          have hsub : g.Vertices.dom ⊆ visited := by
            by_contra hns
            obtain ⟨t, htd, htv⟩ := Finset.not_subset.1 hns
            obtain ⟨a, b, haS, hbS, hab⟩ :=
              conn_crossing hsv (hconn s (hvd hsv) t htd) htv
            obtain ⟨ed, hed, hto⟩ := hab
            have : ed ∈ pq := hcross a haS ed hed (by rw [hto]; exact hbS)
            rw [hpqnil] at this
            exact absurd this (List.not_mem_nil ed)
          exact Finset.Subset.antisymm hvd hsub
        · refine Finset.eq_of_subset_of_card_le hvd ?_
          rw [hVC] at hful
          omega
      refine ⟨mst, w, rfl, ?_, hw, ?_, hMadj, hnd, hrf⟩
      · rw [hVC, ← hveq]
        omega
      · intro x hx
        rw [← hveq] at hx
        exact hR x hx

/-- The Prim loop never exceeds the weight of any spanning collection of
adjacency entries: the promise argument over the visited-set cut, using the
heap order to compare the popped edge against any crossing edge of the
candidate tree. -/
theorem primLoop_weight {α : Type u} [Inhabited α] {g : Graph α}
    (hG : GInv g) (hAP : AdjPair g) {s : Int}
    (hconn : ∀ x ∈ g.Vertices.dom, ∀ y ∈ g.Vertices.dom, g.Conn x y)
    (W0 : Int) :
    ∀ (fuel : Nat) (pq : List (Edge α)) (visited : Finset Int)
      (mst : List (Edge α)) (w : Int) (Tstar : Multiset (Edge α)),
    (∀ e ∈ pq, e.From ∈ visited ∧ e.From ∈ g.Vertices.dom ∧ e ∈ g.adjOf e.From) →
    IsHeap pq →
    s ∈ visited →
    visited ⊆ g.Vertices.dom →
    mst.length + 1 = visited.card →
    (∀ x ∈ visited, ∀ e ∈ g.adjOf x, e.To ∉ visited → e ∈ pq) →
    (∀ c ∈ mst, c.From ∈ visited ∧ c.To ∈ visited) →
    (↑mst : Multiset (Edge α)) ≤ Tstar →
    Multiset.card Tstar + 1 = g.Vertices.dom.card →
    (∀ x ∈ g.Vertices.dom, ∀ y ∈ g.Vertices.dom, EConn Tstar x y) →
    (∀ t ∈ Tstar, t.From ∈ g.Vertices.dom ∧ t.To ∈ g.Vertices.dom
        ∧ t ∈ g.adjOf t.From) →
    msWeight Tstar ≤ W0 →
    w = msWeight (↑mst : Multiset (Edge α)) →
    pq.length + (g.Vertices.dom \ visited).sum
        (fun id => (g.Vertices.fn id).Edges.length) < fuel →
    ∃ mst' w', g.primLoop fuel pq visited mst w = some (mst', w') ∧ w' ≤ W0 := by
  intro fuel
  induction fuel with
  | zero =>
    intro pq visited mst w Tstar _ _ _ _ _ _ _ _ _ _ _ _ _ hfuel
    exact absurd hfuel (Nat.not_lt_zero _)
  | succ n ih =>
    intro pq visited mst w Tstar hpq hheap hsv hvd hcount hcross hJ hsubC
      hcardT hspanT hTmem hwT hw hfuel
    rw [primLoop_succ]
    by_cases hguard : 0 < pq.length ∧ (mst.length : Int) < (g.VertexCount : Int) - 1
    · rw [if_pos hguard]
      obtain ⟨e, pq', hpop, hperm, hlen, hheap', hmin⟩ :=
        heapPop_min hheap hguard.1
      rw [hpop]
      obtain ⟨heFv, heFd, headj⟩ := hpq e (hperm.subset (List.mem_cons_self e pq'))
      have hpq' : ∀ x ∈ pq', x.From ∈ visited ∧ x.From ∈ g.Vertices.dom
          ∧ x ∈ g.adjOf x.From :=
        fun x hx => hpq x (hperm.subset (List.mem_cons_of_mem e hx))
      show ∃ mst' w',
        (if e.To ∈ visited then g.primLoop n pq' visited mst w
          else
            g.primLoop n
              ((g.adjOf e.To).foldl
                (fun acc nextEdge =>
                  if nextEdge.To ∈ insert e.To visited then acc
                  else heapPush acc nextEdge) pq')
              (insert e.To visited) (mst ++ [e]) (w + e.Weight))
          = some (mst', w')
        ∧ w' ≤ W0
      by_cases hvis : e.To ∈ visited
      · rw [if_pos hvis]
        have hcross' : ∀ x ∈ visited, ∀ ed ∈ g.adjOf x, ed.To ∉ visited →
            ed ∈ pq' := by
          intro x hx ed hed hto
          have hne : ed ≠ e := fun hEq => hto (by rw [hEq]; exact hvis)
          rcases List.mem_cons.1 (hperm.mem_iff.2 (hcross x hx ed hed hto))
              with h | h
          · exact absurd h hne
          · exact h
        apply ih pq' visited mst w Tstar hpq' hheap' hsv hvd hcount hcross' hJ
          hsubC hcardT hspanT hTmem hwT hw
        omega
      · rw [if_neg hvis]
        have heTd : e.To ∈ g.Vertices.dom :=
          adjacent_mem_right hG ⟨e, headj, rfl⟩
        have hmono : ∀ (acc : List (Edge α)) (x y : Edge α), y ∈ acc →
            y ∈ (if x.To ∈ insert e.To visited then acc else heapPush acc x) := by
          intro acc x y hy
          by_cases hc : x.To ∈ insert e.To visited
          · rw [if_pos hc]
            exact hy
          · rw [if_neg hc]
            exact (heapPush_perm acc x).mem_iff.2 (List.mem_cons_of_mem x hy)
        have hf : ∀ (acc : List (Edge α)) (x : Edge α),
            (∀ y ∈ (if x.To ∈ insert e.To visited then acc else heapPush acc x),
              y = x ∨ y ∈ acc)
            ∧ (if x.To ∈ insert e.To visited then acc else heapPush acc x).length
                ≤ acc.length + 1 := by
          intro acc x
          by_cases hc : x.To ∈ insert e.To visited
          · rw [if_pos hc]
            exact ⟨fun y hy => Or.inr hy, Nat.le_succ _⟩
          · rw [if_neg hc]
            constructor
            · intro y hy
              rcases List.mem_cons.1 ((heapPush_perm acc x).subset hy) with h | h
              · exact Or.inl h
              · exact Or.inr h
            · rw [(heapPush_perm acc x).length_eq]
              exact le_of_eq (List.length_cons x acc)
        obtain ⟨hmemF, hlenF⟩ := foldl_push_bound
          (fun acc nextEdge =>
            if nextEdge.To ∈ insert e.To visited then acc
            else heapPush acc nextEdge) hf (g.adjOf e.To) pq'
        have hpq'' : ∀ x ∈ (g.adjOf e.To).foldl
            (fun acc nextEdge =>
              if nextEdge.To ∈ insert e.To visited then acc
              else heapPush acc nextEdge) pq',
            x.From ∈ insert e.To visited ∧ x.From ∈ g.Vertices.dom
            ∧ x ∈ g.adjOf x.From := by
          intro x hx
          rcases hmemF x hx with h | h
          · obtain ⟨h1, h2, h3⟩ := hpq' x h
            exact ⟨Finset.mem_insert_of_mem h1, h2, h3⟩
          · obtain ⟨hd, hm⟩ := adjOf_mem_dest h
            have hxF : x.From = e.To := hG.adjFrom e.To hd x hm
            refine ⟨by rw [hxF]; exact Finset.mem_insert_self _ _,
              by rw [hxF]; exact heTd, ?_⟩
            rw [hxF, adjOf_eq_fn hd]
            exact hm
        have hheap'' : IsHeap ((g.adjOf e.To).foldl
            (fun acc nextEdge =>
              if nextEdge.To ∈ insert e.To visited then acc
              else heapPush acc nextEdge) pq') := by
          refine foldl_push_isHeap _ ?_ _ _ hheap'
          intro acc x hacc
          by_cases hc : x.To ∈ insert e.To visited
          · rwa [if_pos hc]
          · rw [if_neg hc]
            exact heapPush_isHeap hacc x
        have hcount' : (mst ++ [e]).length + 1 = (insert e.To visited).card := by
          rw [Finset.card_insert_of_not_mem hvis, List.length_append,
            List.length_singleton]
          omega
        have hcross'' : ∀ x ∈ insert e.To visited, ∀ ed ∈ g.adjOf x,
            ed.To ∉ insert e.To visited →
            ed ∈ (g.adjOf e.To).foldl
              (fun acc nextEdge =>
                if nextEdge.To ∈ insert e.To visited then acc
                else heapPush acc nextEdge) pq' := by
          intro x hx ed hed hto
          rcases Finset.mem_insert.1 hx with hxe | hxv
          · subst hxe
            refine foldl_push_mem_self _
              (fun y => y.To ∉ insert e.To visited) hmono ?_ _ pq' ed hed hto
            intro acc y hy
            rw [if_neg hy]
            exact (heapPush_perm acc y).mem_iff.2 (List.mem_cons_self y acc)
          · have htov : ed.To ∉ visited :=
              fun hc => hto (Finset.mem_insert_of_mem hc)
            have hne : ed ≠ e := fun hEq => hto (by
              rw [hEq]
              exact Finset.mem_insert_self e.To visited)
            have hedpq' : ed ∈ pq' := by
              rcases List.mem_cons.1 (hperm.mem_iff.2 (hcross x hxv ed hed htov))
                  with h | h
              · exact absurd h hne
              · exact h
            exact foldl_push_mem_mono _ hmono (g.adjOf e.To) pq' ed hedpq'
        have hJ' : ∀ c ∈ mst ++ [e],
            c.From ∈ insert e.To visited ∧ c.To ∈ insert e.To visited := by
          intro c hc
          rcases List.mem_append.1 hc with h | h
          · obtain ⟨h1, h2⟩ := hJ c h
            exact ⟨Finset.mem_insert_of_mem h1, Finset.mem_insert_of_mem h2⟩
          · rw [List.mem_singleton.1 h]
            exact ⟨Finset.mem_insert_of_mem heFv, Finset.mem_insert_self _ _⟩
        have heC : e ∉ mst := fun hmem => hvis (hJ e hmem).2
        have hTst' : ∃ Tst' : Multiset (Edge α),
            (↑(mst ++ [e]) : Multiset (Edge α)) ≤ Tst'
            ∧ Multiset.card Tst' + 1 = g.Vertices.dom.card
            ∧ (∀ x ∈ g.Vertices.dom, ∀ y ∈ g.Vertices.dom, EConn Tst' x y)
            ∧ (∀ t ∈ Tst', t.From ∈ g.Vertices.dom ∧ t.To ∈ g.Vertices.dom
                ∧ t ∈ g.adjOf t.From)
            ∧ msWeight Tst' ≤ W0 := by
          by_cases heTst : e ∈ Tstar
          · refine ⟨Tstar, ?_, hcardT, hspanT, hTmem, hwT⟩
            rw [mset_append_singleton]
            obtain ⟨u, hu⟩ := Multiset.le_iff_exists_add.1 hsubC
            have heu : e ∈ u := by
              rw [hu] at heTst
              rcases Multiset.mem_add.1 heTst with h | h
              · exact absurd (Multiset.mem_coe.1 h) heC
              · exact h
            obtain ⟨u', hu'⟩ := Multiset.exists_cons_of_mem heu
            rw [hu, hu', Multiset.add_cons]
            exact Multiset.cons_le_cons e (Multiset.le_add_right _ _)
          · obtain ⟨f, T2, hT2, hcross2, hspan2⟩ :=
              spanning_exchange hspanT heFd heTd heFv hvis
            obtain ⟨hfFd, hfTd, hfadj⟩ := hTmem f (by
              rw [hT2]
              exact Multiset.mem_cons_self f T2)
            have hfw : ∃ q ∈ pq, q.Weight = f.Weight := by
              rcases hcross2 with ⟨h1, h2⟩ | ⟨h1, h2⟩
              · exact ⟨f, hcross f.From h1 f hfadj h2, rfl⟩
              · refine ⟨f.Reverse, ?_, rfl⟩
                have hrevadj : f.Reverse ∈ g.adjOf f.To := by
                  obtain ⟨hd, hm⟩ := adjOf_mem_dest hfadj
                  have hpair := hAP f.From hd f hm
                  rw [adjOf_eq_fn hfTd]
                  exact hpair
                exact hcross f.To h1 f.Reverse hrevadj h2
            obtain ⟨q, hqpq, hqw⟩ := hfw
            have hwef : e.Weight ≤ f.Weight := by
              rw [← hqw]
              exact hmin q hqpq
            have hfC : f ∉ mst := by
              intro hmem
              obtain ⟨h1, h2⟩ := hJ f hmem
              rcases hcross2 with ⟨-, hout⟩ | ⟨-, hout⟩
              · exact hout h2
              · exact hout h1
            refine ⟨e ::ₘ T2, ?_, ?_, hspan2, ?_, ?_⟩
            · rw [mset_append_singleton]
              refine Multiset.cons_le_cons e ?_
              obtain ⟨u, hu⟩ := Multiset.le_iff_exists_add.1 hsubC
              rw [hT2] at hu
              have hfu : f ∈ u := by
                have hh : f ∈ (↑mst : Multiset (Edge α)) + u := by
                  rw [← hu]
                  exact Multiset.mem_cons_self f T2
                rcases Multiset.mem_add.1 hh with h | h
                · exact absurd (Multiset.mem_coe.1 h) hfC
                · exact h
              obtain ⟨u', hu'⟩ := Multiset.exists_cons_of_mem hfu
              rw [hu', Multiset.add_cons] at hu
              have hT2eq : T2 = (↑mst : Multiset (Edge α)) + u' :=
                (Multiset.cons_inj_right f).1 hu
              rw [hT2eq]
              exact Multiset.le_add_right _ _
            · rw [hT2, Multiset.card_cons] at hcardT
              rw [Multiset.card_cons]
              omega
            · intro t ht
              rcases Multiset.mem_cons.1 ht with h | h
              · rw [h]
                exact ⟨heFd, heTd, headj⟩
              · exact hTmem t (by rw [hT2]; exact Multiset.mem_cons_of_mem h)
            · have h1 : msWeight Tstar = f.Weight + msWeight T2 := by
                rw [hT2, msWeight_cons]
              rw [msWeight_cons]
              omega
        obtain ⟨Tst', hsubC', hcardT', hspanT', hTmem', hwT'⟩ := hTst'
        have hw' : w + e.Weight
            = msWeight (↑(mst ++ [e]) : Multiset (Edge α)) := by
          rw [mset_append_singleton, msWeight_cons, hw]
          omega
        have hsum : (g.Vertices.dom \ insert e.To visited).sum
              (fun id => (g.Vertices.fn id).Edges.length)
            + (g.Vertices.fn e.To).Edges.length
            = (g.Vertices.dom \ visited).sum
              (fun id => (g.Vertices.fn id).Edges.length) := by
          rw [Finset.sdiff_insert]
          exact Finset.sum_erase_add _ _ (Finset.mem_sdiff.2 ⟨heTd, hvis⟩)
        have hadjlen : (g.adjOf e.To).length = (g.Vertices.fn e.To).Edges.length := by
          rw [adjOf_eq_fn heTd]
        apply ih _ _ _ _ Tst' hpq'' hheap'' (Finset.mem_insert_of_mem hsv)
          (Finset.insert_subset heTd hvd) hcount' hcross'' hJ' hsubC' hcardT'
          hspanT' hTmem' hwT' hw'
        omega
    · rw [if_neg hguard]
      refine ⟨mst, w, rfl, ?_⟩
      have hVC : g.VertexCount = g.Vertices.dom.card := rfl
      have hcard_le : visited.card ≤ g.Vertices.dom.card :=
        Finset.card_le_card hvd
      have hveq : visited = g.Vertices.dom := by
        rcases not_and_or.1 hguard with hpq0 | hful
        · have hpqnil : pq = [] := by
            cases pq with
            | nil => rfl
            | cons a t => exact absurd (by simp) hpq0
          have hsub : g.Vertices.dom ⊆ visited := by
            by_contra hns
            obtain ⟨t, htd, htv⟩ := Finset.not_subset.1 hns
            obtain ⟨a, b, haS, hbS, hab⟩ :=
              conn_crossing hsv (hconn s (hvd hsv) t htd) htv
            obtain ⟨ed, hed, hto⟩ := hab
            have hedpq : ed ∈ pq := hcross a haS ed hed (by rw [hto]; exact hbS)
            rw [hpqnil] at hedpq
            exact absurd hedpq (List.not_mem_nil ed)
          exact Finset.Subset.antisymm hvd hsub
        · refine Finset.eq_of_subset_of_card_le hvd ?_
          rw [hVC] at hful
          omega
      have hcard_mst : Multiset.card Tstar
          ≤ Multiset.card (↑mst : Multiset (Edge α)) := by
        rw [Multiset.coe_card]
        rw [hveq] at hcount
        omega
      have hTeq : (↑mst : Multiset (Edge α)) = Tstar :=
        Multiset.eq_of_le_of_card_le hsubC hcard_mst
      rw [hw, hTeq]
      exact hwT

/-- A duplicate-free, reverse-free list of entries, each a stored edge or the
reverse of one, can be replaced value-for-value by stored edges: same count,
same total weight, same undirected steps. -/
theorem adjlist_to_stored {α : Type u} [Inhabited α] {g : Graph α} :
    ∀ (l : List (Edge α)),
    (∀ c ∈ l, c ∈ g.Edges ∨ c.Reverse ∈ g.Edges) →
    l.Nodup →
    (∀ c ∈ l, c.Reverse ∉ l) →
    ∃ T0 : Multiset (Edge α), T0 ≤ (↑g.Edges : Multiset (Edge α))
      ∧ Multiset.card T0 = l.length
      ∧ msWeight T0 = msWeight (↑l : Multiset (Edge α))
      ∧ (∀ v ∈ T0, ∃ d ∈ l, v = d ∨ v = d.Reverse)
      ∧ (∀ x y : Int, EStep (↑l : Multiset (Edge α)) x y → EStep T0 x y) := by
  intro l
  induction l with
  | nil =>
    intro _ _ _
    refine ⟨0, Multiset.zero_le _, rfl, by simp [msWeight], by simp, ?_⟩
    rintro x y ⟨e, he, -⟩
    exact absurd he (by simp)
  | cons c t ih =>
    intro hstored hnd hrf
    obtain ⟨T0t, hle, hcard, hwt, hform, hstept⟩ := ih
      (fun d hd => hstored d (List.mem_cons_of_mem c hd))
      (List.nodup_cons.1 hnd).2
      (fun d hd hcon => hrf d (List.mem_cons_of_mem c hd)
        (List.mem_cons_of_mem c hcon))
    have hcnotint : c ∉ t := (List.nodup_cons.1 hnd).1
    have hcrev : c.Reverse ∉ c :: t := hrf c (List.mem_cons_self c t)
    obtain ⟨c', hc'E, hc'or⟩ : ∃ c', c' ∈ g.Edges ∧ (c' = c ∨ c' = c.Reverse) := by
      rcases hstored c (List.mem_cons_self c t) with hc | hc
      · exact ⟨c, hc, Or.inl rfl⟩
      · exact ⟨c.Reverse, hc, Or.inr rfl⟩
    have hc'new : c' ∉ T0t := by
      intro hmem
      obtain ⟨d, hd, hdor⟩ := hform c' hmem
      rcases hc'or with h1 | h1 <;> rcases hdor with h2 | h2
      · apply hcnotint
        rw [h1] at h2
        rw [h2]
        exact hd
      · apply hcrev
        have hdc : d = c.Reverse := by
          rw [h1] at h2
          rw [h2]
          rfl
        rw [← hdc]
        exact List.mem_cons_of_mem c hd
      · apply hcrev
        rw [h1] at h2
        rw [h2]
        exact List.mem_cons_of_mem c hd
      · apply hcnotint
        have hdc : d = c := by
          rw [h1] at h2
          have := congrArg Edge.Reverse h2
          rw [show d.Reverse.Reverse = d from rfl,
            show c.Reverse.Reverse = c from rfl] at this
          exact this.symm
        rw [hdc] at hd
        exact hd
    have hle' : c' ::ₘ T0t ≤ (↑g.Edges : Multiset (Edge α)) := by
      classical
      rw [Multiset.le_iff_count]
      intro v
      by_cases hv : v = c'
      · subst hv
        rw [Multiset.count_cons_self]
        have h0 : Multiset.count v T0t = 0 := Multiset.count_eq_zero.2 hc'new
        have h1 : 1 ≤ Multiset.count v (↑g.Edges : Multiset (Edge α)) :=
          Multiset.one_le_count_iff_mem.2 (Multiset.mem_coe.2 hc'E)
        omega
      · rw [Multiset.count_cons_of_ne hv]
        exact Multiset.le_iff_count.1 hle v
    have hcw : c'.Weight = c.Weight := by
      rcases hc'or with h1 | h1 <;> rw [h1] <;> rfl
    refine ⟨c' ::ₘ T0t, hle', ?_, ?_, ?_, ?_⟩
    · rw [Multiset.card_cons, hcard, List.length_cons]
    · rw [msWeight_cons,
        show (↑(c :: t) : Multiset (Edge α)) = c ::ₘ (↑t) from
          (Multiset.cons_coe c t).symm,
        msWeight_cons, hcw, hwt]
    · intro v hv
      rcases Multiset.mem_cons.1 hv with h | h
      · refine ⟨c, List.mem_cons_self c t, ?_⟩
        rw [h]
        exact hc'or
      · obtain ⟨d, hd, hdor⟩ := hform v h
        exact ⟨d, List.mem_cons_of_mem c hd, hdor⟩
    · rintro x y ⟨e, he, ho⟩
      rcases List.mem_cons.1 (Multiset.mem_coe.1 he) with hec | het
      · subst hec
        refine ⟨c', Multiset.mem_cons_self c' T0t, ?_⟩
        rcases hc'or with h1 | h1
        · rw [h1]
          exact ho
        · rcases ho with ⟨hx, hy⟩ | ⟨hy, hx⟩
          · refine Or.inr ⟨?_, ?_⟩
            · rw [h1]
              exact hy
            · rw [h1]
              exact hx
          · refine Or.inl ⟨?_, ?_⟩
            · rw [h1]
              exact hx
            · rw [h1]
              exact hy
      · obtain ⟨e', he', ho'⟩ := hstept x y ⟨e, Multiset.mem_coe.2 het, ho⟩
        exact ⟨e', Multiset.mem_cons_of_mem he', ho'⟩

/-- Prim on a connected API-built graph from any stored start: the result has
`V-1` edges, its weight is the weight of some spanning tree of the stored
edge sequence, and it is minimal among all spanning trees. -/
theorem prim_opt {α : Type u} [Inhabited α] {g : Graph α}
    (hB : Built g)
    (hconn : ∀ x ∈ g.Vertices.dom, ∀ y ∈ g.Vertices.dom, g.Conn x y)
    {s : Int} (hs : s ∈ g.Vertices.dom) :
    ∃ mst w, g.Prim s = Res.ok (mst, w)
      ∧ (mst.length : Int) = (g.VertexCount : Int) - 1
      ∧ (∃ T0 : Multiset (Edge α), SpanningTree g T0 ∧ msWeight T0 = w)
      ∧ ∀ T0 : Multiset (Edge α), SpanningTree g T0 → w ≤ msWeight T0 := by
  have hG := built_ginv hB
  have hAP := built_adjPair hB
  have hlk : g.Vertices.lookup s = some (g.Vertices.fn s) := by
    unfold GoMap.lookup
    rw [if_pos hs]
  have hID : (g.Vertices.fn s).ID = s := hG.idKey s hs
  have hf : ∀ (acc : List (Edge α)) (x : Edge α),
      (∀ y ∈ heapPush acc x, y = x ∨ y ∈ acc)
      ∧ (heapPush acc x).length ≤ acc.length + 1 := by
    intro acc x
    constructor
    · intro y hy
      rcases List.mem_cons.1 ((heapPush_perm acc x).subset hy) with h | h
      · exact Or.inl h
      · exact Or.inr h
    · rw [(heapPush_perm acc x).length_eq]
      exact le_of_eq (List.length_cons x acc)
  obtain ⟨hmemF, hlenF⟩ := foldl_push_bound
    (fun acc e => heapPush acc e) hf (g.Vertices.fn s).Edges (heapInit [])
  have hinit_nil : heapInit ([] : List (Edge α)) = [] := by simp [heapInit]
  have hpq1 : ∀ x ∈ (g.Vertices.fn s).Edges.foldl
      (fun acc e => heapPush acc e) (heapInit []),
      x.From ∈ ({s} : Finset Int) ∧ x.From ∈ g.Vertices.dom
      ∧ x ∈ g.adjOf x.From := by
    intro x hx
    rcases hmemF x hx with h | h
    · rw [hinit_nil] at h
      exact absurd h (List.not_mem_nil x)
    · have hxF : x.From = s := hG.adjFrom s hs x h
      refine ⟨by rw [hxF]; exact Finset.mem_singleton_self s,
        by rw [hxF]; exact hs, ?_⟩
      rw [hxF, adjOf_eq_fn hs]
      exact h
  have hheapnil : IsHeap (heapInit ([] : List (Edge α))) := by
    rw [hinit_nil]
    intro i j a b hch hj ha hb
    exact absurd hj (Nat.not_lt_zero j)
  have hheap1 : IsHeap ((g.Vertices.fn s).Edges.foldl
      (fun acc e => heapPush acc e) (heapInit [])) :=
    foldl_push_isHeap _ (fun acc e h => heapPush_isHeap h e) _ _ hheapnil
  have hcross1 : ∀ x ∈ ({s} : Finset Int), ∀ ed ∈ g.adjOf x,
      ed.To ∉ ({s} : Finset Int) →
      ed ∈ (g.Vertices.fn s).Edges.foldl
        (fun acc e => heapPush acc e) (heapInit []) := by
    intro x hx ed hed _
    have hxs : x = s := Finset.mem_singleton.1 hx
    subst hxs
    rw [adjOf_eq_fn hs] at hed
    refine foldl_push_mem_self _ (fun _ => True)
      (fun acc e y hy => (heapPush_perm acc e).mem_iff.2 (List.mem_cons_of_mem e hy))
      (fun acc e _ => (heapPush_perm acc e).mem_iff.2 (List.mem_cons_self e acc))
      _ _ ed hed trivial
  have hsum : (g.Vertices.dom \ {s}).sum
        (fun id => (g.Vertices.fn id).Edges.length)
      + (g.Vertices.fn s).Edges.length = g.sumAdj := by
    unfold Graph.sumAdj
    rw [Finset.sdiff_singleton_eq_erase]
    exact Finset.sum_erase_add _ _ hs
  have hlen0 : (heapInit ([] : List (Edge α))).length = 0 := by
    rw [hinit_nil]
    rfl
  have hfuel : ((g.Vertices.fn s).Edges.foldl
        (fun acc e => heapPush acc e) (heapInit [])).length
      + (g.Vertices.dom \ {s}).sum (fun id => (g.Vertices.fn id).Edges.length)
      < g.primFuel := by
    have hPF : g.primFuel = 2 * g.sumAdj + 2 := rfl
    omega
  have hcount1 : (([] : List (Edge α)).length) + 1 = ({s} : Finset Int).card := by
    rfl
  have hR1 : ∀ x ∈ ({s} : Finset Int),
      EConn (↑([] : List (Edge α)) : Multiset (Edge α)) s x := by
    intro x hx
    rw [Finset.mem_singleton.1 hx]
    exact Relation.ReflTransGen.refl
  have hw0 : (0 : Int) = msWeight (↑([] : List (Edge α)) : Multiset (Edge α)) := by
    simp [msWeight]
  obtain ⟨mstP, wP, hloop, hlenP, hwP, hRP, hMadjP, hndP, hrfP⟩ :=
    primLoop_spanning hG hconn g.primFuel
      ((g.Vertices.fn s).Edges.foldl (fun acc e => heapPush acc e) (heapInit []))
      {s} [] 0 hpq1 (Finset.mem_singleton_self s)
      (Finset.singleton_subset_iff.2 hs) hcount1 hcross1
      (fun c hc => absurd hc (List.not_mem_nil c))
      (fun c hc => absurd hc (List.not_mem_nil c)) hR1 List.nodup_nil
      (fun c hc => absurd hc (List.not_mem_nil c)) hw0 hfuel
  have hVC : g.VertexCount = g.Vertices.dom.card := rfl
  have hpos : 0 < g.Vertices.dom.card := Finset.card_pos.2 ⟨s, hs⟩
  have hstored : ∀ c ∈ mstP, c ∈ g.Edges ∨ c.Reverse ∈ g.Edges := by
    intro c hc
    obtain ⟨hd, hadj⟩ := hMadjP c hc
    obtain ⟨hd2, hm⟩ := adjOf_mem_dest hadj
    rcases hG.adjEdge c.From hd2 c hm with h | ⟨e0, he0, hre⟩
    · exact Or.inl h
    · refine Or.inr ?_
      rw [hre]
      exact he0
  obtain ⟨T0P, hT0le, hT0card, hT0w, hT0form, hT0step⟩ :=
    adjlist_to_stored mstP hstored hndP hrfP
  have hT0span : ∀ x ∈ g.Vertices.dom, ∀ y ∈ g.Vertices.dom, EConn T0P x y := by
    intro x hx y hy
    refine Relation.ReflTransGen.mono (fun a b hab => hT0step a b hab) ?_
    exact (econn_symm' (hRP x hx)).trans (hRP y hy)
  have hT0tree : SpanningTree g T0P := by
    refine ⟨hT0le, ?_, hT0span⟩
    rw [hT0card]
    rw [hVC] at hlenP
    omega
  have hopt : ∀ T0 : Multiset (Edge α), SpanningTree g T0 →
      wP ≤ msWeight T0 := by
    intro T0 hT0
    obtain ⟨hT0sub, hT0card', hT0span'⟩ := hT0
    have hTmem0 : ∀ t ∈ T0, t.From ∈ g.Vertices.dom ∧ t.To ∈ g.Vertices.dom
        ∧ t ∈ g.adjOf t.From := by
      intro t ht
      have htE : t ∈ g.Edges := Multiset.mem_coe.1 (Multiset.mem_of_le hT0sub ht)
      obtain ⟨hd, hm⟩ := built_edgeAdj hB t htE
      refine ⟨hd, hG.edgeToDom t htE, ?_⟩
      rw [adjOf_eq_fn hd]
      exact hm
    obtain ⟨mst2, w2, hloop2, hle2⟩ :=
      primLoop_weight hG hAP hconn (msWeight T0) g.primFuel
        ((g.Vertices.fn s).Edges.foldl (fun acc e => heapPush acc e) (heapInit []))
        {s} [] 0 T0 hpq1 hheap1 (Finset.mem_singleton_self s)
        (Finset.singleton_subset_iff.2 hs) hcount1 hcross1
        (fun c hc => absurd hc (List.not_mem_nil c))
        (by simp) hT0card' hT0span' hTmem0 (le_refl _) hw0 hfuel
    have hu := hloop.symm.trans hloop2
    simp only [Option.some.injEq, Prod.mk.injEq] at hu
    rw [hu.2]
    exact hle2
  refine ⟨mstP, wP, ?_, hlenP, ⟨T0P, hT0tree, hT0w.trans hwP.symm⟩, hopt⟩
  have hIDset : ({(g.Vertices.fn s).ID} : Finset Int) = {s} := by
    rw [hID]
  simp only [Graph.Prim, hlk, hG.undirected, Bool.false_eq_true, if_false,
    hIDset]
  rw [hloop]

theorem built_gP : Built gP := by
  show Built ((NewGraph false : Graph Int).AddEdge (wE 1 2 5)).1
  exact Built.addE (NewGraph false : Graph Int) (wV 1 "") (wV 2 "") 5 0 rfl rfl
    Built.base

theorem gP_conn : ∀ x ∈ gP.Vertices.dom, ∀ y ∈ gP.Vertices.dom, gP.Conn x y := by
  have hdom : gP.Vertices.dom = {1, 2} := by decide
  have h12 : gP.adjacent 1 2 := ⟨Edge.mk 1 2 5 0, by decide, rfl⟩
  have h21 : gP.adjacent 2 1 := ⟨Edge.mk 2 1 5 0, by decide, rfl⟩
  intro x hx y hy
  rw [hdom] at hx hy
  have hx' : x = 1 ∨ x = 2 := by
    rcases Finset.mem_insert.1 hx with h | h
    · exact Or.inl h
    · exact Or.inr (Finset.mem_singleton.1 h)
  have hy' : y = 1 ∨ y = 2 := by
    rcases Finset.mem_insert.1 hy with h | h
    · exact Or.inl h
    · exact Or.inr (Finset.mem_singleton.1 h)
  rcases hx' with h1 | h1 <;> rcases hy' with h2 | h2 <;> subst h1 <;> subst h2
  · exact Relation.ReflTransGen.refl
  · exact Relation.ReflTransGen.single h12
  · exact Relation.ReflTransGen.single h21
  · exact Relation.ReflTransGen.refl

/-- C4: on every connected API-built undirected weighted graph — under every
map-iteration order covering the keys, every weight-sorted permutation of the
copied edge slice, and every stored start vertex — Kruskal and Prim both
return normally with exactly `V-1` edges, and their total weights are
equal. -/
theorem kruskal_prim_agree {α : Type u} [Inhabited α] {g : Graph α}
    (hB : Built g)
    (hconn : ∀ x ∈ g.Vertices.dom, ∀ y ∈ g.Vertices.dom, g.Conn x y)
    (enum : List Int) (es : List (Edge α))
    (henum : enum.toFinset = g.Vertices.dom) (hperm : es.Perm g.Edges)
    (hsort : es.Pairwise (fun a b => a.Weight ≤ b.Weight))
    {s : Int} (hs : s ∈ g.Vertices.dom) :
    ∃ mstK wK mstP wP,
      g.KruskalWith enum es = Res.ok (mstK, wK)
      ∧ g.Prim s = Res.ok (mstP, wP)
      ∧ (mstK.length : Int) = (g.VertexCount : Int) - 1
      ∧ (mstP.length : Int) = (g.VertexCount : Int) - 1
      ∧ wK = wP := by
  obtain ⟨mstK, wK, hKrun, hKlen, hKtree, hKw, hKopt⟩ :=
    kruskal_opt hB hs hconn enum es henum hperm hsort
  obtain ⟨mstP, wP, hPrun, hPlen, ⟨T0P, hT0tree, hT0w⟩, hPopt⟩ :=
    prim_opt hB hconn hs
  refine ⟨mstK, wK, mstP, wP, hKrun, hPrun, hKlen, hPlen, le_antisymm ?_ ?_⟩
  · have hle := hKopt T0P hT0tree
    rw [hT0w] at hle
    exact hle
  · have hle := hPopt (↑mstK) hKtree
    rw [← hKw] at hle
    exact hle

/-- C4 (witness): on the one-edge graph `1 -5- 2` with its two-key
enumeration, its already-sorted edge copy, and start 1, both algorithms
return one edge and the same weight. -/
theorem kruskal_prim_agree_witness :
    ∃ mstK wK mstP wP,
      gP.KruskalWith [1, 2] [Edge.mk 1 2 5 0] = Res.ok (mstK, wK)
      ∧ gP.Prim 1 = Res.ok (mstP, wP)
      ∧ (mstK.length : Int) = (gP.VertexCount : Int) - 1
      ∧ (mstP.length : Int) = (gP.VertexCount : Int) - 1
      ∧ wK = wP :=
  kruskal_prim_agree built_gP gP_conn [1, 2] [Edge.mk 1 2 5 0]
    (by decide) (by decide) (by decide) (by decide)

end MST
